import Mathlib

/-!
# digilol-cert-pushpuller: encrypted certificate synchronisation

A shallow embedding of the key store (`internal/config`), the manifest store
(`internal/s3`), and the `push` and `pull` engines, with the properties proved of
them. Go strings and byte slices are lists of bytes. The file system, the bucket,
the entropy source and the effect log form an explicit `World` that every
operation passes along; SHA-256, the sealing primitive, `json.Marshal`, shell
commands and the answer of `filepath.Glob` for a key directory path that is itself
a pattern are parameters collected in `Env`. The parts of the Go standard library
the program's behaviour depends on (`strings`, `encoding/base64`, `encoding/hex`,
`encoding/json`, `unicode/utf8`, `path/filepath`) are modelled from their
documented behaviour; `jsonMarshal` is the model of `json.Marshal` on a string
map. One `ListObjectsV2` request returns the first page of keys only, as the S3
API documents it.
-/

/-- A byte. -/
abbrev Byte := Fin 256

/-- Go strings and byte slices: finite sequences of bytes. -/
abbrev Bytes := List Byte

/-- UTF-8 encoding of one character. -/
def utf8 (c : Char) : Bytes := (String.utf8EncodeChar c).map (fun b => b.val)

/-- The bytes of a string literal (its UTF-8 encoding, as in Go source text). -/
def str (s : String) : Bytes := s.toList.flatMap utf8

/-- The byte with value `n % 256`. -/
def byte (n : Nat) : Byte := ⟨n % 256, Nat.mod_lt _ (by decide)⟩

/-! ## Go standard library: strings -/

/-- Go `strings.HasSuffix`. -/
def hasSuffix (s suffix : Bytes) : Bool := suffix.isSuffixOf s

/-- Go `strings.TrimSuffix`. -/
def trimSuffix (s suffix : Bytes) : Bytes :=
  if hasSuffix s suffix then s.take (s.length - suffix.length) else s

/-- Go `asciiSpace`: tab, newline, vertical tab, form feed, carriage return, space. -/
def isAsciiSpace (c : Byte) : Bool :=
  (9 ≤ c.val && c.val ≤ 13) || c.val == 32

/-- Third byte `c` of a three-byte white-space rune whose first two bytes are `a b`:
U+1680, U+2000..U+200A, U+2028, U+2029, U+202F, U+205F, U+3000. -/
def isSpace3 (a b c : Nat) : Bool :=
  (a == 0xE1 && b == 0x9A && c == 0x80) ||
  (a == 0xE2 && b == 0x80 && ((0x80 ≤ c && c ≤ 0x8A) || c == 0xA8 || c == 0xA9 || c == 0xAF)) ||
  (a == 0xE2 && b == 0x81 && c == 0x9F) ||
  (a == 0xE3 && b == 0x80 && c == 0x80)

/-- Two-byte white-space runes U+0085 and U+00A0. -/
def isSpace2 (a b : Nat) : Bool := a == 0xC2 && (b == 0x85 || b == 0xA0)

/-- Width of the white-space rune (Go `unicode.IsSpace`) encoded at the head of `s`;
`0` when `s` does not start with one. -/
def spaceLen : Bytes → Nat
  | [] => 0
  | a :: rest =>
    if isAsciiSpace a then 1
    else match rest with
      | [] => 0
      | b :: rest2 =>
        if isSpace2 a.val b.val then 2
        else match rest2 with
          | [] => 0
          | c :: _ => if isSpace3 a.val b.val c.val then 3 else 0

/-- Width of the white-space rune encoded at the end of the string whose reversal is `r`. -/
def spaceLenRev : Bytes → Nat
  | [] => 0
  | c :: rest =>
    if isAsciiSpace c then 1
    else match rest with
      | [] => 0
      | b :: rest2 =>
        if isSpace2 b.val c.val then 2
        else match rest2 with
          | [] => 0
          | a :: _ => if isSpace3 a.val b.val c.val then 3 else 0

/-- Strip leading white-space runes, at most `fuel` of them. -/
def trimLeftFuel : Nat → Bytes → Bytes
  | 0, s => s
  | fuel + 1, s =>
    match spaceLen s with
    | 0 => s
    | k + 1 => trimLeftFuel fuel (s.drop (k + 1))

/-- Strip trailing white-space runes from the string whose reversal is `r`. -/
def trimRevFuel : Nat → Bytes → Bytes
  | 0, r => r
  | fuel + 1, r =>
    match spaceLenRev r with
    | 0 => r
    | k + 1 => trimRevFuel fuel (r.drop (k + 1))

/-- Go `strings.TrimSpace`: removes all leading and trailing white space, as defined
by Unicode. -/
def trimSpace (s : Bytes) : Bytes :=
  let l := trimLeftFuel s.length s
  (trimRevFuel l.length l.reverse).reverse

/-! ## Go standard library: encoding/base64 (StdEncoding) and encoding/hex -/

/-- The standard base64 alphabet, by index. -/
def b64Char (i : Nat) : Byte :=
  if i < 26 then byte (65 + i)
  else if i < 52 then byte (97 + (i - 26))
  else if i < 62 then byte (48 + (i - 52))
  else if i = 62 then byte 43
  else byte 47

/-- Inverse of the standard base64 alphabet. -/
def b64Val (c : Byte) : Option Nat :=
  if 65 ≤ c.val ∧ c.val ≤ 90 then some (c.val - 65)
  else if 97 ≤ c.val ∧ c.val ≤ 122 then some (c.val - 97 + 26)
  else if 48 ≤ c.val ∧ c.val ≤ 57 then some (c.val - 48 + 52)
  else if c.val = 43 then some 62
  else if c.val = 47 then some 63
  else none

/-- Go `base64.StdEncoding.EncodeToString`. -/
def b64Encode : Bytes → Bytes
  | [] => []
  | [a] => [b64Char (a.val / 4), b64Char (a.val % 4 * 16), 61, 61]
  | [a, b] =>
    [b64Char (a.val / 4), b64Char (a.val % 4 * 16 + b.val / 16), b64Char (b.val % 16 * 4), 61]
  | a :: b :: c :: rest =>
    b64Char (a.val / 4) :: b64Char (a.val % 4 * 16 + b.val / 16) ::
      b64Char (b.val % 16 * 4 + c.val / 64) :: b64Char (c.val % 64) :: b64Encode rest

/-- Decoding of the quanta of a base64 text from which line breaks were removed:
quanta of four alphabet characters, the last one possibly padded with `=` (`xx==` or
`xxx=`, with nothing after the padding); anything else is corrupt input. -/
def b64DecodeQuanta : Bytes → Option Bytes
  | [] => some []
  | c0 :: c1 :: c2 :: c3 :: rest =>
    match b64Val c0, b64Val c1, b64Val c2, b64Val c3 with
    | some d0, some d1, some d2, some d3 =>
      (b64DecodeQuanta rest).map fun out =>
        byte (d0 * 4 + d1 / 16) :: byte (d1 % 16 * 16 + d2 / 4) :: byte (d2 % 4 * 64 + d3) :: out
    | some d0, some d1, some d2, none =>
      if c3 = 61 ∧ rest = [] then
        some [byte (d0 * 4 + d1 / 16), byte (d1 % 16 * 16 + d2 / 4)]
      else none
    | some d0, some d1, none, none =>
      if c2 = 61 ∧ c3 = 61 ∧ rest = [] then some [byte (d0 * 4 + d1 / 16)] else none
    | _, _, _, _ => none
  | _ => none

/-- Go `base64.StdEncoding.DecodeString` (padded, non-strict): carriage returns and
newlines are ignored, and `none` stands for `CorruptInputError`. -/
def b64Decode (s : Bytes) : Option Bytes :=
  b64DecodeQuanta (s.filter (fun c => !(c == 10 || c == 13)))

/-- Go `hex.EncodeToString`: two lowercase hexadecimal digits per byte. -/
def hexDigit (n : Nat) : Byte := if n < 10 then byte (48 + n) else byte (87 + n)

/-- Go `hex.EncodeToString`. -/
def hexEncode : Bytes → Bytes
  | [] => []
  | b :: rest => hexDigit (b.val / 16) :: hexDigit (b.val % 16) :: hexEncode rest

/-! ## Finite maps as association lists (Go maps, directories, buckets) -/

/-- Value bound to key `k`, if any. -/
def assocGet {β : Type} : List (Bytes × β) → Bytes → Option β
  | [], _ => none
  | (k', v) :: rest, k => if k' = k then some v else assocGet rest k

/-- Bind `k` to `v`, replacing an existing binding in place. -/
def assocSet {β : Type} : List (Bytes × β) → Bytes → β → List (Bytes × β)
  | [], k, v => [(k, v)]
  | (k', v') :: rest, k, v =>
    if k' = k then (k, v) :: rest else (k', v') :: assocSet rest k v

/-! ## The environment: file system, object store, entropy, external primitives -/

/-- A directory entry. `unreadable` is a non-directory entry that cannot be opened. -/
inductive Node where
  | file (data : Bytes)
  | dir
  | unreadable
  deriving DecidableEq, Repr

/-- A directory of the local file system: its entries by name, and whether creating
it (`os.MkdirAll`), writing into it (`os.WriteFile`) or listing it (`os.ReadDir`) fails. -/
structure Dir where
  entries : List (Bytes × Node)
  mkdirErr : Bool
  writeErr : Bool
  listErr : Bool
  deriving DecidableEq, Repr

/-- Go `os.ReadFile` on entry `name` of directory `d`. -/
def ReadFile (d : Dir) (name : Bytes) : Option Bytes :=
  match assocGet d.entries name with
  | some (Node.file data) => some data
  | _ => none

/-- Go `os.WriteFile` on entry `name` of directory `d`: creates or truncates the file. -/
def WriteFile (d : Dir) (name data : Bytes) : Option Dir :=
  if d.writeErr then none
  else match assocGet d.entries name with
    | some Node.dir => none
    | some Node.unreadable => none
    | _ => some { d with entries := assocSet d.entries name (Node.file data) }

/-- Errors returned by the program, one constructor per `fmt.Errorf` site. -/
inductive Err where
  | generateRandomKey
  | createKeyDirectory
  | writeKeyFile
  | readKeyFile
  | decodeKey
  | invalidKeySize (n : Nat)
  | loadS3Config
  | readCertificateDirectory
  | getEncryptionKey (cause : Err)
  | encrypt
  | upload (key : Bytes)
  | listKeyFiles
  | listS3Objects
  | createCertificateDirectory
  | download (key : Bytes)
  | readBody (key : Bytes)
  | decrypt (key : Bytes)
  | writeFile (name : Bytes)
  | runReloadCommand
  deriving DecidableEq, Repr

/-- Results of fallible operations can be compared. -/
instance instDecidableEqExceptErr {α : Type} [DecidableEq α] : DecidableEq (Except Err α) :=
  fun a b =>
    match a, b with
    | Except.ok x, Except.ok y =>
      if h : x = y then isTrue (by rw [h]) else isFalse (fun e => h (by cases e; rfl))
    | Except.error x, Except.error y =>
      if h : x = y then isTrue (by rw [h]) else isFalse (fun e => h (by cases e; rfl))
    | Except.ok _, Except.error _ => isFalse (fun e => by cases e)
    | Except.error _, Except.ok _ => isFalse (fun e => by cases e)

/-- The bucket behind the S3 client: its objects by key, and which requests fail. -/
structure Remote where
  objects : List (Bytes × Bytes)
  clientErr : Bool
  getErr : List Bytes
  bodyErr : List Bytes
  putErr : List Bytes
  listErr : Bool
  deriving DecidableEq, Repr

/-- Observable effects, in the order they happen. -/
inductive Event where
  | keyWrite (name data : Bytes)
  | certWrite (name data : Bytes)
  | put (key body : Bytes) (ok : Bool)
  | get (key : Bytes)
  | list
  | run (cmd : Bytes)
  deriving DecidableEq, Repr

/-- State of the world a run acts on. `tick` counts the draws made from the entropy
source so far. -/
structure World where
  certDir : Dir
  keyDir : Dir
  remote : Remote
  tick : Nat
  log : List Event
  deriving DecidableEq, Repr

/-- External primitives the program calls: SHA-256, the `sio` sealing primitive
(its output depends on the entropy drawn), the entropy source, `json.Marshal` on a
string map, shell commands (which succeed or fail), and what `filepath.Glob`
answers for `<dir>/*.key` when the path `dir` is itself a pattern: the matches
then come from whatever directories of the file system the pattern names, and
`none` is `ErrBadPattern`. -/
structure Env where
  sha256 : Bytes → Bytes
  encrypt : Nat → Bytes → Bytes → Option Bytes
  decrypt : Bytes → Bytes → Option Bytes
  rand : Nat → Option Bytes
  marshal : List (Bytes × Bytes) → Bytes
  run : Bytes → Bool
  glob : Bytes → Option (List Bytes)

/-! ## internal/config -/

/-- Source: `ExtractCertName` (internal/config/cert.go). -/
def ExtractCertName (fileName : Bytes) : Bytes × Bool :=
  if hasSuffix fileName (str ".crt") && !hasSuffix fileName (str ".issuer.crt") then
    (trimSuffix fileName (str ".crt"), true)
  else if hasSuffix fileName (str ".key") then
    (trimSuffix fileName (str ".key"), true)
  else (str "", false)

/-- Source: `GenerateKey`. A 32-byte buffer is allocated zeroed and filled by the
entropy source; the draw is number `w.tick`. -/
def GenerateKey (E : Env) (w : World) : Except Err Bytes × World :=
  let w1 := { w with tick := w.tick + 1 }
  match E.rand w.tick with
  | none => (Except.error Err.generateRandomKey, w1)
  | some bs => (Except.ok ((bs ++ List.replicate 32 0).take 32), w1)

/-- Source: `SaveKey`. Returns the key directory after the write. -/
def SaveKey (keyDir : Dir) (certName key : Bytes) : Except Err Dir :=
  if keyDir.mkdirErr then Except.error Err.createKeyDirectory
  else
    let encoded := b64Encode key ++ str "\n"
    match WriteFile keyDir (certName ++ str ".key") encoded with
    | none => Except.error Err.writeKeyFile
    | some d => Except.ok d

/-- Source: `LoadKey`. -/
def LoadKey (keyDir : Dir) (certName : Bytes) : Except Err Bytes :=
  match ReadFile keyDir (certName ++ str ".key") with
  | none => Except.error Err.readKeyFile
  | some data =>
    let encoded := trimSpace data
    match b64Decode encoded with
    | none => Except.error Err.decodeKey
    | some decoded =>
      if decoded.length ≠ 32 then Except.error (Err.invalidKeySize decoded.length)
      else Except.ok decoded

/-- Source: `GetOrCreateKey`. -/
def GetOrCreateKey (E : Env) (w : World) (certName : Bytes) : Except Err Bytes × World :=
  match LoadKey w.keyDir certName with
  | Except.ok key => (Except.ok key, w)
  | Except.error _ =>
    match GenerateKey E w with
    | (Except.error e, w1) => (Except.error e, w1)
    | (Except.ok key, w1) =>
      match SaveKey w1.keyDir certName key with
      | Except.error e => (Except.error e, w1)
      | Except.ok d =>
        (Except.ok key,
          { w1 with keyDir := d,
                    log := w1.log ++ [Event.keyWrite (certName ++ str ".key")
                      (b64Encode key ++ str "\n")] })

/-! ## Go standard library: encoding/json, decoding into a `map[string]string` -/

/-- JSON insignificant white space: space, tab, line feed, carriage return. -/
def isJsonSpace (c : Byte) : Bool := c == 32 || c == 9 || c == 10 || c == 13

/-- Skip JSON white space. -/
def skipWs : Bytes → Bytes
  | [] => []
  | c :: rest => if isJsonSpace c then skipWs rest else c :: rest

/-- Value of a hexadecimal digit. -/
def hexVal (c : Byte) : Option Nat :=
  if 48 ≤ c.val ∧ c.val ≤ 57 then some (c.val - 48)
  else if 97 ≤ c.val ∧ c.val ≤ 102 then some (c.val - 87)
  else if 65 ≤ c.val ∧ c.val ≤ 70 then some (c.val - 55)
  else none

/-- Four hexadecimal digits at the head of the input, as a number. -/
def hex4 : Bytes → Option (Nat × Bytes)
  | a :: b :: c :: d :: rest =>
    match hexVal a, hexVal b, hexVal c, hexVal d with
    | some x, some y, some z, some w => some (((x * 16 + y) * 16 + z) * 16 + w, rest)
    | _, _, _, _ => none
  | _ => none

/-- Go `utf8.EncodeRune`, for code points that are not surrogates. -/
def encodeRune (r : Nat) : Bytes :=
  if r < 0x80 then [byte r]
  else if r < 0x800 then [byte (0xC0 + r / 64), byte (0x80 + r % 64)]
  else if r < 0x10000 then
    [byte (0xE0 + r / 4096), byte (0x80 + r / 64 % 64), byte (0x80 + r % 64)]
  else
    [byte (0xF0 + r / 262144), byte (0x80 + r / 4096 % 64), byte (0x80 + r / 64 % 64),
      byte (0x80 + r % 64)]

/-- Is `c` a UTF-8 continuation byte within `[lo, hi]`. -/
def inRange (lo hi : Nat) (c : Byte) : Bool := lo ≤ c.val && c.val ≤ hi

/-- Width of the well-formed UTF-8 sequence at the head of the input (Go
`utf8.DecodeRune`), `0` when the first byte starts no well-formed sequence. -/
def utf8Width : Bytes → Nat
  | [] => 0
  | a :: rest =>
    if a.val < 0x80 then 1
    else if 0xC2 ≤ a.val ∧ a.val ≤ 0xDF then
      match rest with
      | b :: _ => if inRange 0x80 0xBF b then 2 else 0
      | _ => 0
    else if 0xE0 ≤ a.val ∧ a.val ≤ 0xEF then
      match rest with
      | b :: c :: _ =>
        let lo := if a.val = 0xE0 then 0xA0 else 0x80
        let hi := if a.val = 0xED then 0x9F else 0xBF
        if inRange lo hi b && inRange 0x80 0xBF c then 3 else 0
      | _ => 0
    else if 0xF0 ≤ a.val ∧ a.val ≤ 0xF4 then
      match rest with
      | b :: c :: d :: _ =>
        let lo := if a.val = 0xF0 then 0x90 else 0x80
        let hi := if a.val = 0xF4 then 0x8F else 0xBF
        if inRange lo hi b && inRange 0x80 0xBF c && inRange 0x80 0xBF d then 4 else 0
      | _ => 0
    else 0

/-- The replacement character U+FFFD in UTF-8. -/
def replacementChar : Bytes := [0xEF, 0xBF, 0xBD]

/-- Go `utf8.Valid`, rune by rune; `fuel` bounds the number of runes. -/
def validUtf8Fuel : Nat → Bytes → Bool
  | 0, s => s.isEmpty
  | _ + 1, [] => true
  | fuel + 1, c :: rest =>
    match utf8Width (c :: rest) with
    | 0 => false
    | n + 1 => validUtf8Fuel fuel (rest.drop n)

/-- Go `utf8.Valid`: is the string well-formed UTF-8. -/
def validUtf8 (s : Bytes) : Bool := validUtf8Fuel (s.length + 1) s

/-- The body of a JSON string literal after its opening quote: scans to the closing
quote as Go's scanner does (control characters and unknown escapes are syntax
errors) and unquotes as Go `unquoteBytes` does (escapes are resolved, a surrogate
pair becomes one rune, a lone surrogate and every ill-formed UTF-8 byte become
U+FFFD). Returns the string and the input after the closing quote. -/
def parseString : Nat → Bytes → Option (Bytes × Bytes)
  | 0, _ => none
  | _ + 1, [] => none
  | fuel + 1, c :: rest =>
    if c = 34 then some ([], rest)
    else if c.val < 32 then none
    else if c = 92 then
      match rest with
      | [] => none
      | e :: rest2 =>
        let simple (b : Byte) : Option (Bytes × Bytes) :=
          (parseString fuel rest2).map fun p => (b :: p.1, p.2)
        if e = 34 ∨ e = 92 ∨ e = 47 then simple e
        else if e = 98 then simple 8
        else if e = 102 then simple 12
        else if e = 110 then simple 10
        else if e = 114 then simple 13
        else if e = 116 then simple 9
        else if e = 117 then
          match hex4 rest2 with
          | none => none
          | some (rr, rest3) =>
            if 0xD800 ≤ rr ∧ rr < 0xE000 then
              let pair : Option (Nat × Bytes) :=
                match rest3 with
                | 92 :: 117 :: rest4 =>
                  match hex4 rest4 with
                  | some (rr1, rest5) =>
                    if rr < 0xDC00 ∧ 0xDC00 ≤ rr1 ∧ rr1 < 0xE000 then
                      some ((rr - 0xD800) * 1024 + (rr1 - 0xDC00) + 0x10000, rest5)
                    else none
                  | none => none
                | _ => none
              match pair with
              | some (dec, rest5) =>
                (parseString fuel rest5).map fun p => (encodeRune dec ++ p.1, p.2)
              | none => (parseString fuel rest3).map fun p => (replacementChar ++ p.1, p.2)
            else (parseString fuel rest3).map fun p => (encodeRune rr ++ p.1, p.2)
        else none
    else
      match utf8Width (c :: rest) with
      | 0 => (parseString fuel rest).map fun p => (replacementChar ++ p.1, p.2)
      | n + 1 =>
        (parseString fuel (rest.drop n)).map fun p => ((c :: rest).take (n + 1) ++ p.1, p.2)

/-- Is `c` a decimal digit. -/
def isDigit (c : Byte) : Bool := 48 ≤ c.val && c.val ≤ 57

/-- Skip decimal digits. -/
def skipDigits : Bytes → Bytes
  | [] => []
  | c :: rest => if isDigit c then skipDigits rest else c :: rest

/-- One or more decimal digits. -/
def digits1 : Bytes → Option Bytes
  | c :: rest => if isDigit c then some (skipDigits rest) else none
  | [] => none

/-- A JSON number: optional minus, integer part without leading zeros, optional
fraction, optional exponent. Returns the input after the number. -/
def parseNumber (s : Bytes) : Option Bytes :=
  let s1 := match s with
    | 45 :: r => r
    | _ => s
  let intPart : Option Bytes := match s1 with
    | 48 :: r => some r
    | c :: r => if isDigit c then some (skipDigits r) else none
    | [] => none
  match intPart with
  | none => none
  | some s2 =>
    let frac : Option Bytes := match s2 with
      | 46 :: r => digits1 r
      | _ => some s2
    match frac with
    | none => none
    | some s3 =>
      match s3 with
      | e :: r =>
        if e = 101 ∨ e = 69 then
          match r with
          | sgn :: r2 => if sgn = 43 ∨ sgn = 45 then digits1 r2 else digits1 r
          | [] => none
        else some s3
      | [] => some s3

/-- What a JSON value is, as far as decoding into a Go `string` can tell. -/
inductive JKind where
  | null
  | bool
  | number
  | string (s : Bytes)
  | array
  | object
  deriving DecidableEq, Repr

/-- A parsed JSON value: the members of an object in source order, or a value of
another kind. -/
inductive JVal where
  | members (ms : List (Bytes × JKind))
  | other (k : JKind)
  deriving DecidableEq, Repr

/-- The kind of a parsed value. -/
def JVal.kind : JVal → JKind
  | JVal.members _ => JKind.object
  | JVal.other k => k

/-- Go's scanner nesting limit. -/
def maxNestingDepth : Nat := 10000

mutual
/-- One JSON value at the head of the input (white space already skipped), at the
given nesting depth. -/
def parseValue : Nat → Nat → Bytes → Option (JVal × Bytes)
  | 0, _, _ => none
  | _ + 1, _, [] => none
  | fuel + 1, depth, c :: rest =>
    if c = 123 then
      if depth + 1 > maxNestingDepth then none
      else match skipWs rest with
        | 125 :: rest2 => some (JVal.members [], rest2)
        | rest2 => (parseMembers fuel (depth + 1) rest2).map fun p => (JVal.members p.1, p.2)
    else if c = 91 then
      if depth + 1 > maxNestingDepth then none
      else match skipWs rest with
        | 93 :: rest2 => some (JVal.other JKind.array, rest2)
        | rest2 => (parseElements fuel (depth + 1) rest2).map fun r => (JVal.other JKind.array, r)
    else if c = 34 then
      (parseString (rest.length + 1) rest).map fun p => (JVal.other (JKind.string p.1), p.2)
    else if c = 116 then
      match rest with
      | 114 :: 117 :: 101 :: rest2 => some (JVal.other JKind.bool, rest2)
      | _ => none
    else if c = 102 then
      match rest with
      | 97 :: 108 :: 115 :: 101 :: rest2 => some (JVal.other JKind.bool, rest2)
      | _ => none
    else if c = 110 then
      match rest with
      | 117 :: 108 :: 108 :: rest2 => some (JVal.other JKind.null, rest2)
      | _ => none
    else (parseNumber (c :: rest)).map fun r => (JVal.other JKind.number, r)
/-- The members of an object after its opening brace, up to and including the
closing brace. -/
def parseMembers : Nat → Nat → Bytes → Option (List (Bytes × JKind) × Bytes)
  | 0, _, _ => none
  | fuel + 1, depth, s =>
    match s with
    | 34 :: rest =>
      match parseString (rest.length + 1) rest with
      | none => none
      | some (key, rest2) =>
        match skipWs rest2 with
        | 58 :: rest3 =>
          match parseValue fuel depth (skipWs rest3) with
          | none => none
          | some (v, rest4) =>
            match skipWs rest4 with
            | 125 :: rest5 => some ([(key, v.kind)], rest5)
            | 44 :: rest5 =>
              (parseMembers fuel depth (skipWs rest5)).map fun p => ((key, v.kind) :: p.1, p.2)
            | _ => none
        | _ => none
    | _ => none
/-- The elements of an array after its opening bracket, up to and including the
closing bracket. -/
def parseElements : Nat → Nat → Bytes → Option Bytes
  | 0, _, _ => none
  | fuel + 1, depth, s =>
    match parseValue fuel depth s with
    | none => none
    | some (_, rest) =>
      match skipWs rest with
      | 93 :: rest2 => some rest2
      | 44 :: rest2 => parseElements fuel depth (skipWs rest2)
      | _ => none
end

/-- A whole JSON text: one value surrounded by optional white space (Go
`checkValid`); `none` is a syntax error. -/
def jsonParse (data : Bytes) : Option JVal :=
  match parseValue (data.length + 1) 0 (skipWs data) with
  | some (v, rest) => if skipWs rest = [] then some v else none
  | none => none

/-- Store the members of a JSON object into a Go `map[string]string`: a string value
is stored as is; `null` stores the zero string without error; any other value
stores the zero string and records an `UnmarshalTypeError`, after which decoding
goes on. Returns the map and whether an error was recorded. -/
def storeMembers : List (Bytes × JKind) → List (Bytes × Bytes) → List (Bytes × Bytes) × Bool
  | [], m => (m, false)
  | (k, JKind.string s) :: rest, m => storeMembers rest (assocSet m k s)
  | (k, JKind.null) :: rest, m => storeMembers rest (assocSet m k [])
  | (k, _) :: rest, m => ((storeMembers rest (assocSet m k [])).1, true)

/-- Go `json.Unmarshal(data, &hashes)` for `hashes` of type `map[string]string`
holding `m`. Returns the map afterwards and whether Unmarshal returned an error:
a syntax error leaves the map untouched; `null` sets the map to nil; a value that
is not an object is a type error and leaves the map untouched. -/
def jsonUnmarshal (data : Bytes) (m : List (Bytes × Bytes)) : List (Bytes × Bytes) × Bool :=
  match jsonParse data with
  | none => (m, true)
  | some (JVal.members ms) => storeMembers ms m
  | some (JVal.other JKind.null) => ([], false)
  | some (JVal.other _) => (m, true)

/-! ## Go standard library: path/filepath -/

/-- Go `filepath.Base` (Unix): the last element of the path, after removing
trailing slashes; `.` for the empty path and `/` for a path of slashes only. -/
def Base (path : Bytes) : Bytes :=
  if path = [] then str "."
  else
    let stripped := (path.reverse.dropWhile (fun c => c == 47))
    let last := (stripped.takeWhile (fun c => !(c == 47))).reverse
    if last = [] then str "/" else last

/-! ## internal/s3 and the S3 client -/

/-- Source: `BuildKey` (internal/s3/s3.go). -/
def BuildKey (pfx fileName : Bytes) : Bytes :=
  if pfx ≠ [] then pfx ++ str "/" ++ fileName else fileName

/-- S3 `GetObject`: the stored blob, unless the request fails or the key is absent. -/
def GetObject (r : Remote) (key : Bytes) : Option Bytes :=
  if key ∈ r.getErr then none else assocGet r.objects key

/-- Go `io.ReadAll` on the body of the object at `key`. -/
def ReadAll (r : Remote) (key body : Bytes) : Option Bytes :=
  if key ∈ r.bodyErr then none else some body

/-- S3 `PutObject`: stores the blob unless the request fails; returns whether it
succeeded. Every attempt is logged. -/
def PutObject (w : World) (key body : Bytes) : Bool × World :=
  if key ∈ w.remote.putErr then
    (false, { w with log := w.log ++ [Event.put key body false] })
  else
    (true, { w with remote := { w.remote with objects := assocSet w.remote.objects key body }
                    log := w.log ++ [Event.put key body true] })

/-- Byte-wise lexicographic order on strings (Go string comparison, and the order
in which S3 lists keys). -/
def bytesLe : Bytes → Bytes → Bool
  | [], _ => true
  | _ :: _, [] => false
  | a :: as, b :: bs => a.val < b.val || (a.val == b.val && bytesLe as bs)

/-- Does the key start with the prefix of the request; every key does when the
request gives none. -/
def underPrefix (pfx : Option Bytes) (k : Bytes) : Bool :=
  match pfx with
  | none => true
  | some p => p.isPrefixOf k

/-- The keys of the bucket that start with the prefix, each once, in byte order. -/
def allKeys (r : Remote) (pfx : Option Bytes) : List Bytes :=
  List.insertionSort (fun a b => bytesLe a b = true)
    (((r.objects.map Prod.fst).filter (underPrefix pfx)).dedup)

/-- The number of keys S3 returns for one `ListObjectsV2` request that sets no
`MaxKeys`. -/
def maxKeys : Nat := 1000

/-- The first page of the listing: S3 returns the keys in byte order, at most
`maxKeys` of them per request. -/
def listedKeys (r : Remote) (pfx : Option Bytes) : List Bytes :=
  (allKeys r pfx).take maxKeys

/-- S3 `ListObjectsV2` with an optional key prefix and no continuation token: the
first page of the keys that start with the prefix. -/
def ListObjectsV2 (r : Remote) (pfx : Option Bytes) : Option (List Bytes) :=
  if r.listErr then none else some (listedKeys r pfx)

/-- Source: `LoadHashesFromS3` (internal/s3/s3.go). Returns the map, the error
value, and the world after the request. -/
def LoadHashesFromS3 (w : World) (pfx : Bytes) :
    (List (Bytes × Bytes) × Option Err) × World :=
  let hashesKey := BuildKey pfx (str ".hashes.json")
  let hashes : List (Bytes × Bytes) := []
  let w1 := { w with log := w.log ++ [Event.get hashesKey] }
  match GetObject w.remote hashesKey with
  | none => ((hashes, none), w1)
  | some body =>
    match ReadAll w.remote hashesKey body with
    | none => ((hashes, none), w1)
    | some data => (((jsonUnmarshal data hashes).1, none), w1)

/-! ## internal/crypto -/

/-- Source: `EncryptData`. The `sio` writer draws its nonce from the entropy source. -/
def EncryptData (E : Env) (w : World) (data key : Bytes) : Option Bytes × World :=
  (E.encrypt w.tick data key, { w with tick := w.tick + 1 })

/-- Source: `DecryptData`. -/
def DecryptData (E : Env) (encryptedData key : Bytes) : Option Bytes :=
  E.decrypt encryptedData key

/-! ## push -/

/-- The fields of `config.PushConfig` that `push` reads, the directories being
part of the world. Issuance commands are represented by their command lines. -/
structure PushConfig where
  legoCommands : List Bytes
  reloadCmd : Bytes
  s3Prefix : Bytes
  deriving DecidableEq, Repr

/-- Local variables of `push` that live across its loops. -/
structure PushState where
  w : World
  newHashes : List (Bytes × Bytes)
  uploaded : Bool
  deriving DecidableEq, Repr

/-- Run the issuance commands; failures are only logged by the program. The
certificate directory of the world is the one observed after they have run. -/
def runLegoCommands (w : World) (cmds : List Bytes) : World :=
  { w with log := w.log ++ cmds.map Event.run }

/-- The grouping loop of `push`: entries that are not directories and resolve to a
certificate name are appended to the file list of that name. -/
def groupFiles : List (Bytes × Node) → List (Bytes × List Bytes) → List (Bytes × List Bytes)
  | [], certFiles => certFiles
  | (name, node) :: rest, certFiles =>
    if node = Node.dir then groupFiles rest certFiles
    else
      match ExtractCertName name with
      | (certName, true) =>
        groupFiles rest
          (assocSet certFiles certName ((assocGet certFiles certName).getD [] ++ [name]))
      | (_, false) => groupFiles rest certFiles

/-- Body of the inner loop of `push`, for one file of a certificate. -/
def pushFile (E : Env) (pfx : Bytes) (existingHashes : List (Bytes × Bytes)) (key : Bytes)
    (st : PushState) (fileName : Bytes) : Option Err × PushState :=
  match ReadFile st.w.certDir fileName with
  | none => (none, st)
  | some data =>
    let localHashStr := hexEncode (E.sha256 data)
    let s3FileName := fileName ++ str ".enc"
    let s3Key := BuildKey pfx s3FileName
    let st1 := { st with newHashes := assocSet st.newHashes s3FileName localHashStr }
    if assocGet existingHashes s3FileName = some localHashStr then (none, st1)
    else
      match EncryptData E st1.w data key with
      | (none, w1) => (some Err.encrypt, { st1 with w := w1 })
      | (some encrypted, w1) =>
        match PutObject w1 s3Key encrypted with
        | (false, w2) => (some (Err.upload s3Key), { st1 with w := w2 })
        | (true, w2) => (none, { st1 with w := w2, uploaded := true })

/-- Inner loop of `push`: the files of one certificate, stopping at the first error. -/
def pushFiles (E : Env) (pfx : Bytes) (existingHashes : List (Bytes × Bytes)) (key : Bytes) :
    List Bytes → PushState → Option Err × PushState
  | [], st => (none, st)
  | fileName :: rest, st =>
    match pushFile E pfx existingHashes key st fileName with
    | (some e, st1) => (some e, st1)
    | (none, st1) => pushFiles E pfx existingHashes key rest st1

/-- Outer loop of `push`: the certificates in the given order, stopping at the
first error. -/
def pushCerts (E : Env) (pfx : Bytes) (existingHashes : List (Bytes × Bytes)) :
    List (Bytes × List Bytes) → PushState → Option Err × PushState
  | [], st => (none, st)
  | (certName, files) :: rest, st =>
    match GetOrCreateKey E st.w certName with
    | (Except.error e, w1) => (some (Err.getEncryptionKey e), { st with w := w1 })
    | (Except.ok key, w1) =>
      match pushFiles E pfx existingHashes key files { st with w := w1 } with
      | (some e, st1) => (some e, st1)
      | (none, st1) => pushCerts E pfx existingHashes rest st1

/-- Source: `push`, up to the end of its loop over the certificates. `order` is the
order in which Go iterates over the `certFiles` map in this run. -/
def pushSync (E : Env) (order : List (Bytes × List Bytes) → List (Bytes × List Bytes))
    (cfg : PushConfig) (w : World) : Option Err × PushState :=
  let w0 := runLegoCommands w cfg.legoCommands
  if w0.remote.clientErr then
    (some Err.loadS3Config, { w := w0, newHashes := [], uploaded := false })
  else
    match LoadHashesFromS3 w0 cfg.s3Prefix with
    | ((_, some e), w1) => (some e, { w := w1, newHashes := [], uploaded := false })
    | ((existingHashes, none), w1) =>
      if w1.certDir.listErr then
        (some Err.readCertificateDirectory, { w := w1, newHashes := [], uploaded := false })
      else
        let certFiles := groupFiles w1.certDir.entries []
        pushCerts E cfg.s3Prefix existingHashes (order certFiles)
          { w := w1, newHashes := [], uploaded := false }

/-- Run the reload command when one is configured. -/
def runReload (E : Env) (reloadCmd : Bytes) (w : World) : Option Err × World :=
  if reloadCmd ≠ [] then
    let w1 := { w with log := w.log ++ [Event.run reloadCmd] }
    if E.run reloadCmd then (none, w1) else (some Err.runReloadCommand, w1)
  else (none, w)

/-- Source: `push` (push.go). -/
def push (E : Env) (order : List (Bytes × List Bytes) → List (Bytes × List Bytes))
    (cfg : PushConfig) (w : World) : Option Err × World :=
  match pushSync E order cfg w with
  | (some e, st) => (some e, st.w)
  | (none, st) =>
    let w2 :=
      if st.uploaded then
        (PutObject st.w (BuildKey cfg.s3Prefix (str ".hashes.json"))
          (E.marshal st.newHashes ++ str "\n")).2
      else st.w
    runReload E cfg.reloadCmd w2

/-! ## pull -/

/-- The fields of `config.PullConfig` that `pull` reads. `keyDir` is the path of the
key directory as configured; `World.keyDir` is the directory at that path. -/
structure PullConfig where
  reloadCmd : Bytes
  s3Prefix : Bytes
  keyDir : Bytes
  deriving DecidableEq, Repr

/-- Go `hasMeta` (path/filepath, Unix): does the path hold one of the characters
`*`, `?`, `[` and the backslash, which `filepath.Glob` reads as pattern syntax. -/
def hasMeta (path : Bytes) : Bool :=
  path.any fun c => c == 42 || c == 63 || c == 91 || c == 92

/-- Go `filepath.Glob(filepath.Join(keyDirPath, "*.key"))`, where `keyDir` is the
directory at `keyDirPath`; `none` is `ErrBadPattern`. When the path holds no
metacharacter, the pattern is well formed and Glob lists that one directory: it
ignores I/O errors, so a directory that cannot be listed yields no match, and `*`
matches no path separator, so the matches are the entries without separator whose
name ends in `.key`. When the path holds a metacharacter it is read as a pattern,
and the answer is that of the file system, `E.glob`. -/
def globKeyFiles (E : Env) (keyDirPath : Bytes) (keyDir : Dir) : Option (List Bytes) :=
  if hasMeta keyDirPath then E.glob keyDirPath
  else if keyDir.listErr then some []
  else some ((keyDir.entries.map Prod.fst).filter fun n =>
    hasSuffix n (str ".key") && !n.contains 47)

/-- Body of the loop of `pull`, for one listed object. -/
def pullObject (E : Env) (s3Hashes : List (Bytes × Bytes)) (w : World) (objKey : Bytes) :
    Option Err × World :=
  let fileName := Base objKey
  if !hasSuffix fileName (str ".enc") then (none, w)
  else
    let nameWithoutEnc := trimSuffix fileName (str ".enc")
    match ExtractCertName nameWithoutEnc with
    | (_, false) => (none, w)
    | (certName, true) =>
      match LoadKey w.keyDir certName with
      | Except.error _ => (none, w)
      | Except.ok key =>
        let inSync : Bool :=
          match ReadFile w.certDir nameWithoutEnc with
          | some localData =>
            decide (assocGet s3Hashes nameWithoutEnc = some (hexEncode (E.sha256 localData)))
          | none => false
        if inSync then (none, w)
        else
          let w1 := { w with log := w.log ++ [Event.get objKey] }
          match GetObject w.remote objKey with
          | none => (some (Err.download objKey), w1)
          | some body =>
            match ReadAll w.remote objKey body with
            | none => (some (Err.readBody objKey), w1)
            | some encryptedData =>
              match DecryptData E encryptedData key with
              | none => (some (Err.decrypt objKey), w1)
              | some decrypted =>
                match WriteFile w1.certDir nameWithoutEnc decrypted with
                | none => (some (Err.writeFile nameWithoutEnc), w1)
                | some d =>
                  (none, { w1 with certDir := d
                                   log := w1.log ++ [Event.certWrite nameWithoutEnc decrypted] })

/-- Loop of `pull` over the listed objects, stopping at the first error. -/
def pullObjects (E : Env) (s3Hashes : List (Bytes × Bytes)) :
    List Bytes → World → Option Err × World
  | [], w => (none, w)
  | objKey :: rest, w =>
    match pullObject E s3Hashes w objKey with
    | (some e, w1) => (some e, w1)
    | (none, w1) => pullObjects E s3Hashes rest w1

/-- Source: `pull` (pull.go). -/
def pull (E : Env) (cfg : PullConfig) (w : World) : Option Err × World :=
  if w.remote.clientErr then (some Err.loadS3Config, w)
  else
    match LoadHashesFromS3 w cfg.s3Prefix with
    | ((_, some e), w1) => (some e, w1)
    | ((s3Hashes, none), w1) =>
      match globKeyFiles E cfg.keyDir w1.keyDir with
      | none => (some Err.listKeyFiles, w1)
      | some keyFiles =>
        if keyFiles.length = 0 then (none, w1)
        else
          let pfx : Option Bytes :=
            if cfg.s3Prefix ≠ [] then some (cfg.s3Prefix ++ str "/") else none
          let w2 := { w1 with log := w1.log ++ [Event.list] }
          match ListObjectsV2 w1.remote pfx with
          | none => (some Err.listS3Objects, w2)
          | some contents =>
            if contents.length = 0 then (none, w2)
            else if w2.certDir.mkdirErr then (some Err.createCertificateDirectory, w2)
            else
              match pullObjects E s3Hashes contents w2 with
              | (some e, w3) => (some e, w3)
              | (none, w3) => runReload E cfg.reloadCmd w3

/-! ## Go standard library: encoding/json, encoding a `map[string]string` -/

/-- Insert a binding into a list sorted by key. -/
def insertSorted (kv : Bytes × Bytes) : List (Bytes × Bytes) → List (Bytes × Bytes)
  | [] => [kv]
  | x :: rest => if bytesLe kv.1 x.1 then kv :: x :: rest else x :: insertSorted kv rest

/-- Escaping of the content of a JSON string as Go `json.Marshal` does it (HTML
characters and control characters escaped, ill-formed UTF-8 replaced). -/
def jsonEscape : Nat → Bytes → Bytes
  | 0, _ => []
  | _ + 1, [] => []
  | fuel + 1, c :: rest =>
    if c.val < 0x80 then
      let out : Bytes :=
        if c = 34 ∨ c = 92 then [92, c]
        else if c = 8 then str "\\b"
        else if c = 12 then str "\\f"
        else if c = 10 then str "\\n"
        else if c = 13 then str "\\r"
        else if c = 9 then str "\\t"
        else if c.val < 32 ∨ c = 60 ∨ c = 62 ∨ c = 38 then
          str "\\u00" ++ [hexDigit (c.val / 16), hexDigit (c.val % 16)]
        else [c]
      out ++ jsonEscape fuel rest
    else
      match utf8Width (c :: rest) with
      | 0 => str "\\ufffd" ++ jsonEscape fuel rest
      | n + 1 =>
        let rune := (c :: rest).take (n + 1)
        let out : Bytes :=
          if rune = [0xE2, 0x80, 0xA8] then str "\\u2028"
          else if rune = [0xE2, 0x80, 0xA9] then str "\\u2029"
          else rune
        out ++ jsonEscape fuel (rest.drop n)

/-- A JSON string literal. -/
def jsonQuote (s : Bytes) : Bytes := [34] ++ jsonEscape (s.length + 1) s ++ [34]

/-- Members of a JSON object, comma separated. -/
def jsonMembers : List (Bytes × Bytes) → Bytes
  | [] => []
  | [(k, v)] => jsonQuote k ++ [58] ++ jsonQuote v
  | (k, v) :: rest => jsonQuote k ++ [58] ++ jsonQuote v ++ [44] ++ jsonMembers rest

/-- Go `json.Marshal` on a `map[string]string`: one object, keys sorted, strings
escaped. -/
def jsonMarshal (m : List (Bytes × Bytes)) : Bytes :=
  [123] ++ jsonMembers (m.foldr insertSorted []) ++ [125]

/-! ## Sample environment -/

/-- A sample environment for evaluating runs: a toy digest and a toy sealing
primitive that satisfies `open (seal p k) k = p`. -/
def sampleEnv : Env :=
  { sha256 := fun data => [byte data.length, byte (data.foldl (fun acc b => acc + b.val) 0)]
    encrypt := fun n data key => some (byte n :: key ++ data)
    decrypt := fun c key =>
      if (c.drop 1).take key.length = key then some (c.drop (1 + key.length)) else none
    rand := fun n => some (List.replicate 32 (byte (n + 1)))
    marshal := jsonMarshal
    run := fun _ => true
    glob := fun _ => some [] }

/-- A directory without entries or faults. -/
def emptyDir : Dir := { entries := [], mkdirErr := false, writeErr := false, listErr := false }

/-- An empty bucket without faults. -/
def emptyRemote : Remote :=
  { objects := [], clientErr := false, getErr := [], bodyErr := [], putErr := [], listErr := false }

/-- A world with the given certificate and key directory entries and bucket
objects, without faults, at entropy position 0 and with an empty effect log. -/
def sampleWorld (certs keys : List (Bytes × Node)) (objects : List (Bytes × Bytes)) : World :=
  { certDir := { emptyDir with entries := certs }
    keyDir := { emptyDir with entries := keys }
    remote := { emptyRemote with objects := objects }
    tick := 0
    log := [] }

/-- The world of another host after a run: same key directory and bucket, an empty
certificate directory, and a fresh effect log. -/
def freshHost (w : World) : World := { w with certDir := emptyDir, log := [] }

/-- The same world with the effect log cleared, to observe the next run alone. -/
def clearLog (w : World) : World := { w with log := [] }

/-- A push configuration without commands, for the prefix `certs`. -/
def samplePushConfig : PushConfig := { legoCommands := [], reloadCmd := [], s3Prefix := str "certs" }

/-- A pull configuration without reload command, for the prefix `certs` and the key
directory `/etc/keys`. -/
def samplePullConfig : PullConfig :=
  { reloadCmd := [], s3Prefix := str "certs", keyDir := str "/etc/keys" }

/-! ## Notions used to state the properties -/

/-- A byte that is neither white space nor part of a multi-byte rune. -/
def plainByte (c : Byte) : Prop := c.val < 128 ∧ isAsciiSpace c = false

/-- Plainness of a byte can be computed. -/
instance instDecidablePlainByte (c : Byte) : Decidable (plainByte c) := by
  unfold plainByte; infer_instance

/-- The certificate artifact files of a directory: the names of its entries that
are not directories and that `ExtractCertName` resolves. -/
def artifactFiles (d : Dir) : List Bytes :=
  (d.entries.filter fun e => decide (e.2 ≠ Node.dir) && (ExtractCertName e.1).2).map Prod.fst

/-- All file names of a grouping. -/
def allFiles (certFiles : List (Bytes × List Bytes)) : List Bytes :=
  certFiles.flatMap Prod.snd

/-- The manifest value of a file: the lowercase hexadecimal SHA-256 of its content,
when the file can be read. -/
def wantHash (E : Env) (d : Dir) (f : Bytes) : Option Bytes :=
  (ReadFile d f).map fun data => hexEncode (E.sha256 data)

/-- Is the event a put to the bucket, successful or not. -/
def isPut : Event → Bool
  | Event.put _ _ _ => true
  | _ => false

/-- Is the event a download of an object other than the manifest, or a write into
the certificate directory. -/
def isTransfer (manifestKey : Bytes) : Event → Bool
  | Event.get k => decide (k ≠ manifestKey)
  | Event.certWrite _ _ => true
  | _ => false

/-- The storage behaves as a faithful name-to-blob map: no request fails. -/
def Remote.faithful (r : Remote) : Prop :=
  r.clientErr = false ∧ r.getErr = [] ∧ r.bodyErr = [] ∧ r.putErr = [] ∧ r.listErr = false

/-- Faithfulness of a bucket can be computed. -/
instance instDecidableFaithful (r : Remote) : Decidable r.faithful := by
  unfold Remote.faithful; infer_instance

/-- A certificate directory listing with the two files of `a.com`. -/
def sampleCerts : List (Bytes × Node) :=
  [(str "a.com.crt", Node.file (str "CERT")), (str "a.com.key", Node.file (str "KEY"))]

/-- The world after `a.com` was pushed from a fresh host to an empty bucket. -/
def samplePushed : World :=
  (push sampleEnv id samplePushConfig (sampleWorld sampleCerts [] [])).2

/-- A certificate directory listing with the certificates of two identities. -/
def sampleTwoCerts : List (Bytes × Node) :=
  [(str "a.com.crt", Node.file (str "CERT")), (str "b.com.crt", Node.file (str "CERT2"))]

/-- A fresh host with the given certificate files in front of an empty bucket
whose puts under the listed keys fail. -/
def sampleFaultyWorld (certs : List (Bytes × Node)) (putErr : List Bytes) : World :=
  { certDir := { emptyDir with entries := certs }
    keyDir := emptyDir
    remote := { emptyRemote with putErr := putErr }
    tick := 0
    log := [] }

/-- A pulling host in front of the bucket to which the certificates of `a.com` and
`b.com` were pushed, with the key of `a.com` only and an empty certificate
directory. -/
def samplePartialHost : World :=
  { freshHost (push sampleEnv id samplePushConfig (sampleWorld sampleTwoCerts [] [])).2 with
    keyDir := { emptyDir with
      entries := [(str "a.com.key", Node.file (b64Encode (List.replicate 32 1) ++ str "\n"))] } }

/-- A pulling host with the key of `x` in front of a bucket holding one object
whose key climbs out of the prefix. -/
def sampleClimbingHost : World :=
  sampleWorld [] [(str "x.key", Node.file (b64Encode (List.replicate 32 1) ++ str "\n"))]
    [(str "certs/../../etc/x.crt.enc", 0 :: List.replicate 32 1 ++ str "CERT")]

/-- A first pushing host: it holds `a.com.crt`, no key, and its entropy source is
five draws ahead, so that the key it creates for `a.com` differs from the key a
fresh host creates. -/
def sampleFirstHost : World := { sampleWorld sampleCerts [] [] with tick := 5 }

/-- A second pushing host with the same `a.com.crt` and no key, in front of the
bucket the first host pushed to. -/
def sampleSecondHost : World :=
  { sampleWorld sampleCerts [] [] with
    remote := (push sampleEnv id samplePushConfig sampleFirstHost).2.remote }

/-- A pushing host whose one certificate has a name that is not valid UTF-8: the
byte `0xff` follows the letter `a`. -/
def sampleIllFormedHost : World :=
  sampleWorld [(str "a" ++ [255] ++ str ".crt", Node.file (str "CERT"))] [] []

/-! ## Invariants of the loops -/

/-- The manifest under construction holds, without duplicate keys, only digests of
files among `A`, each under the file's name followed by `.enc`. -/
def HashInv (E : Env) (C : Dir) (A : List Bytes) (st : PushState) : Prop :=
  st.w.certDir = C ∧ (st.newHashes.map Prod.fst).Nodup ∧
  ∀ k v, assocGet st.newHashes k = some v →
    ∃ f, f ∈ A ∧ k = f ++ str ".enc" ∧ wantHash E C f = some v

/-- The manifest under construction records the digest of file `f`, if readable. -/
def Covered (E : Env) (C : Dir) (f : Bytes) (st : PushState) : Prop :=
  ∀ d, ReadFile C f = some d →
    assocGet st.newHashes (f ++ str ".enc") = some (hexEncode (E.sha256 d))

/-- Is the event a put of the object at `key`. -/
def isPutOf (key : Bytes) : Event → Bool
  | Event.put k _ _ => decide (k = key)
  | _ => false

/-- The log of the state extends `base` by events none of which satisfies `q`. -/
def Extends (q : Event → Bool) (base : List Event) (st : PushState) : Prop :=
  ∃ evs, st.w.log = base ++ evs ∧ ∀ e ∈ evs, q e = false

/-- The events a run added to the log: those of `w'` after the ones of `w`. -/
def runEvents (w w' : World) : List Event := w'.log.drop w.log.length

/-- The state in which `push` enters its loop over the certificates. -/
def pushStart (cfg : PushConfig) (w : World) : PushState :=
  { w := (LoadHashesFromS3 (runLegoCommands w cfg.legoCommands) cfg.s3Prefix).2
    newHashes := []
    uploaded := false }

/-- The manifest `push` fetched at the start of the run. -/
def pushExisting (cfg : PushConfig) (w : World) : List (Bytes × Bytes) :=
  (LoadHashesFromS3 (runLegoCommands w cfg.legoCommands) cfg.s3Prefix).1.1

/-- The certificate directory being filled by `pull`, relative to the original
contents `orig`: writes succeed, no entry is a directory or unreadable, and every
file in it has the original content of that name. -/
def CertInv (orig : Bytes → Option Bytes) (C : Dir) : Prop :=
  C.writeErr = false ∧
  (∀ n, assocGet C.entries n ≠ some Node.dir ∧ assocGet C.entries n ≠ some Node.unreadable) ∧
  ∀ f d, ReadFile C f = some d → orig f = some d

/-- File `g` is present with its original content. -/
def Restored (orig : Bytes → Option Bytes) (C : Dir) (g : Bytes) : Prop :=
  ∃ d, orig g = some d ∧ ReadFile C g = some d

/-- The listed object `objKey` is usable by `pull`: if its name resolves to a
certificate whose key loads, the object exists and opens under that key to the
original content of the file it names. -/
def Usable (E : Env) (orig : Bytes → Option Bytes) (K : Dir) (R : Remote) (objKey : Bytes) :
    Prop :=
  ∀ c k, hasSuffix (Base objKey) (str ".enc") = true →
    ExtractCertName (trimSuffix (Base objKey) (str ".enc")) = (c, true) →
    LoadKey K c = Except.ok k →
    ∃ ct d, assocGet R.objects objKey = some ct ∧ E.decrypt ct k = some d ∧
      orig (trimSuffix (Base objKey) (str ".enc")) = some d

/-- Every object of the bucket is the sealing, under the key that loads for its
certificate, of the content of an artifact file of the certificate directory `C`,
stored under the key built from the file's name followed by `.enc`. -/
def SealInv (E : Env) (pfx : Bytes) (C : Dir) (st : PushState) : Prop :=
  st.w.certDir = C ∧
  ∀ key ct, assocGet st.w.remote.objects key = some ct →
    ∃ f d k t, key = BuildKey pfx (f ++ str ".enc") ∧ f ∈ artifactFiles C ∧
      ReadFile C f = some d ∧ LoadKey st.w.keyDir (ExtractCertName f).1 = Except.ok k ∧
      E.encrypt t d k = some ct

/-- The object of file `f` is in the bucket, if `f` is readable. -/
def Uploaded (pfx : Bytes) (C : Dir) (f : Bytes) (st : PushState) : Prop :=
  ∀ d, ReadFile C f = some d →
    (assocGet st.w.remote.objects (BuildKey pfx (f ++ str ".enc"))).isSome = true

/-- Is the event the successful put of an object other than the one at
`manifestKey`: the upload of an encrypted object. -/
def isObjectUpload (manifestKey : Bytes) : Event → Bool
  | Event.put k _ ok => ok && decide (k ≠ manifestKey)
  | _ => false

/-- Is the event a put that failed. -/
def isFailedPut : Event → Bool
  | Event.put _ _ ok => !ok
  | _ => false

/-- The log of the state extends `base` by events of which no put is under
`manifestKey`, and `uploaded` is set exactly when one of them is the upload of an
encrypted object. -/
def UploadInv (manifestKey : Bytes) (base : List Event) (st : PushState) : Prop :=
  ∃ evs, st.w.log = base ++ evs ∧ (∀ e ∈ evs, isPutOf manifestKey e = false) ∧
    (st.uploaded = true ↔ ∃ e ∈ evs, isObjectUpload manifestKey e = true)

/-- The log of the state extends `base` by events among which a failed put occurs
only when the result is the upload error for its key. -/
def FailedPutRel (base : List Event) (r : Option Err) (st : PushState) : Prop :=
  ∃ evs, st.w.log = base ++ evs ∧
    ∀ key ct, Event.put key ct false ∈ evs → r = some (Err.upload key)

/-- Does the event concern certificate `c`: the download of an object whose name,
with `.enc` stripped, resolves to `c`, or the write of a file that resolves to `c`. -/
def concerns (c : Bytes) : Event → Bool
  | Event.get objKey =>
    hasSuffix (Base objKey) (str ".enc") &&
      decide (ExtractCertName (trimSuffix (Base objKey) (str ".enc")) = (c, true))
  | Event.certWrite f _ => decide (ExtractCertName f = (c, true))
  | _ => false

/-- A name that denotes a direct child of a directory and a certificate artifact:
no path separator, neither `.` nor `..`, ending in `.crt` or `.key`. -/
def safeName (name : Bytes) : Prop :=
  (47 : Byte) ∉ name ∧ name ≠ str "." ∧ name ≠ str ".." ∧
  (str ".crt" <:+ name ∨ str ".key" <:+ name)

/-- Safety of a name can be computed. -/
instance instDecidableSafeName (name : Bytes) : Decidable (safeName name) := by
  unfold safeName; infer_instance

/-- The log of the world extends `base` by events none of which satisfies `q`. -/
def LogExtends (q : Event → Bool) (base : List Event) (w : World) : Prop :=
  ∃ evs, w.log = base ++ evs ∧ ∀ e ∈ evs, q e = false

/-- Is the event the write of a file whose name is not safe. -/
def unsafeWrite : Event → Bool
  | Event.certWrite name _ => decide (¬ safeName name)
  | _ => false


set_option maxRecDepth 100000
set_option maxHeartbeats 1000000

/-! # Theorems -/

/-! ## Strings and the certificate name resolver -/

theorem hasSuffix_iff (s t : Bytes) : hasSuffix s t = true ↔ t <:+ s := by
  simp [hasSuffix]

theorem hasSuffix_append (s t : Bytes) : hasSuffix (s ++ t) t = true := by
  simp [hasSuffix_iff]

theorem trimSuffix_append (s t : Bytes) : trimSuffix (s ++ t) t = s := by
  simp [trimSuffix, hasSuffix_append]

theorem not_key_of_crt {s : Bytes} (h : str ".crt" <:+ s) : ¬ str ".key" <:+ s := by
  intro hk
  have := List.suffix_of_suffix_length_le hk h (by decide)
  revert this; decide

theorem crt_of_issuer {s : Bytes} (h : str ".issuer.crt" <:+ s) : str ".crt" <:+ s :=
  List.IsSuffix.trans (by decide) h

theorem issuer_append_crt_iff (s : Bytes) :
    str ".issuer.crt" <:+ s ++ str ".crt" ↔ str ".issuer" <:+ s := by
  have : str ".issuer.crt" = str ".issuer" ++ str ".crt" := by decide
  rw [this]
  constructor
  · rintro ⟨t, ht⟩
    rw [← List.append_assoc] at ht
    exact ⟨t, List.append_cancel_right ht⟩
  · rintro ⟨t, ht⟩
    exact ⟨t, by rw [← ht, List.append_assoc]⟩

theorem ExtractCertName_key (s : Bytes) : ExtractCertName (s ++ str ".key") = (s, true) := by
  have hk : ¬ str ".crt" <:+ s ++ str ".key" := fun h =>
    not_key_of_crt h (List.suffix_append _ _)
  unfold ExtractCertName
  have h1 : hasSuffix (s ++ str ".key") (str ".crt") = false := by
    rw [← Bool.not_eq_true, hasSuffix_iff]; exact hk
  rw [h1, hasSuffix_append, trimSuffix_append]; simp

theorem ExtractCertName_crt (s : Bytes) (hs : ¬ str ".issuer" <:+ s) :
    ExtractCertName (s ++ str ".crt") = (s, true) := by
  have h2 : hasSuffix (s ++ str ".crt") (str ".issuer.crt") = false := by
    rw [← Bool.not_eq_true, hasSuffix_iff, issuer_append_crt_iff]; exact hs
  unfold ExtractCertName
  rw [h2, hasSuffix_append, trimSuffix_append]; simp

/-- C7: `ExtractCertName f` reports an artifact exactly when `f` ends in `.key`, or
ends in `.crt` and not in `.issuer.crt`; whenever it does not report one, and in
particular for every name ending in `.issuer.crt`, the result is `("", false)`. -/
theorem ExtractCertName_isArtifact_iff (f : Bytes) :
    ((ExtractCertName f).2 = true ↔
      (str ".key" <:+ f ∨ (str ".crt" <:+ f ∧ ¬ str ".issuer.crt" <:+ f))) ∧
    ((ExtractCertName f).2 = false → ExtractCertName f = (str "", false)) ∧
    (str ".issuer.crt" <:+ f → ExtractCertName f = (str "", false)) := by
  refine ⟨?_, ?_, ?_⟩
  · unfold ExtractCertName
    by_cases h1 : hasSuffix f (str ".crt") = true <;>
    by_cases h2 : hasSuffix f (str ".issuer.crt") = true <;>
    by_cases h3 : hasSuffix f (str ".key") = true <;>
    simp only [h1, h2, h3] <;> simp only [hasSuffix_iff] at h1 h2 h3 <;>
    simp [h1, h2, h3]
  · unfold ExtractCertName
    split
    · simp
    · split <;> simp
  · intro h
    have hc := crt_of_issuer h
    have hk := not_key_of_crt hc
    unfold ExtractCertName
    simp [hasSuffix_iff, h, hk]

/-- Witness for C7 at `_.example.com.issuer.crt`. -/
theorem ExtractCertName_isArtifact_iff_witness :
    str ".issuer.crt" <:+ str "_.example.com.issuer.crt" ∧
    ExtractCertName (str "_.example.com.issuer.crt") = (str "", false) :=
  ⟨by decide, (ExtractCertName_isArtifact_iff (str "_.example.com.issuer.crt")).2.2 (by decide)⟩

/-- C8: `ExtractCertName` inverts the naming convention: `s ++ ".key"` resolves to
`s`, and so does `s ++ ".crt"` when `s` does not end in `.issuer`; hence both files
of one certificate resolve to the same identity. -/
theorem ExtractCertName_inverts (s : Bytes) :
    ExtractCertName (s ++ str ".key") = (s, true) ∧
    (¬ str ".issuer" <:+ s → ExtractCertName (s ++ str ".crt") = (s, true)) ∧
    (¬ str ".issuer" <:+ s →
      (ExtractCertName (s ++ str ".crt")).1 = (ExtractCertName (s ++ str ".key")).1) :=
  ⟨ExtractCertName_key s, ExtractCertName_crt s, fun hs => by
    rw [ExtractCertName_key, ExtractCertName_crt s hs]⟩

/-- Witness for C8 at `_.example.com`. -/
theorem ExtractCertName_inverts_witness :
    ¬ str ".issuer" <:+ str "_.example.com" ∧
    ExtractCertName (str "_.example.com" ++ str ".crt") = (str "_.example.com", true) :=
  ⟨by decide, (ExtractCertName_inverts (str "_.example.com")).2.1 (by decide)⟩

/-! ## Association lists -/

theorem assocGet_assocSet_same {β : Type} (m : List (Bytes × β)) (k : Bytes) (v : β) :
    assocGet (assocSet m k v) k = some v := by
  induction m with
  | nil => simp [assocSet, assocGet]
  | cons p rest ih =>
    obtain ⟨k', v'⟩ := p
    by_cases h : k' = k
    · simp [assocSet, assocGet, h]
    · simp [assocSet, assocGet, h, ih]

theorem assocGet_assocSet_ne {β : Type} (m : List (Bytes × β)) (k k2 : Bytes) (v : β)
    (hne : k ≠ k2) : assocGet (assocSet m k v) k2 = assocGet m k2 := by
  induction m with
  | nil => simp [assocSet, assocGet, hne]
  | cons p rest ih =>
    obtain ⟨k', v'⟩ := p
    by_cases h : k' = k
    · subst h; simp [assocSet, assocGet, hne]
    · by_cases h2 : k' = k2
      · subst h2; simp [assocSet, assocGet, h]
      · simp [assocSet, assocGet, h, h2, ih]

/-! ## base64 and TrimSpace -/

theorem b64Val_b64Char_fin : ∀ i : Fin 64, b64Val (b64Char i.val) = some i.val := by decide

theorem b64Val_b64Char {i : Nat} (h : i < 64) : b64Val (b64Char i) = some i :=
  b64Val_b64Char_fin ⟨i, h⟩

theorem b64Char_plain_fin : ∀ i : Fin 64, plainByte (b64Char i.val) := by decide

theorem plainByte_b64Char {i : Nat} (h : i < 64) : plainByte (b64Char i) :=
  b64Char_plain_fin ⟨i, h⟩

theorem plainByte_pad : plainByte (61 : Byte) := by decide

theorem byte_eq {n : Nat} {a : Byte} (h : n = a.val) : byte n = a := by
  apply Fin.ext; have := a.isLt; simp only [byte]; omega

theorem b64Encode_plain (k : Bytes) : ∀ c ∈ b64Encode k, plainByte c := by
  induction k using b64Encode.induct with
  | case1 => simp [b64Encode]
  | case2 a =>
    have := a.isLt
    intro c hc
    simp only [b64Encode, List.mem_cons, List.mem_singleton, List.not_mem_nil, or_false] at hc
    rcases hc with rfl | rfl | rfl | rfl
    · exact plainByte_b64Char (by omega)
    · exact plainByte_b64Char (by omega)
    · exact plainByte_pad
    · exact plainByte_pad
  | case3 a b =>
    have := a.isLt; have := b.isLt
    intro c hc
    simp only [b64Encode, List.mem_cons, List.mem_singleton, List.not_mem_nil, or_false] at hc
    rcases hc with rfl | rfl | rfl | rfl
    · exact plainByte_b64Char (by omega)
    · exact plainByte_b64Char (by omega)
    · exact plainByte_b64Char (by omega)
    · exact plainByte_pad
  | case4 a b c rest ih =>
    have := a.isLt; have := b.isLt; have := c.isLt
    intro x hx
    simp only [b64Encode, List.mem_cons] at hx
    rcases hx with rfl | rfl | rfl | rfl | h
    · exact plainByte_b64Char (by omega)
    · exact plainByte_b64Char (by omega)
    · exact plainByte_b64Char (by omega)
    · exact plainByte_b64Char (by omega)
    · exact ih x h

theorem b64Val_pad : b64Val (61 : Byte) = none := by decide

theorem b64DecodeQuanta_encode (k : Bytes) : b64DecodeQuanta (b64Encode k) = some k := by
  induction k using b64Encode.induct with
  | case1 => simp [b64Encode, b64DecodeQuanta]
  | case2 a =>
    have := a.isLt
    simp [b64Encode, b64DecodeQuanta, b64Val_b64Char (show a.val / 4 < 64 by omega),
      b64Val_b64Char (show a.val % 4 * 16 < 64 by omega), b64Val_pad]
    exact byte_eq (by omega)
  | case3 a b =>
    have := a.isLt; have := b.isLt
    simp [b64Encode, b64DecodeQuanta, b64Val_b64Char (show a.val / 4 < 64 by omega),
      b64Val_b64Char (show a.val % 4 * 16 + b.val / 16 < 64 by omega),
      b64Val_b64Char (show b.val % 16 * 4 < 64 by omega), b64Val_pad]
    exact ⟨byte_eq (by omega), byte_eq (by omega)⟩
  | case4 a b c rest ih =>
    have := a.isLt; have := b.isLt; have := c.isLt
    simp [b64Encode, b64DecodeQuanta, b64Val_b64Char (show a.val / 4 < 64 by omega),
      b64Val_b64Char (show a.val % 4 * 16 + b.val / 16 < 64 by omega),
      b64Val_b64Char (show b.val % 16 * 4 + c.val / 64 < 64 by omega),
      b64Val_b64Char (show c.val % 64 < 64 by omega), ih]
    exact ⟨byte_eq (by omega), byte_eq (by omega), byte_eq (by omega)⟩

theorem plainByte_not_newline {c : Byte} (h : plainByte c) : (c == 10 || c == 13) = false := by
  have h10 : c ≠ 10 := by rintro rfl; revert h; decide
  have h13 : c ≠ 13 := by rintro rfl; revert h; decide
  simp [h10, h13]

/-- Decoding inverts encoding, for byte strings of every length. -/
theorem b64Decode_encode (k : Bytes) : b64Decode (b64Encode k) = some k := by
  unfold b64Decode
  rw [List.filter_eq_self.2, b64DecodeQuanta_encode]
  intro c hc
  simp [plainByte_not_newline (b64Encode_plain k c hc)]

theorem isSpace2_false_of_lt {a b : Nat} (h : a < 128 ∨ b < 128) : isSpace2 a b = false := by
  unfold isSpace2
  rcases h with h | h
  · have : a ≠ 0xC2 := by omega
    simp [this]
  · have h1 : b ≠ 0x85 := by omega
    have h2 : b ≠ 0xA0 := by omega
    simp [h1, h2]

theorem isSpace3_false_of_lt {a b c : Nat} (h : a < 128 ∨ c < 128) : isSpace3 a b c = false := by
  unfold isSpace3
  rcases h with h | h
  · have h1 : a ≠ 0xE1 := by omega
    have h2 : a ≠ 0xE2 := by omega
    have h3 : a ≠ 0xE3 := by omega
    simp [h1, h2, h3]
  · have h1 : c ≠ 0x80 := by omega
    have h2 : ¬ (0x80 ≤ c) := by omega
    have h3 : c ≠ 0xA8 := by omega
    have h4 : c ≠ 0xA9 := by omega
    have h5 : c ≠ 0xAF := by omega
    have h6 : c ≠ 0x9F := by omega
    simp [h1, h2, h3, h4, h5, h6]

theorem spaceLen_plain {c : Byte} (h : plainByte c) (rest : Bytes) : spaceLen (c :: rest) = 0 := by
  obtain ⟨hlt, hsp⟩ := h
  unfold spaceLen
  simp only [hsp, Bool.false_eq_true, if_false]
  cases rest with
  | nil => rfl
  | cons b rest2 =>
    simp only [isSpace2_false_of_lt (Or.inl hlt), Bool.false_eq_true, if_false]
    cases rest2 with
    | nil => rfl
    | cons d _ => simp [isSpace3_false_of_lt (Or.inl hlt)]

theorem spaceLenRev_plain {c : Byte} (h : plainByte c) (rest : Bytes) :
    spaceLenRev (c :: rest) = 0 := by
  obtain ⟨hlt, hsp⟩ := h
  unfold spaceLenRev
  simp only [hsp, Bool.false_eq_true, if_false]
  cases rest with
  | nil => rfl
  | cons b rest2 =>
    simp only [isSpace2_false_of_lt (Or.inr hlt), Bool.false_eq_true, if_false]
    cases rest2 with
    | nil => rfl
    | cons d _ => simp [isSpace3_false_of_lt (Or.inr hlt)]

theorem trimLeftFuel_plain (n : Nat) {c : Byte} (h : plainByte c) (rest : Bytes) :
    trimLeftFuel n (c :: rest) = c :: rest := by
  cases n with
  | zero => rfl
  | succ n => simp [trimLeftFuel, spaceLen_plain h]

theorem trimRevFuel_plain (n : Nat) {c : Byte} (h : plainByte c) (rest : Bytes) :
    trimRevFuel n (c :: rest) = c :: rest := by
  cases n with
  | zero => rfl
  | succ n => simp [trimRevFuel, spaceLenRev_plain h]

/-- White-space trimming removes exactly the newline that follows a text of plain
bytes. -/
theorem trimSpace_plain_newline (s : Bytes) (hs : ∀ c ∈ s, plainByte c) :
    trimSpace (s ++ str "\n") = s := by
  have hnl : str "\n" = [(10 : Byte)] := by decide
  rw [hnl]
  cases s with
  | nil => decide
  | cons c rest =>
    have hc : plainByte c := hs c (List.mem_cons_self _ _)
    unfold trimSpace
    simp only [List.cons_append, trimLeftFuel_plain _ hc]
    have hrev : (c :: (rest ++ [(10 : Byte)])).reverse = 10 :: (c :: rest).reverse := by simp
    rw [hrev]
    have hlen : (c :: (rest ++ [(10 : Byte)])).length = rest.length + 1 + 1 := by simp
    rw [hlen]
    have hten : isAsciiSpace (10 : Byte) = true := by decide
    have hsl : spaceLenRev (10 :: (c :: rest).reverse) = 1 := by
      unfold spaceLenRev; simp [hten]
    have hne : (c :: rest).reverse ≠ [] := by simp
    obtain ⟨d, tl, hd⟩ := List.exists_cons_of_ne_nil hne
    have hdmem : d ∈ c :: rest := by
      have : d ∈ (c :: rest).reverse := by rw [hd]; exact List.mem_cons_self _ _
      exact List.mem_reverse.1 this
    have hdp : plainByte d := hs d hdmem
    have step : trimRevFuel (rest.length + 1 + 1) (10 :: (c :: rest).reverse)
        = trimRevFuel (rest.length + 1) ((c :: rest).reverse) := by
      rw [trimRevFuel, hsl]; rfl
    rw [step, hd, trimRevFuel_plain _ hdp, ← hd, List.reverse_reverse]

/-! ## Key store -/

theorem ReadFile_WriteFile_same {d d' : Dir} {name data : Bytes}
    (h : WriteFile d name data = some d') : ReadFile d' name = some data := by
  unfold WriteFile at h
  split at h
  · cases h
  · split at h
    · cases h
    · cases h
    · cases h
      simp [ReadFile, assocGet_assocSet_same]

theorem ReadFile_WriteFile_ne {d d' : Dir} {name name2 data : Bytes}
    (h : WriteFile d name data = some d') (hne : name ≠ name2) :
    ReadFile d' name2 = ReadFile d name2 := by
  unfold WriteFile at h
  split at h
  · cases h
  · split at h
    · cases h
    · cases h
    · cases h
      simp [ReadFile, assocGet_assocSet_ne _ _ _ _ hne]

/-- A key file holding the encoding written by `SaveKey` loads as the key. -/
theorem LoadKey_of_ReadFile {d : Dir} {certName k : Bytes} (hk : k.length = 32)
    (h : ReadFile d (certName ++ str ".key") = some (b64Encode k ++ str "\n")) :
    LoadKey d certName = Except.ok k := by
  unfold LoadKey
  rw [h]
  simp only [trimSpace_plain_newline _ (b64Encode_plain k), b64Decode_encode]
  simp [hk]

theorem LoadKey_of_SaveKey {keyDir d' : Dir} {certName k : Bytes} (hk : k.length = 32)
    (h : SaveKey keyDir certName k = Except.ok d') : LoadKey d' certName = Except.ok k := by
  unfold SaveKey at h
  split at h
  · cases h
  · dsimp only at h
    split at h
    · cases h
    · rename_i d hw
      cases h
      exact LoadKey_of_ReadFile hk (ReadFile_WriteFile_same hw)

theorem LoadKey_length {d : Dir} {certName k : Bytes} (h : LoadKey d certName = Except.ok k) :
    k.length = 32 := by
  unfold LoadKey at h
  split at h
  · cases h
  · dsimp only at h
    split at h
    · cases h
    · split at h
      · cases h
      · rename_i hlen
        cases h
        simpa using hlen

theorem GenerateKey_length {E : Env} {w w1 : World} {k : Bytes}
    (h : GenerateKey E w = (Except.ok k, w1)) : k.length = 32 := by
  unfold GenerateKey at h
  split at h
  · cases h
  · cases h
    simp [List.length_take]

/-- A successful `GetOrCreateKey` leaves a key directory from which the returned
key loads, and the key has 32 bytes. -/
theorem GetOrCreateKey_ok {E : Env} {w w1 : World} {certName k : Bytes}
    (h : GetOrCreateKey E w certName = (Except.ok k, w1)) :
    LoadKey w1.keyDir certName = Except.ok k ∧ k.length = 32 := by
  unfold GetOrCreateKey at h
  split at h
  · rename_i key hl
    cases h
    exact ⟨hl, LoadKey_length hl⟩
  · split at h
    · cases h
    · rename_i key w2 hg
      split at h
      · cases h
      · rename_i d hs
        cases h
        have hlen := GenerateKey_length hg
        exact ⟨LoadKey_of_SaveKey hlen hs, hlen⟩

theorem GetOrCreateKey_of_LoadKey {E : Env} {w : World} {certName k : Bytes}
    (h : LoadKey w.keyDir certName = Except.ok k) :
    GetOrCreateKey E w certName = (Except.ok k, w) := by
  unfold GetOrCreateKey
  rw [h]

/-- C5: key round trip. If `SaveKey` succeeds on a 32-byte key, `LoadKey` on the
resulting key directory succeeds and returns exactly that key. -/
theorem SaveKey_LoadKey_roundtrip (keyDir keyDir' : Dir) (certName k : Bytes)
    (hk : k.length = 32) (hsave : SaveKey keyDir certName k = Except.ok keyDir') :
    LoadKey keyDir' certName = Except.ok k :=
  LoadKey_of_SaveKey hk hsave

/-- Witness for C5: a key of 32 bytes `7` saved into an empty key directory. -/
theorem SaveKey_LoadKey_roundtrip_witness :
    LoadKey { emptyDir with entries :=
        [(str "test-cert.key", Node.file (b64Encode (List.replicate 32 7) ++ str "\n"))] }
      (str "test-cert") = Except.ok (List.replicate 32 7) :=
  SaveKey_LoadKey_roundtrip emptyDir _ (str "test-cert") (List.replicate 32 7) (by decide)
    (by decide)

/-- C6: `GetOrCreateKey` is idempotent. After a successful call, a second call
returns the same key, which has 32 bytes, and leaves the world (key directory,
entropy position and effect log) as the first call left it; so of two consecutive
successful calls the second returns the key of the first and writes nothing. -/
theorem GetOrCreateKey_idempotent (E : Env) (w w1 : World) (certName k1 : Bytes)
    (h1 : GetOrCreateKey E w certName = (Except.ok k1, w1)) :
    GetOrCreateKey E w1 certName = (Except.ok k1, w1) ∧ k1.length = 32 ∧
    (∀ k2 w2, GetOrCreateKey E w1 certName = (Except.ok k2, w2) → k2 = k1 ∧ w2 = w1) := by
  have h := GetOrCreateKey_ok h1
  have h2 := GetOrCreateKey_of_LoadKey (E := E) h.1
  refine ⟨h2, h.2, ?_⟩
  intro k2 w2 h3
  rw [h2] at h3
  cases h3
  exact ⟨rfl, rfl⟩

/-- Witness for C6: the first call on an empty key directory creates the key, the
second returns it and changes nothing. -/
theorem GetOrCreateKey_idempotent_witness :
    GetOrCreateKey sampleEnv
      (GetOrCreateKey sampleEnv (sampleWorld [] [] []) (str "auto-cert")).2 (str "auto-cert")
      = (Except.ok (List.replicate 32 1),
          (GetOrCreateKey sampleEnv (sampleWorld [] [] []) (str "auto-cert")).2) :=
  (GetOrCreateKey_idempotent sampleEnv (sampleWorld [] [] []) _ (str "auto-cert")
    (List.replicate 32 1) (by decide)).1

/-- C4 (the code at the failing input): the key file of `a.com` exists but holds
text that is not base64, so `LoadKey` fails with a decoding error; `GetOrCreateKey`
nevertheless returns a freshly generated key without error and overwrites the key
file with it. -/
theorem GetOrCreateKey_malformed_regenerates :
    LoadKey (sampleWorld [] [(str "a.com.key", Node.file (str "not base64!\n"))] []).keyDir
      (str "a.com") = Except.error Err.decodeKey ∧
    (GetOrCreateKey sampleEnv
      (sampleWorld [] [(str "a.com.key", Node.file (str "not base64!\n"))] [])
      (str "a.com")).1 = Except.ok (List.replicate 32 1) ∧
    (GetOrCreateKey sampleEnv
      (sampleWorld [] [(str "a.com.key", Node.file (str "not base64!\n"))] [])
      (str "a.com")).2.keyDir.entries =
      [(str "a.com.key", Node.file (str "AQEBAQEBAQEBAQEBAQEBAQEBAQEBAQEBAQEBAQEBAQE=\n"))] := by
  decide

/-! ## Manifest store -/

/-- C9 (counterexample): the manifest body `{"a":"b","c":1}` does not parse as a JSON
object of string to string (`json.Unmarshal` reports an error), yet the mapping
`LoadHashesFromS3` returns is not empty: it holds `a ↦ b` and `c ↦ ""`. -/
theorem LoadHashesFromS3_partial_on_type_error :
    (jsonUnmarshal (str "\x7b\"a\":\"b\",\"c\":1\x7d") []).2 = true ∧
    (LoadHashesFromS3
      (sampleWorld [] [] [(str ".hashes.json", str "\x7b\"a\":\"b\",\"c\":1\x7d")]) (str "")).1
      = ([(str "a", str "b"), (str "c", str "")], none) := by
  decide

/-- C9 (amended): `LoadHashesFromS3` never returns an error. The mapping it returns is
empty when retrieval of the manifest object fails, when reading its body fails,
when the body is not syntactically valid JSON, and when the body is a JSON value
that is not an object. When the body is a JSON object, the mapping holds every
member of it, values that are not strings being stored as the empty string. -/
theorem LoadHashesFromS3_never_fails (w : World) (pfx : Bytes) :
    (LoadHashesFromS3 w pfx).1.2 = none ∧
    (GetObject w.remote (BuildKey pfx (str ".hashes.json")) = none →
      (LoadHashesFromS3 w pfx).1.1 = []) ∧
    (∀ body, GetObject w.remote (BuildKey pfx (str ".hashes.json")) = some body →
      ReadAll w.remote (BuildKey pfx (str ".hashes.json")) body = none →
      (LoadHashesFromS3 w pfx).1.1 = []) ∧
    (∀ body data, GetObject w.remote (BuildKey pfx (str ".hashes.json")) = some body →
      ReadAll w.remote (BuildKey pfx (str ".hashes.json")) body = some data →
      ((jsonParse data = none ∨ ∃ k, jsonParse data = some (JVal.other k)) →
        (LoadHashesFromS3 w pfx).1.1 = []) ∧
      (∀ ms, jsonParse data = some (JVal.members ms) →
        (LoadHashesFromS3 w pfx).1.1 = (storeMembers ms []).1)) := by
  refine ⟨?_, ?_, ?_, ?_⟩
  · unfold LoadHashesFromS3
    dsimp only
    split
    · rfl
    · split <;> rfl
  · intro h
    unfold LoadHashesFromS3
    dsimp only
    rw [h]
  · intro body hg hr
    unfold LoadHashesFromS3
    dsimp only
    rw [hg]
    dsimp only
    rw [hr]
  · intro body data hg hr
    have hres : (LoadHashesFromS3 w pfx).1.1 = (jsonUnmarshal data []).1 := by
      unfold LoadHashesFromS3
      dsimp only
      rw [hg]
      dsimp only
      rw [hr]
    refine ⟨?_, ?_⟩
    · intro hp
      rw [hres]
      unfold jsonUnmarshal
      rcases hp with hp | ⟨k, hp⟩
      · rw [hp]
      · rw [hp]
        cases k <;> rfl
    · intro ms hp
      rw [hres]
      unfold jsonUnmarshal
      rw [hp]

/-- Witness for C9 (amended): a manifest body cut off in the middle is a syntax error
and yields the empty mapping. -/
theorem LoadHashesFromS3_never_fails_witness :
    (LoadHashesFromS3
      (sampleWorld [] [] [(str ".hashes.json", str "\x7b\"a\":\"b\",\"c\":")]) (str "")).1.1 = [] :=
  ((LoadHashesFromS3_never_fails
      (sampleWorld [] [] [(str ".hashes.json", str "\x7b\"a\":\"b\",\"c\":")]) (str "")).2.2.2
    (str "\x7b\"a\":\"b\",\"c\":") (str "\x7b\"a\":\"b\",\"c\":") (by decide) (by decide)).1
    (Or.inl (by decide))

/-! ## Pull after push, evaluated -/

/-- C3 (the code at the failing input): `a.com.crt` is pushed to an empty bucket and
pulled into an empty certificate directory. The local file then has the content
whose digest the manifest records under `a.com.crt.enc`, and the bucket does not
change; yet a second pull downloads the object and writes the file again, because
it looks the digest up under `a.com.crt`, where the manifest has no entry. -/
theorem pull_twice_downloads_again :
    (push sampleEnv id samplePushConfig
      (sampleWorld [(str "a.com.crt", Node.file (str "CERT"))] [] [])).1 = none ∧
    (pull sampleEnv samplePullConfig (freshHost (push sampleEnv id samplePushConfig
      (sampleWorld [(str "a.com.crt", Node.file (str "CERT"))] [] [])).2)).1 = none ∧
    ReadFile (pull sampleEnv samplePullConfig (freshHost (push sampleEnv id samplePushConfig
      (sampleWorld [(str "a.com.crt", Node.file (str "CERT"))] [] [])).2)).2.certDir
      (str "a.com.crt") = some (str "CERT") ∧
    assocGet (LoadHashesFromS3 (pull sampleEnv samplePullConfig (freshHost
      (push sampleEnv id samplePushConfig
        (sampleWorld [(str "a.com.crt", Node.file (str "CERT"))] [] [])).2)).2 (str "certs")).1.1
      (str "a.com.crt.enc") = some (hexEncode (sampleEnv.sha256 (str "CERT"))) ∧
    (pull sampleEnv samplePullConfig (clearLog (pull sampleEnv samplePullConfig (freshHost
      (push sampleEnv id samplePushConfig
        (sampleWorld [(str "a.com.crt", Node.file (str "CERT"))] [] [])).2)).2)).2.log =
      [Event.get (str "certs/.hashes.json"), Event.list,
        Event.get (str "certs/a.com.crt.enc"),
        Event.certWrite (str "a.com.crt") (str "CERT")] := by
  decide

/-! ## Association lists: keys -/

theorem keys_assocSet {β : Type} (m : List (Bytes × β)) (k : Bytes) (v : β) :
    (assocSet m k v).map Prod.fst =
      if k ∈ m.map Prod.fst then m.map Prod.fst else m.map Prod.fst ++ [k] := by
  induction m with
  | nil => simp [assocSet]
  | cons p rest ih =>
    obtain ⟨k', v'⟩ := p
    by_cases h : k' = k
    · subst h; simp [assocSet]
    · have h' : ¬ k = k' := fun e => h e.symm
      simp only [assocSet, h, if_false, List.map_cons, ih, List.mem_cons, h', false_or]
      split <;> simp

theorem mem_keys_assocSet {β : Type} (m : List (Bytes × β)) (k k2 : Bytes) (v : β) :
    k2 ∈ (assocSet m k v).map Prod.fst ↔ k2 ∈ m.map Prod.fst ∨ k2 = k := by
  rw [keys_assocSet]
  split
  · rename_i h
    constructor
    · exact Or.inl
    · rintro (h2 | rfl)
      · exact h2
      · exact h
  · simp

theorem nodup_keys_assocSet {β : Type} (m : List (Bytes × β)) (k : Bytes) (v : β)
    (h : (m.map Prod.fst).Nodup) : ((assocSet m k v).map Prod.fst).Nodup := by
  rw [keys_assocSet]
  split
  · exact h
  · rename_i hk
    rw [List.nodup_append]
    refine ⟨h, List.nodup_singleton _, ?_⟩
    intro a ha hb
    simp only [List.mem_singleton] at hb
    subst hb
    exact hk ha

theorem assocGet_some_mem {β : Type} {m : List (Bytes × β)} {k : Bytes} {v : β}
    (h : assocGet m k = some v) : (k, v) ∈ m := by
  induction m with
  | nil => simp [assocGet] at h
  | cons p rest ih =>
    obtain ⟨k', v'⟩ := p
    by_cases hk : k' = k
    · subst hk
      simp only [assocGet, if_true, Option.some.injEq] at h
      subst h
      exact List.mem_cons_self _ _
    · simp only [assocGet, hk, if_false] at h
      exact List.mem_cons_of_mem _ (ih h)

theorem assocGet_isSome_iff {β : Type} (m : List (Bytes × β)) (k : Bytes) :
    (assocGet m k).isSome ↔ k ∈ m.map Prod.fst := by
  induction m with
  | nil => simp [assocGet]
  | cons p rest ih =>
    obtain ⟨k', v'⟩ := p
    by_cases hk : k' = k
    · subst hk; simp [assocGet]
    · have hk' : ¬ k = k' := fun e => hk e.symm
      simp [assocGet, hk, hk', ih]

theorem mem_assocSet {β : Type} {m : List (Bytes × β)} {k : Bytes} {v : β} {p : Bytes × β}
    (h : p ∈ assocSet m k v) : p ∈ m ∨ p = (k, v) := by
  induction m with
  | nil =>
    simp only [assocSet, List.mem_singleton] at h
    exact Or.inr h
  | cons q rest ih =>
    obtain ⟨k', v'⟩ := q
    by_cases hk : k' = k
    · simp only [assocSet, hk, if_true, List.mem_cons] at h
      rcases h with h | h
      · exact Or.inr h
      · exact Or.inl (List.mem_cons_of_mem _ h)
    · simp only [assocSet, hk, if_false, List.mem_cons] at h
      rcases h with h | h
      · exact Or.inl (h ▸ List.mem_cons_self _ _)
      · rcases ih h with h2 | h2
        · exact Or.inl (List.mem_cons_of_mem _ h2)
        · exact Or.inr h2

/-! ## The grouping loop of push -/

theorem mem_allFiles_assocSet (acc : List (Bytes × List Bytes)) (c name f : Bytes) :
    f ∈ allFiles (assocSet acc c ((assocGet acc c).getD [] ++ [name])) ↔
      f ∈ allFiles acc ∨ f = name := by
  induction acc with
  | nil => simp [allFiles, assocSet, assocGet]
  | cons p rest ih =>
    obtain ⟨c', fs⟩ := p
    by_cases hc : c' = c
    · subst hc
      simp only [allFiles, assocSet, assocGet, if_true, Option.getD_some, List.flatMap_cons,
        List.mem_append, List.mem_singleton]
      tauto
    · simp only [allFiles, List.flatMap_cons] at ih ⊢
      simp only [assocSet, assocGet, hc, if_false, List.flatMap_cons, List.mem_append, ih,
        or_assoc]

theorem mem_allFiles_groupFiles (entries : List (Bytes × Node))
    (acc : List (Bytes × List Bytes)) (f : Bytes) :
    f ∈ allFiles (groupFiles entries acc) ↔
      f ∈ allFiles acc ∨
      f ∈ (entries.filter fun e => decide (e.2 ≠ Node.dir) && (ExtractCertName e.1).2).map
        Prod.fst := by
  induction entries generalizing acc with
  | nil => simp [groupFiles]
  | cons e rest ih =>
    obtain ⟨name, node⟩ := e
    unfold groupFiles
    by_cases hd : node = Node.dir
    · simp [hd, ih]
    · simp only [hd, if_false]
      cases hx : ExtractCertName name with
      | mk certName ok =>
        cases ok with
        | false => simp [ih, hd, hx]
        | true =>
          simp only [ih, mem_allFiles_assocSet]
          simp [hd, hx, or_assoc]

theorem groupFiles_resolves (entries : List (Bytes × Node)) (acc : List (Bytes × List Bytes))
    (hacc : ∀ p ∈ acc, ∀ f ∈ p.2, ExtractCertName f = (p.1, true)) :
    ∀ p ∈ groupFiles entries acc, ∀ f ∈ p.2, ExtractCertName f = (p.1, true) := by
  induction entries generalizing acc with
  | nil => simpa [groupFiles] using hacc
  | cons e rest ih =>
    obtain ⟨name, node⟩ := e
    unfold groupFiles
    by_cases hd : node = Node.dir
    · simp only [hd, if_true]; exact ih acc hacc
    · simp only [hd, if_false]
      cases hx : ExtractCertName name with
      | mk certName ok =>
        cases ok with
        | false => exact ih acc hacc
        | true =>
          apply ih
          intro p hp f hf
          rcases mem_assocSet hp with hp | hp
          · exact hacc p hp f hf
          · subst hp
            simp only [List.mem_append, List.mem_singleton] at hf
            rcases hf with hf | hf
            · cases hg : assocGet acc certName with
              | none => simp [hg] at hf
              | some old =>
                simp only [hg, Option.getD_some] at hf
                exact hacc _ (assocGet_some_mem hg) f hf
            · subst hf; exact hx

/-- The files `push` groups are exactly the certificate artifact files. -/
theorem mem_allFiles_group_iff (d : Dir) (f : Bytes) :
    f ∈ allFiles (groupFiles d.entries []) ↔ f ∈ artifactFiles d := by
  rw [mem_allFiles_groupFiles]
  simp [allFiles, artifactFiles]

theorem mem_allFiles_perm {l1 l2 : List (Bytes × List Bytes)} (h : l1.Perm l2) (f : Bytes) :
    f ∈ allFiles l1 ↔ f ∈ allFiles l2 := by
  simp only [allFiles, List.mem_flatMap]
  constructor
  · rintro ⟨p, hp, hf⟩; exact ⟨p, h.mem_iff.1 hp, hf⟩
  · rintro ⟨p, hp, hf⟩; exact ⟨p, h.mem_iff.2 hp, hf⟩

/-! ## The loops of push -/

theorem pushFile_unreadable (E : Env) (pfx : Bytes) (ex : List (Bytes × Bytes)) (key : Bytes)
    (st : PushState) (f : Bytes) (h : ReadFile st.w.certDir f = none) :
    pushFile E pfx ex key st f = (none, st) := by
  unfold pushFile; rw [h]

/-- The four outcomes of the loop body of `push` on a readable file. -/
theorem pushFile_readable (E : Env) (pfx : Bytes) (ex : List (Bytes × Bytes)) (key : Bytes)
    (st : PushState) (f d : Bytes) (h : ReadFile st.w.certDir f = some d) :
    (assocGet ex (f ++ str ".enc") = some (hexEncode (E.sha256 d)) ∧
      pushFile E pfx ex key st f =
        (none, { st with
          newHashes := assocSet st.newHashes (f ++ str ".enc") (hexEncode (E.sha256 d)) })) ∨
    (assocGet ex (f ++ str ".enc") ≠ some (hexEncode (E.sha256 d)) ∧
      E.encrypt st.w.tick d key = none ∧
      pushFile E pfx ex key st f =
        (some Err.encrypt,
          { st with
            newHashes := assocSet st.newHashes (f ++ str ".enc") (hexEncode (E.sha256 d))
            w := { st.w with tick := st.w.tick + 1 } })) ∨
    (assocGet ex (f ++ str ".enc") ≠ some (hexEncode (E.sha256 d)) ∧
      ∃ ct, E.encrypt st.w.tick d key = some ct ∧
      BuildKey pfx (f ++ str ".enc") ∈ st.w.remote.putErr ∧
      pushFile E pfx ex key st f =
        (some (Err.upload (BuildKey pfx (f ++ str ".enc"))),
          { st with
            newHashes := assocSet st.newHashes (f ++ str ".enc") (hexEncode (E.sha256 d))
            w := { st.w with
              tick := st.w.tick + 1
              log := st.w.log ++ [Event.put (BuildKey pfx (f ++ str ".enc")) ct false] } })) ∨
    (assocGet ex (f ++ str ".enc") ≠ some (hexEncode (E.sha256 d)) ∧
      ∃ ct, E.encrypt st.w.tick d key = some ct ∧
      BuildKey pfx (f ++ str ".enc") ∉ st.w.remote.putErr ∧
      pushFile E pfx ex key st f =
        (none,
          { newHashes := assocSet st.newHashes (f ++ str ".enc") (hexEncode (E.sha256 d))
            uploaded := true
            w := { st.w with
              tick := st.w.tick + 1
              remote := { st.w.remote with
                objects := assocSet st.w.remote.objects (BuildKey pfx (f ++ str ".enc")) ct }
              log := st.w.log ++ [Event.put (BuildKey pfx (f ++ str ".enc")) ct true] } })) := by
  unfold pushFile
  rw [h]
  dsimp only
  by_cases hm : assocGet ex (f ++ str ".enc") = some (hexEncode (E.sha256 d))
  · left
    exact ⟨hm, by rw [if_pos hm]⟩
  · right
    rw [if_neg hm]
    unfold EncryptData
    cases he : E.encrypt st.w.tick d key with
    | none => left; exact ⟨hm, rfl, rfl⟩
    | some ct =>
      right
      unfold PutObject
      by_cases hp : BuildKey pfx (f ++ str ".enc") ∈ st.w.remote.putErr
      · left
        refine ⟨hm, ct, rfl, hp, ?_⟩
        dsimp only
        rw [if_pos hp]
      · right
        refine ⟨hm, ct, rfl, hp, ?_⟩
        dsimp only
        rw [if_neg hp]


/-- The loop body of `push` leaves both directories as they are. -/
theorem pushFile_dirs (E : Env) (pfx : Bytes) (ex : List (Bytes × Bytes)) (key : Bytes)
    (st : PushState) (f : Bytes) :
    (pushFile E pfx ex key st f).2.w.certDir = st.w.certDir ∧
    (pushFile E pfx ex key st f).2.w.keyDir = st.w.keyDir := by
  cases h : ReadFile st.w.certDir f with
  | none => rw [pushFile_unreadable E pfx ex key st f h]; exact ⟨rfl, rfl⟩
  | some d =>
    rcases pushFile_readable E pfx ex key st f d h with
      ⟨_, e⟩ | ⟨_, _, e⟩ | ⟨_, ct, _, _, e⟩ | ⟨_, ct, _, _, e⟩ <;> rw [e] <;> exact ⟨rfl, rfl⟩

/-- `GetOrCreateKey` touches neither the certificate directory nor the bucket, and
logs no put. -/
theorem GetOrCreateKey_frame (E : Env) (w : World) (c : Bytes) :
    (GetOrCreateKey E w c).2.certDir = w.certDir ∧
    (GetOrCreateKey E w c).2.remote = w.remote ∧
    (GetOrCreateKey E w c).2.log.filter isPut = w.log.filter isPut := by
  unfold GetOrCreateKey
  split
  · exact ⟨rfl, rfl, rfl⟩
  · unfold GenerateKey
    dsimp only
    split
    · rename_i h
      split at h <;> cases h <;> exact ⟨rfl, rfl, rfl⟩
    · rename_i h
      split at h
      · cases h
      · cases h
        dsimp only
        split
        · exact ⟨rfl, rfl, rfl⟩
        · refine ⟨rfl, rfl, ?_⟩
          simp [List.filter_append, isPut]

/-- Invariants of the inner loop of `push`. -/
theorem pushFiles_inv (E : Env) (pfx : Bytes) (ex : List (Bytes × Bytes)) (key : Bytes)
    (P : PushState → Prop) (files : List Bytes)
    (h : ∀ st f, f ∈ files → P st → P (pushFile E pfx ex key st f).2) :
    ∀ st, P st → P (pushFiles E pfx ex key files st).2 := by
  induction files with
  | nil => intro st hP; exact hP
  | cons f rest ih =>
    intro st hP
    have h1 := h st f (List.mem_cons_self _ _) hP
    unfold pushFiles
    cases hr : pushFile E pfx ex key st f with
    | mk r st1 =>
      rw [hr] at h1
      cases r with
      | some e => exact h1
      | none => exact ih (fun st f hf => h st f (List.mem_cons_of_mem _ hf)) st1 h1

/-- Invariants of the outer loop of `push`: a property kept by key resolution and
by the loop body, the latter run with the key that loads for the certificate. -/
theorem pushCerts_inv (E : Env) (pfx : Bytes) (ex : List (Bytes × Bytes))
    (P : PushState → Prop) (groups : List (Bytes × List Bytes))
    (hK : ∀ st c files, (c, files) ∈ groups → P st →
      P { st with w := (GetOrCreateKey E st.w c).2 })
    (hF : ∀ st c files key f, (c, files) ∈ groups → f ∈ files →
      LoadKey st.w.keyDir c = Except.ok key → P st → P (pushFile E pfx ex key st f).2) :
    ∀ st, P st → P (pushCerts E pfx ex groups st).2 := by
  induction groups with
  | nil => intro st hP; exact hP
  | cons g rest ih =>
    obtain ⟨c, files⟩ := g
    intro st hP
    have hk := hK st c files (List.mem_cons_self _ _) hP
    unfold pushCerts
    cases hg : GetOrCreateKey E st.w c with
    | mk r w1 =>
      rw [hg] at hk
      cases r with
      | error e => exact hk
      | ok key =>
        have hload := (GetOrCreateKey_ok hg).1
        have hfiles := pushFiles_inv E pfx ex key
          (fun st => P st ∧ LoadKey st.w.keyDir c = Except.ok key) files
          (fun st f hf hp =>
            ⟨hF st c files key f (List.mem_cons_self _ _) hf hp.2 hp.1, by
              rw [(pushFile_dirs E pfx ex key st f).2]; exact hp.2⟩)
          { st with w := w1 } ⟨hk, hload⟩
        dsimp only
        cases hr : pushFiles E pfx ex key files { st with w := w1 } with
        | mk r2 st1 =>
          rw [hr] at hfiles
          cases r2 with
          | some e => exact hfiles.1
          | none =>
            exact ih (fun st c files hm => hK st c files (List.mem_cons_of_mem _ hm))
              (fun st c files key f hm => hF st c files key f (List.mem_cons_of_mem _ hm))
              st1 hfiles.1

/-- Progress of the inner loop of `push`: what a successful pass of the loop body
establishes for its file, and later steps keep, holds for every file at the end. -/
theorem pushFiles_progress (E : Env) (pfx : Bytes) (ex : List (Bytes × Bytes)) (key : Bytes)
    (P : PushState → Prop) (R : Bytes → PushState → Prop) (files : List Bytes)
    (hP : ∀ st f, f ∈ files → P st → P (pushFile E pfx ex key st f).2)
    (hR : ∀ g st f, P st → R g st → R g (pushFile E pfx ex key st f).2)
    (hest : ∀ st f st', f ∈ files → P st → pushFile E pfx ex key st f = (none, st') → R f st') :
    ∀ st st', P st → pushFiles E pfx ex key files st = (none, st') →
      (∀ g, R g st → R g st') ∧ ∀ f ∈ files, R f st' := by
  induction files with
  | nil =>
    intro st st' _ h
    simp only [pushFiles, Prod.mk.injEq, true_and] at h
    subst h
    exact ⟨fun _ h => h, fun f hf => by cases hf⟩
  | cons f rest ih =>
    intro st st' hPst h
    unfold pushFiles at h
    cases hr : pushFile E pfx ex key st f with
    | mk r st1 =>
      rw [hr] at h
      cases r with
      | some e => simp at h
      | none =>
        dsimp only at h
        have hP1 : P st1 := by
          have := hP st f (List.mem_cons_self _ _) hPst; rw [hr] at this; exact this
        have hR1 : ∀ g, R g st → R g st1 := fun g hg => by
          have := hR g st f hPst hg; rw [hr] at this; exact this
        have hf1 : R f st1 := hest st f st1 (List.mem_cons_self _ _) hPst hr
        obtain ⟨hmono, hall⟩ := ih (fun st f hf => hP st f (List.mem_cons_of_mem _ hf))
          (fun st f st' hf => hest st f st' (List.mem_cons_of_mem _ hf)) st1 st' hP1 h
        refine ⟨fun g hg => hmono g (hR1 g hg), ?_⟩
        intro g hg
        rcases List.mem_cons.1 hg with rfl | hg
        · exact hmono _ hf1
        · exact hall g hg

/-- Progress of the outer loop of `push`. -/
theorem pushCerts_progress (E : Env) (pfx : Bytes) (ex : List (Bytes × Bytes))
    (P : PushState → Prop) (R : Bytes → PushState → Prop) (groups : List (Bytes × List Bytes))
    (hK : ∀ st c files, (c, files) ∈ groups → P st →
      P { st with w := (GetOrCreateKey E st.w c).2 })
    (hF : ∀ st c files key f, (c, files) ∈ groups → f ∈ files →
      LoadKey st.w.keyDir c = Except.ok key → P st → P (pushFile E pfx ex key st f).2)
    (hRK : ∀ g st c, P st → R g st → R g { st with w := (GetOrCreateKey E st.w c).2 })
    (hRF : ∀ g st key f, P st → R g st → R g (pushFile E pfx ex key st f).2)
    (hest : ∀ st c files key f st', (c, files) ∈ groups → f ∈ files →
      LoadKey st.w.keyDir c = Except.ok key → P st →
      pushFile E pfx ex key st f = (none, st') → R f st') :
    ∀ st st', P st → pushCerts E pfx ex groups st = (none, st') →
      (∀ g, R g st → R g st') ∧ ∀ f ∈ allFiles groups, R f st' := by
  induction groups with
  | nil =>
    intro st st' _ h
    simp only [pushCerts, Prod.mk.injEq, true_and] at h
    subst h
    exact ⟨fun _ h => h, fun f hf => by simp [allFiles] at hf⟩
  | cons g rest ih =>
    obtain ⟨c, files⟩ := g
    intro st st' hPst h
    have hk := hK st c files (List.mem_cons_self _ _) hPst
    unfold pushCerts at h
    cases hg : GetOrCreateKey E st.w c with
    | mk r w1 =>
      rw [hg] at h hk
      cases r with
      | error e => simp at h
      | ok key =>
        dsimp only at h
        have hload := (GetOrCreateKey_ok hg).1
        have hRk : ∀ g, R g st → R g { st with w := w1 } := fun g hgR => by
          have := hRK g st c hPst hgR; rw [hg] at this; exact this
        cases hr : pushFiles E pfx ex key files { st with w := w1 } with
        | mk r2 st1 =>
          rw [hr] at h
          cases r2 with
          | some e => simp at h
          | none =>
            dsimp only at h
            have hPkeep : ∀ st f, f ∈ files → (P st ∧ LoadKey st.w.keyDir c = Except.ok key) →
                (P (pushFile E pfx ex key st f).2 ∧
                  LoadKey (pushFile E pfx ex key st f).2.w.keyDir c = Except.ok key) :=
              fun st f hf hp =>
                ⟨hF st c files key f (List.mem_cons_self _ _) hf hp.2 hp.1, by
                  rw [(pushFile_dirs E pfx ex key st f).2]; exact hp.2⟩
            have hP1 := pushFiles_inv E pfx ex key
              (fun st => P st ∧ LoadKey st.w.keyDir c = Except.ok key) files hPkeep
              { st with w := w1 } ⟨hk, hload⟩
            rw [hr] at hP1
            obtain ⟨hmono1, hall1⟩ := pushFiles_progress E pfx ex key
              (fun st => P st ∧ LoadKey st.w.keyDir c = Except.ok key) R files hPkeep
              (fun g st f hp hR => hRF g st key f hp.1 hR)
              (fun st f st' hf hp he =>
                hest st c files key f st' (List.mem_cons_self _ _) hf hp.2 hp.1 he)
              { st with w := w1 } st1 ⟨hk, hload⟩ hr
            obtain ⟨hmono2, hall2⟩ := ih
              (fun st c files hm => hK st c files (List.mem_cons_of_mem _ hm))
              (fun st c files key f hm => hF st c files key f (List.mem_cons_of_mem _ hm))
              (fun st c files key f st' hm =>
                hest st c files key f st' (List.mem_cons_of_mem _ hm))
              st1 st' hP1.1 h
            refine ⟨fun g hgR => hmono2 g (hmono1 g (hRk g hgR)), ?_⟩
            intro f hf
            simp only [allFiles, List.flatMap_cons, List.mem_append] at hf
            rcases hf with hf | hf
            · exact hmono2 f (hall1 f hf)
            · exact hall2 f hf

theorem pushFile_newHashes (E : Env) (pfx : Bytes) (ex : List (Bytes × Bytes)) (key : Bytes)
    (st : PushState) (f d : Bytes) (h : ReadFile st.w.certDir f = some d) :
    (pushFile E pfx ex key st f).2.newHashes =
      assocSet st.newHashes (f ++ str ".enc") (hexEncode (E.sha256 d)) := by
  rcases pushFile_readable E pfx ex key st f d h with
    ⟨_, e⟩ | ⟨_, _, e⟩ | ⟨_, ct, _, _, e⟩ | ⟨_, ct, _, _, e⟩ <;> rw [e]

theorem HashInv_key (E : Env) (C : Dir) (A : List Bytes) (st : PushState) (c : Bytes)
    (h : HashInv E C A st) : HashInv E C A { st with w := (GetOrCreateKey E st.w c).2 } :=
  ⟨by rw [← h.1]; exact (GetOrCreateKey_frame E st.w c).1, h.2.1, h.2.2⟩

theorem HashInv_file (E : Env) (pfx : Bytes) (ex : List (Bytes × Bytes)) (C : Dir)
    (A : List Bytes) (st : PushState) (key f : Bytes) (hf : f ∈ A) (h : HashInv E C A st) :
    HashInv E C A (pushFile E pfx ex key st f).2 := by
  obtain ⟨hC, hnd, hv⟩ := h
  cases hr : ReadFile st.w.certDir f with
  | none => rw [pushFile_unreadable E pfx ex key st f hr]; exact ⟨hC, hnd, hv⟩
  | some d =>
    refine ⟨by rw [(pushFile_dirs E pfx ex key st f).1]; exact hC, ?_, ?_⟩
    · rw [pushFile_newHashes E pfx ex key st f d hr]
      exact nodup_keys_assocSet _ _ _ hnd
    · rw [pushFile_newHashes E pfx ex key st f d hr]
      intro k v hk
      by_cases hkf : f ++ str ".enc" = k
      · subst hkf
        rw [assocGet_assocSet_same] at hk
        cases hk
        exact ⟨f, hf, rfl, by simp [wantHash, ← hC, hr]⟩
      · rw [assocGet_assocSet_ne _ _ _ _ hkf] at hk
        exact hv k v hk

theorem Covered_file (E : Env) (pfx : Bytes) (ex : List (Bytes × Bytes)) (C : Dir)
    (g : Bytes) (st : PushState) (key f : Bytes) (hC : st.w.certDir = C)
    (h : Covered E C g st) : Covered E C g (pushFile E pfx ex key st f).2 := by
  cases hr : ReadFile st.w.certDir f with
  | none => rw [pushFile_unreadable E pfx ex key st f hr]; exact h
  | some d =>
    intro dg hdg
    rw [pushFile_newHashes E pfx ex key st f d hr]
    by_cases hkf : f ++ str ".enc" = g ++ str ".enc"
    · have hfg : f = g := List.append_cancel_right hkf
      subst hfg
      rw [hC, hdg] at hr
      cases hr
      rw [assocGet_assocSet_same]
    · rw [assocGet_assocSet_ne _ _ _ _ hkf]
      exact h dg hdg

theorem Covered_established (E : Env) (pfx : Bytes) (ex : List (Bytes × Bytes)) (C : Dir)
    (st : PushState) (key f : Bytes) (hC : st.w.certDir = C) :
    Covered E C f (pushFile E pfx ex key st f).2 := by
  intro d hd
  rw [← hC] at hd
  rw [pushFile_newHashes E pfx ex key st f d hd, assocGet_assocSet_same]

theorem LoadHashesFromS3_err (w : World) (pfx : Bytes) : (LoadHashesFromS3 w pfx).1.2 = none := by
  unfold LoadHashesFromS3
  dsimp only
  split
  · rfl
  · split <;> rfl

theorem LoadHashesFromS3_world (w : World) (pfx : Bytes) :
    (LoadHashesFromS3 w pfx).2 =
      { w with log := w.log ++ [Event.get (BuildKey pfx (str ".hashes.json"))] } := by
  unfold LoadHashesFromS3
  dsimp only
  split
  · rfl
  · split <;> rfl

/-- The manifest `push` compares against depends on the bucket only. -/
theorem LoadHashesFromS3_remote (w w' : World) (pfx : Bytes) (h : w'.remote = w.remote) :
    (LoadHashesFromS3 w' pfx).1.1 = (LoadHashesFromS3 w pfx).1.1 := by
  unfold LoadHashesFromS3
  dsimp only
  rw [h]
  split
  · rfl
  · split <;> rfl

/-- The three ways `push` reaches the end of its loop. -/
theorem pushSync_eq (E : Env) (order : List (Bytes × List Bytes) → List (Bytes × List Bytes))
    (cfg : PushConfig) (w : World) :
    pushSync E order cfg w =
      if w.remote.clientErr then
        (some Err.loadS3Config,
          { w := runLegoCommands w cfg.legoCommands, newHashes := [], uploaded := false })
      else if w.certDir.listErr then (some Err.readCertificateDirectory, pushStart cfg w)
      else pushCerts E cfg.s3Prefix (pushExisting cfg w)
        (order (groupFiles w.certDir.entries [])) (pushStart cfg w) := by
  unfold pushSync pushStart pushExisting
  dsimp only
  have he := LoadHashesFromS3_err (runLegoCommands w cfg.legoCommands) cfg.s3Prefix
  have hw := LoadHashesFromS3_world (runLegoCommands w cfg.legoCommands) cfg.s3Prefix
  cases hl : LoadHashesFromS3 (runLegoCommands w cfg.legoCommands) cfg.s3Prefix with
  | mk p w1 =>
    obtain ⟨ex, err⟩ := p
    rw [hl] at he hw
    dsimp only at he hw
    subst he
    subst hw
    dsimp only [runLegoCommands]

/-- Invariants of `push` up to the end of its loop. -/
theorem pushSync_inv (E : Env) (order : List (Bytes × List Bytes) → List (Bytes × List Bytes))
    (cfg : PushConfig) (w : World) (P : PushState → Prop)
    (h0 : P { w := runLegoCommands w cfg.legoCommands, newHashes := [], uploaded := false })
    (h1 : P (pushStart cfg w))
    (hK : ∀ st c files, (c, files) ∈ order (groupFiles w.certDir.entries []) → P st →
      P { st with w := (GetOrCreateKey E st.w c).2 })
    (hF : ∀ st c files key f, (c, files) ∈ order (groupFiles w.certDir.entries []) →
      f ∈ files → LoadKey st.w.keyDir c = Except.ok key → P st →
      P (pushFile E cfg.s3Prefix (pushExisting cfg w) key st f).2) :
    P (pushSync E order cfg w).2 := by
  rw [pushSync_eq]
  split
  · exact h0
  · split
    · exact h1
    · exact pushCerts_inv E cfg.s3Prefix (pushExisting cfg w) P _ hK hF _ h1

theorem BuildKey_injective (pfx a b : Bytes) (h : BuildKey pfx a = BuildKey pfx b) : a = b := by
  unfold BuildKey at h
  split at h
  · exact List.append_cancel_left h
  · exact h

theorem enc_ne_manifest (f : Bytes) : f ++ str ".enc" ≠ str ".hashes.json" := by
  intro h
  have hs : str ".enc" <:+ str ".hashes.json" := h ▸ List.suffix_append f (str ".enc")
  revert hs
  decide

theorem objectKey_ne_manifestKey (pfx f : Bytes) :
    BuildKey pfx (f ++ str ".enc") ≠ BuildKey pfx (str ".hashes.json") :=
  fun h => enc_ne_manifest f (BuildKey_injective pfx _ _ h)

/-- What the loop body of `push` adds to the log: nothing, or one put of the
object of its file. -/
theorem pushFile_log (E : Env) (pfx : Bytes) (ex : List (Bytes × Bytes)) (key : Bytes)
    (st : PushState) (f : Bytes) :
    (pushFile E pfx ex key st f).2.w.log = st.w.log ∨
    ∃ ct ok, (pushFile E pfx ex key st f).2.w.log =
      st.w.log ++ [Event.put (BuildKey pfx (f ++ str ".enc")) ct ok] := by
  cases h : ReadFile st.w.certDir f with
  | none => rw [pushFile_unreadable E pfx ex key st f h]; exact Or.inl rfl
  | some d =>
    rcases pushFile_readable E pfx ex key st f d h with
      ⟨_, e⟩ | ⟨_, _, e⟩ | ⟨_, ct, _, _, e⟩ | ⟨_, ct, _, _, e⟩ <;> rw [e]
    · exact Or.inl rfl
    · exact Or.inl rfl
    · exact Or.inr ⟨ct, false, rfl⟩
    · exact Or.inr ⟨ct, true, rfl⟩

/-- What `GetOrCreateKey` adds to the log: nothing, or one key write. -/
theorem GetOrCreateKey_log (E : Env) (w : World) (c : Bytes) :
    (GetOrCreateKey E w c).2.log = w.log ∨
    ∃ n d, (GetOrCreateKey E w c).2.log = w.log ++ [Event.keyWrite n d] := by
  unfold GetOrCreateKey
  split
  · exact Or.inl rfl
  · unfold GenerateKey
    dsimp only
    split
    · rename_i h
      split at h <;> cases h <;> exact Or.inl rfl
    · rename_i h
      split at h
      · cases h
      · cases h
        dsimp only
        split
        · exact Or.inl rfl
        · exact Or.inr ⟨_, _, rfl⟩

theorem Extends_append {q : Event → Bool} {base : List Event} {st st' : PushState}
    (h : Extends q base st) (evs : List Event) (hlog : st'.w.log = st.w.log ++ evs)
    (hq : ∀ e ∈ evs, q e = false) : Extends q base st' := by
  obtain ⟨evs0, h0, hq0⟩ := h
  refine ⟨evs0 ++ evs, by rw [hlog, h0, List.append_assoc], ?_⟩
  intro e he
  rcases List.mem_append.1 he with he | he
  · exact hq0 e he
  · exact hq e he

theorem Extends_key (E : Env) (q : Event → Bool) (base : List Event) (st : PushState)
    (c : Bytes) (hq : ∀ n d, q (Event.keyWrite n d) = false) (h : Extends q base st) :
    Extends q base { st with w := (GetOrCreateKey E st.w c).2 } := by
  rcases GetOrCreateKey_log E st.w c with e | ⟨n, d, e⟩
  · exact Extends_append h [] (by simp [e]) (by simp)
  · exact Extends_append h [Event.keyWrite n d] e (by simp [hq])

/-- Up to the end of its loop, `push` puts no object under the manifest key. -/
theorem pushSync_no_manifest_put (E : Env)
    (order : List (Bytes × List Bytes) → List (Bytes × List Bytes))
    (cfg : PushConfig) (w : World) :
    Extends (isPutOf (BuildKey cfg.s3Prefix (str ".hashes.json"))) w.log
      (pushSync E order cfg w).2 := by
  apply pushSync_inv
  · exact ⟨cfg.legoCommands.map Event.run, rfl, by simp [isPutOf]⟩
  · refine ⟨cfg.legoCommands.map Event.run ++
      [Event.get (BuildKey cfg.s3Prefix (str ".hashes.json"))], ?_, ?_⟩
    · simp [pushStart, LoadHashesFromS3_world, runLegoCommands]
    · intro e he
      simp only [List.mem_append, List.mem_map, List.mem_singleton] at he
      rcases he with ⟨c, _, rfl⟩ | rfl <;> rfl
  · intro st c files _ h
    exact Extends_key E _ _ st c (fun _ _ => rfl) h
  · intro st c files key f _ _ _ h
    rcases pushFile_log E cfg.s3Prefix (pushExisting cfg w) key st f with e | ⟨ct, ok, e⟩
    · exact Extends_append h [] (by simp [e]) (by simp)
    · refine Extends_append h _ e ?_
      intro ev hev
      simp only [List.mem_singleton] at hev
      subst hev
      simp [isPutOf, objectKey_ne_manifestKey]

/-- The hash invariant holds when `push` leaves its loop. -/
theorem pushSync_HashInv (E : Env)
    (order : List (Bytes × List Bytes) → List (Bytes × List Bytes))
    (cfg : PushConfig) (w : World) (horder : ∀ l, (order l).Perm l) :
    HashInv E w.certDir (artifactFiles w.certDir) (pushSync E order cfg w).2 := by
  apply pushSync_inv
  · exact ⟨rfl, List.nodup_nil, fun k v h => by simp [assocGet] at h⟩
  · refine ⟨?_, List.nodup_nil, fun k v h => by simp [assocGet] at h⟩
    simp [pushStart, LoadHashesFromS3_world, runLegoCommands]
  · intro st c files _ h
    exact HashInv_key E _ _ st c h
  · intro st c files key f hm hf _ h
    apply HashInv_file E _ _ _ _ st key f _ h
    rw [← mem_allFiles_group_iff, ← mem_allFiles_perm (horder _)]
    exact List.mem_flatMap.2 ⟨(c, files), hm, hf⟩

/-- When `push` leaves its loop without error, the manifest under construction
covers every certificate artifact file. -/
theorem pushSync_Covered (E : Env)
    (order : List (Bytes × List Bytes) → List (Bytes × List Bytes))
    (cfg : PushConfig) (w : World) (horder : ∀ l, (order l).Perm l) (st : PushState)
    (h : pushSync E order cfg w = (none, st)) :
    ∀ f ∈ artifactFiles w.certDir, Covered E w.certDir f st := by
  rw [pushSync_eq] at h
  split at h
  · cases h
  · split at h
    · cases h
    · have hstart : (pushStart cfg w).w.certDir = w.certDir := by
        simp [pushStart, LoadHashesFromS3_world, runLegoCommands]
      have := (pushCerts_progress E cfg.s3Prefix (pushExisting cfg w)
        (fun st => st.w.certDir = w.certDir) (fun f st => Covered E w.certDir f st)
        (order (groupFiles w.certDir.entries []))
        (fun st c files _ hP => by
          show (GetOrCreateKey E st.w c).2.certDir = w.certDir
          rw [(GetOrCreateKey_frame E st.w c).1]; exact hP)
        (fun st c files key f _ _ _ hP => by
          show (pushFile E cfg.s3Prefix (pushExisting cfg w) key st f).2.w.certDir = w.certDir
          rw [(pushFile_dirs E _ _ key st f).1]; exact hP)
        (fun g st c _ hR => hR)
        (fun g st key f hP hR => Covered_file E _ _ _ g st key f hP hR)
        (fun st c files key f st' _ _ _ hP he => by
          have := Covered_established E cfg.s3Prefix (pushExisting cfg w) w.certDir st key f hP
          rw [he] at this; exact this)
        (pushStart cfg w) st hstart h).2
      intro f hf
      apply this
      rw [mem_allFiles_perm (horder _), mem_allFiles_group_iff]
      exact hf

theorem runEvents_append (w w' : World) (evs : List Event) (h : w'.log = w.log ++ evs) :
    runEvents w w' = evs := by
  unfold runEvents
  rw [h, List.drop_left]

theorem runReload_log (E : Env) (cmd : Bytes) (w : World) :
    (runReload E cmd w).2.log = w.log ∨ (runReload E cmd w).2.log = w.log ++ [Event.run cmd] := by
  unfold runReload
  split
  · dsimp only
    split
    · exact Or.inr rfl
    · exact Or.inr rfl
  · exact Or.inl rfl

theorem runReload_frame (E : Env) (cmd : Bytes) (w : World) :
    (runReload E cmd w).2.remote = w.remote ∧ (runReload E cmd w).2.certDir = w.certDir ∧
    (runReload E cmd w).2.keyDir = w.keyDir := by
  unfold runReload
  split
  · dsimp only
    split <;> exact ⟨rfl, rfl, rfl⟩
  · exact ⟨rfl, rfl, rfl⟩

theorem PutObject_log (w : World) (key body : Bytes) :
    (PutObject w key body).2.log = w.log ++ [Event.put key body (decide (key ∉ w.remote.putErr))] := by
  unfold PutObject
  split
  · rename_i h; simp [h]
  · rename_i h; simp [h]

/-- The events of a whole `push` run, in terms of the state at the end of its loop:
the events of the loop, then the manifest put if anything was uploaded, then
possibly the reload command. -/
theorem push_events (E : Env) (order : List (Bytes × List Bytes) → List (Bytes × List Bytes))
    (cfg : PushConfig) (w : World) (evs : List Event)
    (hlog : (pushSync E order cfg w).2.w.log = w.log ++ evs) :
    ∃ tail, runEvents w (push E order cfg w).2 = evs ++ tail ∧
      (tail = [] ∨ tail = [Event.run cfg.reloadCmd] ∨
        ((pushSync E order cfg w).1 = none ∧ (pushSync E order cfg w).2.uploaded = true ∧
          ∃ ok rest, tail = Event.put (BuildKey cfg.s3Prefix (str ".hashes.json"))
            (E.marshal (pushSync E order cfg w).2.newHashes ++ str "\n") ok :: rest ∧
            (rest = [] ∨ rest = [Event.run cfg.reloadCmd]))) := by
  unfold push
  cases hs : pushSync E order cfg w with
  | mk r st =>
    rw [hs] at hlog
    dsimp only at hlog ⊢
    cases r with
    | some e =>
      exact ⟨[], by rw [runEvents_append w st.w evs hlog]; simp, Or.inl rfl⟩
    | none =>
      dsimp only
      by_cases hu : st.uploaded = true
      · rw [if_pos hu]
        have hp := PutObject_log st.w (BuildKey cfg.s3Prefix (str ".hashes.json"))
          (E.marshal st.newHashes ++ str "\n")
        rcases runReload_log E cfg.reloadCmd (PutObject st.w
          (BuildKey cfg.s3Prefix (str ".hashes.json"))
          (E.marshal st.newHashes ++ str "\n")).2 with hr | hr
        · refine ⟨[Event.put (BuildKey cfg.s3Prefix (str ".hashes.json"))
              (E.marshal st.newHashes ++ str "\n")
              (decide (BuildKey cfg.s3Prefix (str ".hashes.json") ∉ st.w.remote.putErr))],
            runEvents_append w _ _ ?_,
            Or.inr (Or.inr ⟨rfl, hu, _, [], rfl, Or.inl rfl⟩)⟩
          rw [hr, hp, hlog, List.append_assoc]
        · refine ⟨[Event.put (BuildKey cfg.s3Prefix (str ".hashes.json"))
              (E.marshal st.newHashes ++ str "\n")
              (decide (BuildKey cfg.s3Prefix (str ".hashes.json") ∉ st.w.remote.putErr)),
              Event.run cfg.reloadCmd],
            runEvents_append w _ _ ?_,
            Or.inr (Or.inr ⟨rfl, hu, _, [Event.run cfg.reloadCmd], rfl, Or.inr rfl⟩)⟩
          rw [hr, hp, hlog]
          simp
      · rw [if_neg hu]
        rcases runReload_log E cfg.reloadCmd st.w with hr | hr
        · exact ⟨[], by rw [runEvents_append w _ evs (by rw [hr, hlog])]; simp, Or.inl rfl⟩
        · exact ⟨[Event.run cfg.reloadCmd],
            runEvents_append w _ _ (by rw [hr, hlog, List.append_assoc]), Or.inr (Or.inl rfl)⟩

/-- A manifest put among the events of a `push` run is the put after the loop: the
loop ended without error with `uploaded` set, and the body is the marshalled
`newHashes` followed by a newline. -/
theorem push_manifest_put (E : Env)
    (order : List (Bytes × List Bytes) → List (Bytes × List Bytes))
    (cfg : PushConfig) (w : World) (body : Bytes) (ok : Bool)
    (hpub : Event.put (BuildKey cfg.s3Prefix (str ".hashes.json")) body ok ∈
      runEvents w (push E order cfg w).2) :
    (pushSync E order cfg w).1 = none ∧ (pushSync E order cfg w).2.uploaded = true ∧
    body = E.marshal (pushSync E order cfg w).2.newHashes ++ str "\n" := by
  obtain ⟨evs, hlog, hq⟩ := pushSync_no_manifest_put E order cfg w
  obtain ⟨tail, hev, htail⟩ := push_events E order cfg w evs hlog
  rw [hev] at hpub
  rcases List.mem_append.1 hpub with h | h
  · have := hq _ h
    simp [isPutOf] at this
  · rcases htail with rfl | rfl | ⟨h1, h2, ok', rest, rfl, hrest⟩
    · cases h
    · simp at h
    · refine ⟨h1, h2, ?_⟩
      rcases List.mem_cons.1 h with h | h
      · cases h; rfl
      · rcases hrest with rfl | rfl
        · cases h
        · simp at h


/-- The loop body of `push` on a file whose digest the fetched manifest records:
nothing is transferred, only the digest is noted. -/
theorem pushFile_matched (E : Env) (pfx : Bytes) (ex : List (Bytes × Bytes)) (key : Bytes)
    (st : PushState) (f d : Bytes) (h : ReadFile st.w.certDir f = some d)
    (hm : assocGet ex (f ++ str ".enc") = some (hexEncode (E.sha256 d))) :
    pushFile E pfx ex key st f =
      (none, { st with
        newHashes := assocSet st.newHashes (f ++ str ".enc") (hexEncode (E.sha256 d)) }) := by
  rcases pushFile_readable E pfx ex key st f d h with
    ⟨_, e⟩ | ⟨hn, _⟩ | ⟨hn, _⟩ | ⟨hn, _⟩
  · exact e
  · exact absurd hm hn
  · exact absurd hm hn
  · exact absurd hm hn

/-- The loop body of `push` changes the bucket and sets `uploaded` only together;
when `uploaded` is still unset afterwards, it was unset before, the bucket is as
before, and the file, if readable, matched the fetched manifest. -/
theorem pushFile_not_uploaded (E : Env) (pfx : Bytes) (ex : List (Bytes × Bytes)) (key : Bytes)
    (st : PushState) (f : Bytes) (hu : (pushFile E pfx ex key st f).2.uploaded = false) :
    st.uploaded = false ∧ (pushFile E pfx ex key st f).2.w.remote = st.w.remote ∧
    ((pushFile E pfx ex key st f).1 = none → ∀ d, ReadFile st.w.certDir f = some d →
      assocGet ex (f ++ str ".enc") = some (hexEncode (E.sha256 d))) := by
  cases h : ReadFile st.w.certDir f with
  | none =>
    rw [pushFile_unreadable E pfx ex key st f h] at hu ⊢
    exact ⟨hu, rfl, fun _ d hd => by cases hd⟩
  | some d =>
    rcases pushFile_readable E pfx ex key st f d h with
      ⟨hm, e⟩ | ⟨_, _, e⟩ | ⟨_, ct, _, _, e⟩ | ⟨_, ct, _, _, e⟩ <;> rw [e] at hu ⊢
    · exact ⟨hu, rfl, fun _ d' hd' => by cases hd'; exact hm⟩
    · exact ⟨hu, rfl, fun hn => by cases hn⟩
    · exact ⟨hu, rfl, fun hn => by cases hn⟩
    · cases hu

/-- The loop body of `push` keeps the bucket free of faults. -/
theorem pushFile_faithful (E : Env) (pfx : Bytes) (ex : List (Bytes × Bytes)) (key : Bytes)
    (st : PushState) (f : Bytes) (hf : st.w.remote.faithful) :
    (pushFile E pfx ex key st f).2.w.remote.faithful := by
  cases h : ReadFile st.w.certDir f with
  | none => rw [pushFile_unreadable E pfx ex key st f h]; exact hf
  | some d =>
    rcases pushFile_readable E pfx ex key st f d h with
      ⟨_, e⟩ | ⟨_, _, e⟩ | ⟨_, ct, _, _, e⟩ | ⟨_, ct, _, _, e⟩ <;> rw [e] <;> exact hf

theorem pushStart_frame (cfg : PushConfig) (w : World) :
    (pushStart cfg w).w.certDir = w.certDir ∧ (pushStart cfg w).w.keyDir = w.keyDir ∧
    (pushStart cfg w).w.remote = w.remote ∧ (pushStart cfg w).newHashes = [] ∧
    (pushStart cfg w).uploaded = false := by
  simp [pushStart, LoadHashesFromS3_world, runLegoCommands]

theorem pushStart_log (cfg : PushConfig) (w : World) :
    (pushStart cfg w).w.log = w.log ++ (cfg.legoCommands.map Event.run ++
      [Event.get (BuildKey cfg.s3Prefix (str ".hashes.json"))]) := by
  simp [pushStart, LoadHashesFromS3_world, runLegoCommands]

/-- Up to the end of its loop, `push` keeps the certificate directory and the
absence of faults in the bucket. -/
theorem pushSync_frame (E : Env) (order : List (Bytes × List Bytes) → List (Bytes × List Bytes))
    (cfg : PushConfig) (w : World) :
    (pushSync E order cfg w).2.w.certDir = w.certDir ∧
    (w.remote.faithful → (pushSync E order cfg w).2.w.remote.faithful) := by
  apply pushSync_inv E order cfg w
    (fun st => st.w.certDir = w.certDir ∧ (w.remote.faithful → st.w.remote.faithful))
  · exact ⟨rfl, fun h => h⟩
  · exact ⟨(pushStart_frame cfg w).1, fun h => by rw [(pushStart_frame cfg w).2.2.1]; exact h⟩
  · intro st c files _ h
    exact ⟨by rw [← h.1]; exact (GetOrCreateKey_frame E st.w c).1, fun hf => by
      show ((GetOrCreateKey E st.w c).2.remote).faithful
      rw [(GetOrCreateKey_frame E st.w c).2.1]; exact h.2 hf⟩
  · intro st c files key f _ _ _ h
    exact ⟨by rw [(pushFile_dirs E _ _ key st f).1]; exact h.1,
      fun hf => pushFile_faithful E _ _ key st f (h.2 hf)⟩

/-- When `push` leaves its loop without error and without having uploaded
anything, the bucket is untouched and every readable artifact file matched the
fetched manifest. -/
theorem pushSync_not_uploaded (E : Env)
    (order : List (Bytes × List Bytes) → List (Bytes × List Bytes))
    (cfg : PushConfig) (w : World) (horder : ∀ l, (order l).Perm l) (st : PushState)
    (h : pushSync E order cfg w = (none, st)) (hu : st.uploaded = false) :
    st.w.remote = w.remote ∧
    ∀ f ∈ artifactFiles w.certDir, ∀ d, ReadFile w.certDir f = some d →
      assocGet (pushExisting cfg w) (f ++ str ".enc") = some (hexEncode (E.sha256 d)) := by
  have hinv := pushSync_inv E order cfg w
    (fun st => st.w.certDir = w.certDir ∧ (st.uploaded = false → st.w.remote = w.remote))
    ⟨rfl, fun _ => rfl⟩
    ⟨(pushStart_frame cfg w).1, fun _ => (pushStart_frame cfg w).2.2.1⟩
    (fun st c files _ hP =>
      ⟨by rw [← hP.1]; exact (GetOrCreateKey_frame E st.w c).1, fun hu => by
        show (GetOrCreateKey E st.w c).2.remote = w.remote
        rw [(GetOrCreateKey_frame E st.w c).2.1]; exact hP.2 hu⟩)
    (fun st c files key f _ _ _ hP =>
      ⟨by rw [(pushFile_dirs E _ _ key st f).1]; exact hP.1, fun hu => by
        obtain ⟨h1, h2, _⟩ := pushFile_not_uploaded E _ _ key st f hu
        rw [h2]; exact hP.2 h1⟩)
  rw [h] at hinv
  refine ⟨hinv.2 hu, ?_⟩
  rw [pushSync_eq] at h
  split at h
  · cases h
  · split at h
    · cases h
    · have hprog := (pushCerts_progress E cfg.s3Prefix (pushExisting cfg w)
        (fun st => st.w.certDir = w.certDir)
        (fun f st => st.uploaded = false → ∀ d, ReadFile w.certDir f = some d →
          assocGet (pushExisting cfg w) (f ++ str ".enc") = some (hexEncode (E.sha256 d)))
        (order (groupFiles w.certDir.entries []))
        (fun st c files _ hP => by
          show (GetOrCreateKey E st.w c).2.certDir = w.certDir
          rw [(GetOrCreateKey_frame E st.w c).1]; exact hP)
        (fun st c files key f _ _ _ hP => by
          show (pushFile E cfg.s3Prefix (pushExisting cfg w) key st f).2.w.certDir = w.certDir
          rw [(pushFile_dirs E _ _ key st f).1]; exact hP)
        (fun g st c _ hR => hR)
        (fun g st key f _ hR hu' =>
          hR (pushFile_not_uploaded E _ _ key st f hu').1)
        (fun st c files key f st' _ _ _ hP he hu' => by
          have := pushFile_not_uploaded E cfg.s3Prefix (pushExisting cfg w) key st f
            (by rw [he]; exact hu')
          rw [hP] at this
          exact this.2.2 (by rw [he]))
        (pushStart cfg w) st (pushStart_frame cfg w).1 h).2
      intro f hf
      apply hprog f _ hu
      rw [mem_allFiles_perm (horder _), mem_allFiles_group_iff]
      exact hf

theorem LoadHashesFromS3_of_object (w : World) (pfx body : Bytes) (hf : w.remote.faithful)
    (h : assocGet w.remote.objects (BuildKey pfx (str ".hashes.json")) = some body) :
    (LoadHashesFromS3 w pfx).1.1 = (jsonUnmarshal body []).1 := by
  obtain ⟨_, hg, hb, _, _⟩ := hf
  unfold LoadHashesFromS3 GetObject ReadAll
  simp [hg, hb, h]

/-- A `push` run that finds the digest of every readable artifact file in the
fetched manifest reaches the end of its loop without any put: the bucket is
untouched and `uploaded` is unset. -/
theorem pushSync_in_sync (E : Env)
    (order : List (Bytes × List Bytes) → List (Bytes × List Bytes))
    (cfg : PushConfig) (w : World) (horder : ∀ l, (order l).Perm l)
    (hcov : ∀ f ∈ artifactFiles w.certDir, ∀ d, ReadFile w.certDir f = some d →
      assocGet (pushExisting cfg w) (f ++ str ".enc") = some (hexEncode (E.sha256 d))) :
    (pushSync E order cfg w).2.w.remote = w.remote ∧
    (pushSync E order cfg w).2.uploaded = false ∧
    Extends isPut w.log (pushSync E order cfg w).2 := by
  have hinv := pushSync_inv E order cfg w
    (fun st => st.w.certDir = w.certDir ∧ st.w.remote = w.remote ∧ st.uploaded = false ∧
      Extends isPut w.log st)
    ⟨rfl, rfl, rfl, cfg.legoCommands.map Event.run, rfl, by simp [isPut]⟩
    ⟨(pushStart_frame cfg w).1, (pushStart_frame cfg w).2.2.1, (pushStart_frame cfg w).2.2.2.2,
      _, pushStart_log cfg w, by
        intro e he
        simp only [List.mem_append, List.mem_map, List.mem_singleton] at he
        rcases he with ⟨c, _, rfl⟩ | rfl <;> rfl⟩
    (fun st c files _ hP =>
      ⟨by rw [← hP.1]; exact (GetOrCreateKey_frame E st.w c).1, by
        show (GetOrCreateKey E st.w c).2.remote = w.remote
        rw [(GetOrCreateKey_frame E st.w c).2.1]; exact hP.2.1, hP.2.2.1,
        Extends_key E _ _ st c (fun _ _ => rfl) hP.2.2.2⟩)
    (fun st c files key f hm hf _ hP => by
      have hfa : f ∈ artifactFiles w.certDir := by
        rw [← mem_allFiles_group_iff, ← mem_allFiles_perm (horder _)]
        exact List.mem_flatMap.2 ⟨(c, files), hm, hf⟩
      cases hr : ReadFile st.w.certDir f with
      | none => rw [pushFile_unreadable E _ _ key st f hr]; exact hP
      | some d =>
        have hm := hcov f hfa d (by rw [← hP.1]; exact hr)
        rw [pushFile_matched E _ _ key st f d hr hm]
        exact ⟨hP.1, hP.2.1, hP.2.2.1, hP.2.2.2⟩)
  exact hinv.2

/-- Push idempotence, in terms of what the second run fetches: if every readable
artifact file has its digest in the manifest the run fetches, the run puts
nothing, neither an object nor the manifest. -/
theorem push_in_sync (E : Env)
    (order : List (Bytes × List Bytes) → List (Bytes × List Bytes))
    (cfg : PushConfig) (w : World) (horder : ∀ l, (order l).Perm l)
    (hcov : ∀ f ∈ artifactFiles w.certDir, ∀ d, ReadFile w.certDir f = some d →
      assocGet (pushExisting cfg w) (f ++ str ".enc") = some (hexEncode (E.sha256 d))) :
    (push E order cfg w).2.remote = w.remote ∧
    ∀ e ∈ runEvents w (push E order cfg w).2, isPut e = false := by
  obtain ⟨hrem, hup, evs, hlog, hq⟩ := pushSync_in_sync E order cfg w horder hcov
  constructor
  · unfold push
    cases hs : pushSync E order cfg w with
    | mk r st =>
      rw [hs] at hrem hup
      dsimp only at hrem hup ⊢
      cases r with
      | some e => exact hrem
      | none =>
        dsimp only
        rw [hup]
        simp only [Bool.false_eq_true, if_false]
        rw [(runReload_frame E cfg.reloadCmd st.w).1]
        exact hrem
  · obtain ⟨tail, hev, htail⟩ := push_events E order cfg w evs hlog
    rw [hev]
    intro e he
    rcases List.mem_append.1 he with he | he
    · exact hq e he
    · rcases htail with rfl | rfl | ⟨_, h2, _⟩
      · cases he
      · simp only [List.mem_singleton] at he
        subst he; rfl
      · rw [hup] at h2
        cases h2

/-- The world a successful `push` leaves, in terms of the state at the end of its
loop: same certificate directory, and in the bucket the objects of the loop plus,
if anything was uploaded, the manifest. -/
theorem push_ok_world (E : Env) (order : List (Bytes × List Bytes) → List (Bytes × List Bytes))
    (cfg : PushConfig) (w w1 : World) (h : push E order cfg w = (none, w1)) :
    ∃ st, pushSync E order cfg w = (none, st) ∧ w1.certDir = w.certDir ∧
      w1.keyDir = st.w.keyDir ∧
      w1.remote = (if st.uploaded then
        (PutObject st.w (BuildKey cfg.s3Prefix (str ".hashes.json"))
          (E.marshal st.newHashes ++ str "\n")).2 else st.w).remote := by
  have hc := (pushSync_frame E order cfg w).1
  unfold push at h
  cases hs : pushSync E order cfg w with
  | mk r st =>
    rw [hs] at h hc
    dsimp only at h hc
    cases r with
    | some e => simp at h
    | none =>
      dsimp only at h
      refine ⟨st, rfl, ?_, ?_, ?_⟩
      · have := (runReload_frame E cfg.reloadCmd (if st.uploaded then
          (PutObject st.w (BuildKey cfg.s3Prefix (str ".hashes.json"))
            (E.marshal st.newHashes ++ str "\n")).2 else st.w)).2.1
        rw [h] at this
        rw [this, ← hc]
        split
        · unfold PutObject; split <;> rfl
        · rfl
      · have := (runReload_frame E cfg.reloadCmd (if st.uploaded then
          (PutObject st.w (BuildKey cfg.s3Prefix (str ".hashes.json"))
            (E.marshal st.newHashes ++ str "\n")).2 else st.w)).2.2
        rw [h] at this
        rw [this]
        split
        · unfold PutObject; split <;> rfl
        · rfl
      · have := (runReload_frame E cfg.reloadCmd (if st.uploaded then
          (PutObject st.w (BuildKey cfg.s3Prefix (str ".hashes.json"))
            (E.marshal st.newHashes ++ str "\n")).2 else st.w)).1
        rw [h] at this
        exact this

theorem PutObject_faithful (w : World) (key body : Bytes) (hf : w.remote.faithful) :
    (PutObject w key body).2.remote.faithful ∧
    (PutObject w key body).2.remote.objects = assocSet w.remote.objects key body := by
  have hp : w.remote.putErr = [] := hf.2.2.2.1
  have hk : key ∉ w.remote.putErr := by rw [hp]; exact List.not_mem_nil _
  unfold PutObject
  rw [if_neg hk]
  exact ⟨hf, rfl⟩


theorem WriteFile_CertInv {orig : Bytes → Option Bytes} {C : Dir} (name d : Bytes)
    (h : CertInv orig C) (ho : orig name = some d) :
    ∃ C', WriteFile C name d = some C' ∧ CertInv orig C' ∧
      (∀ g, Restored orig C g → Restored orig C' g) ∧ Restored orig C' name := by
  obtain ⟨hw, hn, hv⟩ := h
  have hwf : WriteFile C name d =
      some { C with entries := assocSet C.entries name (Node.file d) } := by
    unfold WriteFile
    rw [hw]
    simp only [Bool.false_eq_true, if_false]
    split
    · rename_i h1; exact absurd h1 (hn name).1
    · rename_i h1; exact absurd h1 (hn name).2
    · rfl
  refine ⟨_, hwf, ⟨hw, ?_, ?_⟩, ?_, ⟨d, ho, ReadFile_WriteFile_same hwf⟩⟩
  · intro n
    by_cases hnn : name = n
    · subst hnn
      show assocGet (assocSet C.entries name (Node.file d)) name ≠ _ ∧ _
      rw [assocGet_assocSet_same]
      exact ⟨by simp, by simp⟩
    · show assocGet (assocSet C.entries name (Node.file d)) n ≠ _ ∧ _
      rw [assocGet_assocSet_ne _ _ _ _ hnn]
      exact hn n
  · intro f d' hr
    by_cases hnf : name = f
    · subst hnf
      rw [ReadFile_WriteFile_same hwf] at hr
      cases hr
      exact ho
    · rw [ReadFile_WriteFile_ne hwf hnf] at hr
      exact hv f d' hr
  · rintro g ⟨dg, hog, hrg⟩
    by_cases hng : name = g
    · subst hng
      rw [ho] at hog
      cases hog
      exact ⟨d, ho, ReadFile_WriteFile_same hwf⟩
    · exact ⟨dg, hog, by rw [ReadFile_WriteFile_ne hwf hng]; exact hrg⟩

/-- One pass of the loop of `pull` over a usable object on a faithful store
succeeds, touches neither the key directory nor the bucket, keeps what was
restored, and restores the file the object names when its key loads. -/
theorem pullObject_usable (E : Env) (s3Hashes : List (Bytes × Bytes))
    (orig : Bytes → Option Bytes) (w : World) (objKey : Bytes)
    (hf : w.remote.faithful) (hC : CertInv orig w.certDir)
    (hu : Usable E orig w.keyDir w.remote objKey) :
    ∃ w', pullObject E s3Hashes w objKey = (none, w') ∧ w'.keyDir = w.keyDir ∧
      w'.remote = w.remote ∧ CertInv orig w'.certDir ∧
      (∀ g, Restored orig w.certDir g → Restored orig w'.certDir g) ∧
      (∀ c k, hasSuffix (Base objKey) (str ".enc") = true →
        ExtractCertName (trimSuffix (Base objKey) (str ".enc")) = (c, true) →
        LoadKey w.keyDir c = Except.ok k →
        Restored orig w'.certDir (trimSuffix (Base objKey) (str ".enc"))) := by
  have same : ∃ w', (none, w) = ((none : Option Err), w') ∧ w'.keyDir = w.keyDir ∧
      w'.remote = w.remote ∧ CertInv orig w'.certDir ∧
      (∀ g, Restored orig w.certDir g → Restored orig w'.certDir g) :=
    ⟨w, rfl, rfl, rfl, hC, fun _ h => h⟩
  unfold pullObject
  dsimp only
  by_cases hs : hasSuffix (Base objKey) (str ".enc") = true
  · rw [hs]
    simp only [Bool.not_true, Bool.false_eq_true, if_false]
    cases hx : ExtractCertName (trimSuffix (Base objKey) (str ".enc")) with
    | mk c ok =>
      cases ok with
      | false =>
        obtain ⟨w', h1, h2, h3, h4, h5⟩ := same
        exact ⟨w', h1, h2, h3, h4, h5, fun c k _ hx' _ => by cases hx'⟩
      | true =>
        dsimp only
        cases hl : LoadKey w.keyDir c with
        | error e =>
          obtain ⟨w', h1, h2, h3, h4, h5⟩ := same
          exact ⟨w', h1, h2, h3, h4, h5, fun c' k _ hx' hl' => by
            cases hx'; rw [hl] at hl'; cases hl'⟩
        | ok key =>
          dsimp only
          obtain ⟨ct, d, hobj, hdec, horig⟩ := hu c key hs hx hl
          split
          · rename_i hsync
            refine ⟨w, rfl, rfl, rfl, hC, fun _ h => h, fun c' k' _ _ _ => ?_⟩
            cases hr : ReadFile w.certDir (trimSuffix (Base objKey) (str ".enc")) with
            | none => rw [hr] at hsync; simp at hsync
            | some localData =>
              have := hC.2.2 _ _ hr
              exact ⟨localData, this, hr⟩
          · obtain ⟨_, hg, hb, _, _⟩ := hf
            have hget : GetObject w.remote objKey = some ct := by
              unfold GetObject; rw [hg]; simp [hobj]
            have hrd : ReadAll w.remote objKey ct = some ct := by
              unfold ReadAll; rw [hb]; simp
            rw [hget]
            dsimp only
            rw [hrd]
            dsimp only
            unfold DecryptData
            rw [hdec]
            dsimp only
            obtain ⟨C', hwf, hC', hmono, hdone⟩ :=
              WriteFile_CertInv (trimSuffix (Base objKey) (str ".enc")) d hC horig
            rw [hwf]
            exact ⟨_, rfl, rfl, rfl, hC', hmono, fun _ _ _ _ _ => hdone⟩
  · have hs' : hasSuffix (Base objKey) (str ".enc") = false := by simpa using hs
    rw [hs']
    simp only [Bool.not_false, if_true]
    exact ⟨w, rfl, rfl, rfl, hC, fun _ h => h, fun c k h _ _ => by cases h⟩

/-- The loop of `pull` over usable objects on a faithful store succeeds and
restores the file of every listed object whose key loads. -/
theorem pullObjects_usable (E : Env) (s3Hashes : List (Bytes × Bytes))
    (orig : Bytes → Option Bytes) (contents : List Bytes) :
    ∀ w : World, w.remote.faithful → CertInv orig w.certDir →
      (∀ objKey ∈ contents, Usable E orig w.keyDir w.remote objKey) →
      ∃ w', pullObjects E s3Hashes contents w = (none, w') ∧ w'.keyDir = w.keyDir ∧
        w'.remote = w.remote ∧ CertInv orig w'.certDir ∧
        (∀ g, Restored orig w.certDir g → Restored orig w'.certDir g) ∧
        (∀ objKey ∈ contents, ∀ c k, hasSuffix (Base objKey) (str ".enc") = true →
          ExtractCertName (trimSuffix (Base objKey) (str ".enc")) = (c, true) →
          LoadKey w.keyDir c = Except.ok k →
          Restored orig w'.certDir (trimSuffix (Base objKey) (str ".enc"))) := by
  induction contents with
  | nil =>
    intro w _ hC _
    exact ⟨w, rfl, rfl, rfl, hC, fun _ h => h, fun _ h => by cases h⟩
  | cons objKey rest ih =>
    intro w hf hC hu
    obtain ⟨w1, h1, hk1, hr1, hC1, hm1, hd1⟩ :=
      pullObject_usable E s3Hashes orig w objKey hf hC (hu objKey (List.mem_cons_self _ _))
    obtain ⟨w2, h2, hk2, hr2, hC2, hm2, hd2⟩ := ih w1 (by rw [hr1]; exact hf) hC1
      (fun o ho => by rw [hk1, hr1]; exact hu o (List.mem_cons_of_mem _ ho))
    refine ⟨w2, ?_, by rw [hk2, hk1], by rw [hr2, hr1], hC2,
      fun g hg => hm2 g (hm1 g hg), ?_⟩
    · unfold pullObjects
      rw [h1]
      exact h2
    · intro o ho c k hs hx hl
      rcases List.mem_cons.1 ho with rfl | ho
      · exact hm2 _ (hd1 c k hs hx hl)
      · exact hd2 o ho c k hs hx (by rw [hk1]; exact hl)

theorem takeWhile_append_stop {α : Type} (p : α → Bool) (a b : List α)
    (ha : ∀ x ∈ a, p x = true) (hb : b = [] ∨ ∃ c t, b = c :: t ∧ p c = false) :
    (a ++ b).takeWhile p = a := by
  induction a with
  | nil =>
    rcases hb with rfl | ⟨c, t, rfl, hc⟩
    · rfl
    · simp [List.takeWhile, hc]
  | cons x rest ih =>
    have hx := ha x (List.mem_cons_self _ _)
    simp only [List.cons_append, List.takeWhile_cons, hx, if_true]
    rw [ih (fun y hy => ha y (List.mem_cons_of_mem _ hy))]

/-- The last element of an object key built from a name without slash is that name. -/
theorem Base_BuildKey (pfx x : Bytes) (hx : x ≠ []) (hs : (47 : Byte) ∉ x) :
    Base (BuildKey pfx x) = x := by
  have hslash : str "/" = [(47 : Byte)] := by decide
  have hrev : ∃ b, (BuildKey pfx x).reverse = x.reverse ++ b ∧
      (b = [] ∨ ∃ c t, b = c :: t ∧ (!(c == (47 : Byte))) = false) := by
    unfold BuildKey
    split
    · refine ⟨47 :: pfx.reverse, ?_, Or.inr ⟨47, pfx.reverse, rfl, by decide⟩⟩
      rw [hslash]; simp
    · exact ⟨[], by simp, Or.inl rfl⟩
  obtain ⟨b, hb, hstop⟩ := hrev
  have hne : BuildKey pfx x ≠ [] := by
    intro h
    rw [h] at hb
    have : x.reverse ++ b = [] := by simpa using hb.symm
    have : x.reverse = [] := (List.append_eq_nil.1 this).1
    exact hx (by simpa using this)
  have hall : ∀ c ∈ x.reverse, (!(c == (47 : Byte))) = true := by
    intro c hc
    have hcx : c ∈ x := List.mem_reverse.1 hc
    have : c ≠ 47 := fun h => hs (h ▸ hcx)
    simp [this]
  obtain ⟨y, t, hy⟩ := List.exists_cons_of_ne_nil (show x.reverse ≠ [] by simpa using hx)
  have hy47 : (y == (47 : Byte)) = false := by
    have := hall y (by rw [hy]; exact List.mem_cons_self _ _)
    simpa using this
  unfold Base
  rw [if_neg hne]
  dsimp only
  have hdw : (BuildKey pfx x).reverse.dropWhile (fun c => c == 47) = x.reverse ++ b := by
    rw [hb, hy]
    simp only [List.cons_append, List.dropWhile_cons, hy47]
    simp
  rw [hdw, takeWhile_append_stop _ _ _ hall hstop, List.reverse_reverse, if_neg hx]

theorem LoadKey_congr {d d' : Dir} {c : Bytes}
    (h : ReadFile d' (c ++ str ".key") = ReadFile d (c ++ str ".key")) :
    LoadKey d' c = LoadKey d c := by
  unfold LoadKey
  rw [h]

/-- `GetOrCreateKey` keeps every key that loads. -/
theorem GetOrCreateKey_keeps (E : Env) (w : World) (c c' k : Bytes)
    (h : LoadKey w.keyDir c' = Except.ok k) :
    LoadKey (GetOrCreateKey E w c).2.keyDir c' = Except.ok k := by
  unfold GetOrCreateKey
  split
  · exact h
  · rename_i e hl
    unfold GenerateKey
    dsimp only
    split
    · rename_i hg
      split at hg <;> cases hg <;> exact h
    · rename_i hg
      split at hg
      · cases hg
      · cases hg
        dsimp only
        split
        · exact h
        · rename_i d hs
          dsimp only
          have hcc : c ≠ c' := by
            rintro rfl
            rw [h] at hl
            cases hl
          have hne : c ++ str ".key" ≠ c' ++ str ".key" :=
            fun e => hcc (List.append_cancel_right e)
          unfold SaveKey at hs
          split at hs
          · cases hs
          · dsimp only at hs
            split at hs
            · cases hs
            · rename_i d2 hw
              cases hs
              rw [LoadKey_congr (ReadFile_WriteFile_ne hw hne)]
              exact h

theorem SealInv_key (E : Env) (pfx : Bytes) (C : Dir) (st : PushState) (c : Bytes)
    (h : SealInv E pfx C st) : SealInv E pfx C { st with w := (GetOrCreateKey E st.w c).2 } := by
  refine ⟨by rw [← h.1]; exact (GetOrCreateKey_frame E st.w c).1, ?_⟩
  intro key ct hk
  have hk' : assocGet st.w.remote.objects key = some ct := by
    rw [← (GetOrCreateKey_frame E st.w c).2.1]; exact hk
  obtain ⟨f, d, k, t, h1, h2, h3, h4, h5⟩ := h.2 key ct hk'
  exact ⟨f, d, k, t, h1, h2, h3, GetOrCreateKey_keeps E st.w c _ k h4, h5⟩

theorem SealInv_file (E : Env) (pfx : Bytes) (ex : List (Bytes × Bytes)) (C : Dir)
    (st : PushState) (c key f : Bytes) (hf : f ∈ artifactFiles C)
    (hx : ExtractCertName f = (c, true)) (hl : LoadKey st.w.keyDir c = Except.ok key)
    (h : SealInv E pfx C st) : SealInv E pfx C (pushFile E pfx ex key st f).2 := by
  obtain ⟨hC, hobj⟩ := h
  cases hr : ReadFile st.w.certDir f with
  | none => rw [pushFile_unreadable E pfx ex key st f hr]; exact ⟨hC, hobj⟩
  | some d =>
    rcases pushFile_readable E pfx ex key st f d hr with
      ⟨_, e⟩ | ⟨_, _, e⟩ | ⟨_, ct, _, _, e⟩ | ⟨_, ct, henc, _, e⟩ <;> rw [e]
    · exact ⟨hC, hobj⟩
    · exact ⟨hC, hobj⟩
    · exact ⟨hC, hobj⟩
    · refine ⟨hC, ?_⟩
      intro key' ct' hk
      dsimp only at hk ⊢
      by_cases hkk : BuildKey pfx (f ++ str ".enc") = key'
      · subst hkk
        rw [assocGet_assocSet_same] at hk
        cases hk
        exact ⟨f, d, key, st.w.tick, rfl, hf, by rw [← hC]; exact hr, by rw [hx]; exact hl, henc⟩
      · rw [assocGet_assocSet_ne _ _ _ _ hkk] at hk
        exact hobj key' ct' hk

theorem isSome_assocGet_assocSet {β : Type} (m : List (Bytes × β)) (k k2 : Bytes) (v : β)
    (h : (assocGet m k2).isSome = true) : (assocGet (assocSet m k v) k2).isSome = true := by
  rw [assocGet_isSome_iff] at h ⊢
  exact (mem_keys_assocSet m k k2 v).2 (Or.inl h)

theorem Uploaded_file (E : Env) (pfx : Bytes) (ex : List (Bytes × Bytes)) (C : Dir)
    (g : Bytes) (st : PushState) (key f : Bytes) (h : Uploaded pfx C g st) :
    Uploaded pfx C g (pushFile E pfx ex key st f).2 := by
  cases hr : ReadFile st.w.certDir f with
  | none => rw [pushFile_unreadable E pfx ex key st f hr]; exact h
  | some d =>
    rcases pushFile_readable E pfx ex key st f d hr with
      ⟨_, e⟩ | ⟨_, _, e⟩ | ⟨_, ct, _, _, e⟩ | ⟨_, ct, henc, _, e⟩ <;> rw [e]
    · exact h
    · exact h
    · exact h
    · intro dg hdg
      exact isSome_assocGet_assocSet _ _ _ _ (h dg hdg)

theorem Uploaded_established (E : Env) (pfx : Bytes) (C : Dir) (st st' : PushState)
    (key f : Bytes) (hC : st.w.certDir = C) (he : pushFile E pfx [] key st f = (none, st')) :
    Uploaded pfx C f st' := by
  intro d hd
  rw [← hC] at hd
  rcases pushFile_readable E pfx [] key st f d hd with
    ⟨hm, _⟩ | ⟨_, _, e⟩ | ⟨_, ct, _, _, e⟩ | ⟨_, ct, henc, _, e⟩
  · simp [assocGet] at hm
  · rw [e] at he; cases he
  · rw [e] at he; cases he
  · rw [e] at he
    cases he
    dsimp only
    rw [assocGet_assocSet_same]
    rfl

theorem pushExisting_empty (cfg : PushConfig) (w : World) (h : w.remote.objects = []) :
    pushExisting cfg w = [] := by
  unfold pushExisting LoadHashesFromS3 GetObject
  dsimp only [runLegoCommands]
  rw [h]
  simp [assocGet]

theorem group_resolves (order : List (Bytes × List Bytes) → List (Bytes × List Bytes))
    (horder : ∀ l, (order l).Perm l) (d : Dir) (c : Bytes) (files : List Bytes) (f : Bytes)
    (hm : (c, files) ∈ order (groupFiles d.entries [])) (hf : f ∈ files) :
    ExtractCertName f = (c, true) ∧ f ∈ artifactFiles d := by
  have hm' : (c, files) ∈ groupFiles d.entries [] := (horder _).mem_iff.1 hm
  refine ⟨groupFiles_resolves d.entries [] (fun p hp => by cases hp) (c, files) hm' f hf, ?_⟩
  rw [← mem_allFiles_group_iff]
  exact List.mem_flatMap.2 ⟨(c, files), hm', hf⟩

/-- Starting from an empty bucket, the sealing invariant holds when `push` leaves
its loop. -/
theorem pushSync_SealInv (E : Env)
    (order : List (Bytes × List Bytes) → List (Bytes × List Bytes))
    (cfg : PushConfig) (w : World) (horder : ∀ l, (order l).Perm l)
    (hempty : w.remote.objects = []) :
    SealInv E cfg.s3Prefix w.certDir (pushSync E order cfg w).2 := by
  apply pushSync_inv
  · exact ⟨rfl, fun key ct h => by
      have : assocGet w.remote.objects key = some ct := h
      rw [hempty] at this; simp [assocGet] at this⟩
  · refine ⟨(pushStart_frame cfg w).1, fun key ct h => ?_⟩
    rw [(pushStart_frame cfg w).2.2.1, hempty] at h
    simp [assocGet] at h
  · intro st c files _ h
    exact SealInv_key E _ _ st c h
  · intro st c files key f hm hf hl h
    obtain ⟨hx, hfa⟩ := group_resolves order horder w.certDir c files f hm hf
    exact SealInv_file E _ _ _ st c key f hfa hx hl h

/-- Starting from an empty bucket, a `push` that leaves its loop without error has
uploaded the object of every readable artifact file. -/
theorem pushSync_Uploaded (E : Env)
    (order : List (Bytes × List Bytes) → List (Bytes × List Bytes))
    (cfg : PushConfig) (w : World) (horder : ∀ l, (order l).Perm l)
    (hempty : w.remote.objects = []) (st : PushState)
    (h : pushSync E order cfg w = (none, st)) :
    ∀ f ∈ artifactFiles w.certDir, Uploaded cfg.s3Prefix w.certDir f st := by
  rw [pushSync_eq, pushExisting_empty cfg w hempty] at h
  split at h
  · cases h
  · split at h
    · cases h
    · have := (pushCerts_progress E cfg.s3Prefix []
        (fun st => st.w.certDir = w.certDir) (fun f st => Uploaded cfg.s3Prefix w.certDir f st)
        (order (groupFiles w.certDir.entries []))
        (fun st c files _ hP => by
          show (GetOrCreateKey E st.w c).2.certDir = w.certDir
          rw [(GetOrCreateKey_frame E st.w c).1]; exact hP)
        (fun st c files key f _ _ _ hP => by
          show (pushFile E cfg.s3Prefix [] key st f).2.w.certDir = w.certDir
          rw [(pushFile_dirs E _ _ key st f).1]; exact hP)
        (fun g st c _ hR => by
          intro d hd
          show (assocGet (GetOrCreateKey E st.w c).2.remote.objects _).isSome = true
          rw [(GetOrCreateKey_frame E st.w c).2.1]; exact hR d hd)
        (fun g st key f _ hR => Uploaded_file E _ _ _ g st key f hR)
        (fun st c files key f st' _ _ _ hP he =>
          Uploaded_established E cfg.s3Prefix w.certDir st st' key f hP he)
        (pushStart cfg w) st (pushStart_frame cfg w).1 h).2
      intro f hf
      apply this
      rw [mem_allFiles_perm (horder _), mem_allFiles_group_iff]
      exact hf

/-- The `pull` of a host whose key files Glob finds, on a faithful store that
lists at least one object, into a certificate directory that can be created: the
loop over the listed objects, then the reload command. -/
theorem pull_eq (E : Env) (cfg : PullConfig) (w w3 : World) (keyFiles : List Bytes)
    (hf : w.remote.faithful)
    (hglob : globKeyFiles E cfg.keyDir w.keyDir = some keyFiles) (hkeys : keyFiles ≠ [])
    (hlist : listedKeys w.remote
      (if cfg.s3Prefix ≠ [] then some (cfg.s3Prefix ++ str "/") else none) ≠ [])
    (hmk : w.certDir.mkdirErr = false)
    (hloop : pullObjects E (LoadHashesFromS3 w cfg.s3Prefix).1.1
      (listedKeys w.remote (if cfg.s3Prefix ≠ [] then some (cfg.s3Prefix ++ str "/") else none))
      { w with log := w.log ++ [Event.get (BuildKey cfg.s3Prefix (str ".hashes.json"))] ++
          [Event.list] } = (none, w3)) :
    pull E cfg w = runReload E cfg.reloadCmd w3 := by
  obtain ⟨hc, _, _, _, hl⟩ := hf
  unfold pull
  rw [hc]
  simp only [Bool.false_eq_true, if_false]
  have he := LoadHashesFromS3_err w cfg.s3Prefix
  have hw := LoadHashesFromS3_world w cfg.s3Prefix
  cases hlh : LoadHashesFromS3 w cfg.s3Prefix with
  | mk p w1 =>
    obtain ⟨s3Hashes, err⟩ := p
    rw [hlh] at he hw hloop
    dsimp only at he hw hloop
    subst he
    subst hw
    dsimp only
    rw [hglob]
    dsimp only
    have hk : ¬ keyFiles.length = 0 := by
      intro h0; exact hkeys (List.length_eq_zero.1 h0)
    rw [if_neg hk]
    unfold ListObjectsV2
    rw [hl]
    simp only [Bool.false_eq_true, if_false]
    have hn : ¬ (listedKeys w.remote
        (if cfg.s3Prefix ≠ [] then some (cfg.s3Prefix ++ str "/") else none)).length = 0 := by
      intro h0; exact hlist (List.length_eq_zero.1 h0)
    rw [if_neg hn, hmk]
    simp only [Bool.false_eq_true, if_false]
    rw [hloop]

/-- The keys of the listing are the keys of the bucket that start with the prefix. -/
theorem mem_allKeys (r : Remote) (p : Option Bytes) (k : Bytes) :
    k ∈ allKeys r p ↔ k ∈ r.objects.map Prod.fst ∧ underPrefix p k = true := by
  unfold allKeys
  rw [(List.perm_insertionSort _ _).mem_iff, List.mem_dedup, List.mem_filter]

/-- The listing holds each key once. -/
theorem nodup_allKeys (r : Remote) (p : Option Bytes) : (allKeys r p).Nodup := by
  unfold allKeys
  exact (List.perm_insertionSort _ _).nodup_iff.2 (List.nodup_dedup _)

/-- A listing that fits in one page is returned whole. -/
theorem listedKeys_eq_allKeys (r : Remote) (p : Option Bytes)
    (h : (allKeys r p).length ≤ maxKeys) : listedKeys r p = allKeys r p := by
  unfold listedKeys
  exact List.take_of_length_le h

/-- One request never returns more than a page. -/
theorem listedKeys_length_le (r : Remote) (p : Option Bytes) :
    (listedKeys r p).length ≤ maxKeys := by
  unfold listedKeys
  exact List.length_take_le _ _

theorem mem_listedKeys_BuildKey (r : Remote) (pfx x : Bytes)
    (hlen : (allKeys r (if pfx ≠ [] then some (pfx ++ str "/") else none)).length ≤ maxKeys)
    (h : (assocGet r.objects (BuildKey pfx x)).isSome = true) :
    BuildKey pfx x ∈ listedKeys r (if pfx ≠ [] then some (pfx ++ str "/") else none) := by
  rw [listedKeys_eq_allKeys _ _ hlen, mem_allKeys]
  refine ⟨(assocGet_isSome_iff _ _).1 h, ?_⟩
  by_cases hp : pfx = []
  · simp [hp, underPrefix]
  · simp only [ne_eq, hp, not_false_eq_true, if_true]
    unfold BuildKey underPrefix
    rw [if_pos hp]
    simp

theorem mem_listedKeys_objects (r : Remote) (p : Option Bytes) (k : Bytes)
    (h : k ∈ listedKeys r p) : (assocGet r.objects k).isSome = true := by
  unfold listedKeys at h
  rw [assocGet_isSome_iff]
  exact ((mem_allKeys r p k).1 (List.mem_of_mem_take h)).1

theorem LoadKey_ok_mem_glob (E : Env) (path : Bytes) (K : Dir) (c k : Bytes)
    (hmeta : hasMeta path = false) (hl : K.listErr = false) (hc : (47 : Byte) ∉ c)
    (h : LoadKey K c = Except.ok k) :
    ∃ keyFiles, globKeyFiles E path K = some keyFiles ∧ c ++ str ".key" ∈ keyFiles := by
  unfold globKeyFiles
  rw [hmeta, hl]
  simp only [Bool.false_eq_true, if_false]
  refine ⟨_, rfl, ?_⟩
  rw [List.mem_filter]
  refine ⟨?_, ?_⟩
  · rw [← assocGet_isSome_iff]
    unfold LoadKey ReadFile at h
    cases hg : assocGet K.entries (c ++ str ".key") with
    | none => rw [hg] at h; cases h
    | some n => rfl
  · rw [hasSuffix_append]
    have hn : (47 : Byte) ∉ c ++ str ".key" := by
      intro hm
      rcases List.mem_append.1 hm with hm | hm
      · exact hc hm
      · revert hm; decide
    simpa using hn

theorem not_slash_enc (f : Bytes) (h : (47 : Byte) ∉ f) : (47 : Byte) ∉ f ++ str ".enc" := by
  intro hm
  rcases List.mem_append.1 hm with hm | hm
  · exact h hm
  · revert hm; decide

theorem manifest_not_enc : hasSuffix (str ".hashes.json") (str ".enc") = false := by decide

theorem manifest_no_slash : (47 : Byte) ∉ str ".hashes.json" := by decide

/-- The bucket a successful `push` leaves on a faithful store: still faithful, and
apart from the manifest key it holds what the loop left. -/
theorem push_ok_remote (E : Env) (order : List (Bytes × List Bytes) → List (Bytes × List Bytes))
    (cfg : PushConfig) (w w1 : World) (st : PushState) (hfaith : w.remote.faithful)
    (hsync : pushSync E order cfg w = (none, st))
    (hrem : w1.remote = (if st.uploaded then
        (PutObject st.w (BuildKey cfg.s3Prefix (str ".hashes.json"))
          (E.marshal st.newHashes ++ str "\n")).2 else st.w).remote) :
    w1.remote.faithful ∧
    ∀ key, key ≠ BuildKey cfg.s3Prefix (str ".hashes.json") →
      assocGet w1.remote.objects key = assocGet st.w.remote.objects key := by
  have hfr := (pushSync_frame E order cfg w).2 hfaith
  rw [hsync] at hfr
  dsimp only at hfr
  by_cases hu : st.uploaded = true
  · rw [if_pos hu] at hrem
    obtain ⟨hpf, hpo⟩ := PutObject_faithful st.w (BuildKey cfg.s3Prefix (str ".hashes.json"))
      (E.marshal st.newHashes ++ str "\n") hfr
    rw [hrem]
    refine ⟨hpf, fun key hk => ?_⟩
    rw [hpo, assocGet_assocSet_ne _ _ _ _ (Ne.symm hk)]
  · rw [if_neg hu] at hrem
    rw [hrem]
    exact ⟨hfr, fun _ _ => rfl⟩

theorem enc_append_ne_nil (f : Bytes) : f ++ str ".enc" ≠ [] := by
  intro h
  have := (List.append_eq_nil.1 h).2
  revert this
  decide


/-- The sealing primitive of the sample environment opens what it sealed. -/
theorem sampleEnv_opens (t : Nat) (p k c : Bytes) (h : sampleEnv.encrypt t p k = some c) :
    sampleEnv.decrypt c k = some p := by
  simp only [sampleEnv, Option.some.injEq] at h
  subst h
  have hd : List.drop (1 + k.length) (byte t :: (k ++ p)) = p := by
    rw [Nat.add_comm, List.drop_succ_cons, List.drop_left]
  simp [sampleEnv, hd]

/-- Trimming a suffix only removes bytes. -/
theorem trimSuffix_subset (s suf : Bytes) (x : Byte) (h : x ∈ trimSuffix s suf) : x ∈ s := by
  unfold trimSuffix at h
  split at h
  · exact List.mem_of_mem_take h
  · exact h

/-- The identity a name resolves to is made of bytes of the name. -/
theorem ExtractCertName_subset (f : Bytes) (x : Byte) (h : x ∈ (ExtractCertName f).1) :
    x ∈ f := by
  unfold ExtractCertName at h
  split at h
  · exact trimSuffix_subset _ _ _ h
  · split at h
    · exact trimSuffix_subset _ _ _ h
    · have he : str "" = [] := by decide
      rw [he] at h
      cases h

/-! ## The manifest through `json.Marshal` and `json.Unmarshal` -/

theorem utf8Width_take (c : Byte) (rest : Bytes) (n : Nat)
    (h : utf8Width (c :: rest) = n + 1) :
    n ≤ rest.length ∧ ∀ X, utf8Width (c :: (rest.take n ++ X)) = n + 1 := by
  by_cases h1 : c.val < 0x80
  · have hn : n = 0 := by simpa [utf8Width, h1] using h.symm
    subst hn
    exact ⟨Nat.zero_le _, fun X => by simp [utf8Width, h1]⟩
  by_cases h2 : 0xC2 ≤ c.val ∧ c.val ≤ 0xDF
  · match rest, h with
    | [], h => simp [utf8Width, h1, h2] at h
    | b :: r, h =>
      by_cases hb : inRange 0x80 0xBF b = true
      · have hn : n = 1 := by simpa [utf8Width, h1, h2, hb] using h.symm
        subst hn
        exact ⟨by simp, fun X => by simp [utf8Width, h1, h2, hb]⟩
      · simp [utf8Width, h1, h2, hb] at h
  by_cases h3 : 0xE0 ≤ c.val ∧ c.val ≤ 0xEF
  · match rest, h with
    | [], h => simp [utf8Width, h1, h2, h3] at h
    | [_], h => simp [utf8Width, h1, h2, h3] at h
    | b :: b2 :: r, h =>
      by_cases hb : (inRange (if c.val = 0xE0 then 0xA0 else 0x80)
          (if c.val = 0xED then 0x9F else 0xBF) b && inRange 0x80 0xBF b2) = true
      · have hn : n = 2 := by
          simp only [utf8Width, h1, h2, h3, hb, if_true, if_false, and_self] at h
          omega
        subst hn
        refine ⟨by simp, fun X => ?_⟩
        simp only [utf8Width, h1, h2, h3, List.take, List.cons_append, hb, if_true, if_false,
          and_self]
      · simp only [utf8Width, h1, h2, h3, hb, if_true, if_false, and_self] at h
        simp at h
  by_cases h4 : 0xF0 ≤ c.val ∧ c.val ≤ 0xF4
  · match rest, h with
    | [], h => simp [utf8Width, h1, h2, h3, h4] at h
    | [_], h => simp [utf8Width, h1, h2, h3, h4] at h
    | [_, _], h => simp [utf8Width, h1, h2, h3, h4] at h
    | b :: b2 :: b3 :: r, h =>
      by_cases hb : (inRange (if c.val = 0xF0 then 0x90 else 0x80)
          (if c.val = 0xF4 then 0x8F else 0xBF) b && inRange 0x80 0xBF b2 &&
            inRange 0x80 0xBF b3) = true
      · have hn : n = 3 := by
          simp only [utf8Width, h1, h2, h3, h4, hb, if_true, if_false, and_self] at h
          omega
        subst hn
        refine ⟨by simp, fun X => ?_⟩
        simp only [utf8Width, h1, h2, h3, h4, List.take, List.cons_append, hb, if_true,
          if_false, and_self]
      · simp only [utf8Width, h1, h2, h3, h4, hb, if_true, if_false, and_self] at h
        simp at h
  simp [utf8Width, h1, h2, h3, h4] at h

/-- Validity does not depend on the fuel, once there is enough of it. -/
theorem validUtf8Fuel_irrel : ∀ (f1 : Nat) (s : Bytes) (f2 : Nat), s.length < f1 → s.length < f2 →
    validUtf8Fuel f1 s = validUtf8Fuel f2 s := by
  intro f1
  induction f1 with
  | zero => intro s f2 h; omega
  | succ f1 ih =>
    intro s f2 h1 h2
    cases f2 with
    | zero => omega
    | succ f2 =>
      cases s with
      | nil => rfl
      | cons c rest =>
        unfold validUtf8Fuel
        cases hw : utf8Width (c :: rest) with
        | zero => rfl
        | succ n =>
          dsimp only
          have hl : (rest.drop n).length ≤ rest.length := by simp
          simp only [List.length_cons] at h1 h2
          exact ih _ _ (by omega) (by omega)

/-- Validity of a string that starts with a rune is validity of what follows it. -/
theorem validUtf8_cons (c : Byte) (rest : Bytes) (n : Nat) (hw : utf8Width (c :: rest) = n + 1) :
    validUtf8 (c :: rest) = validUtf8 (rest.drop n) := by
  unfold validUtf8
  rw [List.length_cons]
  conv_lhs => unfold validUtf8Fuel
  rw [hw]
  dsimp only
  have hl : (rest.drop n).length ≤ rest.length := by simp
  exact validUtf8Fuel_irrel _ _ _ (by omega) (by omega)

/-- A string that starts with no rune is not valid. -/
theorem validUtf8_cons_zero (c : Byte) (rest : Bytes) (hw : utf8Width (c :: rest) = 0) :
    validUtf8 (c :: rest) = false := by
  unfold validUtf8
  rw [List.length_cons]
  unfold validUtf8Fuel
  rw [hw]

/-- Well-formed strings concatenate to a well-formed string. -/
theorem validUtf8_append : ∀ (k : Nat) (s t : Bytes), s.length ≤ k → validUtf8 s = true →
    validUtf8 t = true → validUtf8 (s ++ t) = true := by
  intro k
  induction k with
  | zero =>
    intro s t hk hs ht
    have : s = [] := List.length_eq_zero.1 (by omega)
    subst this
    exact ht
  | succ k ih =>
    intro s t hk hs ht
    cases s with
    | nil => exact ht
    | cons c rest =>
      cases hw : utf8Width (c :: rest) with
      | zero => rw [validUtf8_cons_zero _ _ hw] at hs; cases hs
      | succ n =>
        rw [validUtf8_cons _ _ _ hw] at hs
        obtain ⟨hn, hloc⟩ := utf8Width_take c rest n hw
        have hsplit : rest ++ t = rest.take n ++ (rest.drop n ++ t) := by
          rw [← List.append_assoc, List.take_append_drop]
        have hw2 : utf8Width (c :: (rest ++ t)) = n + 1 := by rw [hsplit]; exact hloc _
        rw [List.cons_append, validUtf8_cons _ _ _ hw2]
        have hd : (rest ++ t).drop n = rest.drop n ++ t := by
          rw [List.drop_append_of_le_length hn]
        rw [hd]
        have hl : (rest.drop n).length ≤ rest.length := by simp
        simp only [List.length_cons] at hk
        exact ih _ _ (by omega) hs ht

/-- Decoding step at a plain ASCII character. -/
theorem parseString_plain (fp : Nat) (c : Byte) (X : Bytes) (h1 : c.val < 0x80)
    (h2 : ¬ c.val < 32) (h3 : c ≠ 34) (h4 : c ≠ 92) :
    parseString (fp + 1) (c :: X) = (parseString fp X).map fun p => (c :: p.1, p.2) := by
  conv_lhs => unfold parseString
  simp only [h3, h4, h2, if_false]
  have hw : utf8Width (c :: X) = 1 := by simp [utf8Width, h1]
  rw [hw]
  simp

/-- Decoding stops at the closing quote. -/
theorem parseString_quote (fp : Nat) (tail : Bytes) :
    parseString (fp + 1) (34 :: tail) = some ([], tail) := by
  conv_lhs => unfold parseString
  simp

/-- The backslash is no control character. -/
theorem val_92 : ¬ ((92 : Byte).val < 32) := by decide

/-- Decoding step at an escaped quote or backslash. -/
theorem parseString_escaped (fp : Nat) (c : Byte) (X : Bytes) (h : c = 34 ∨ c = 92) :
    parseString (fp + 1) (92 :: c :: X) = (parseString fp X).map fun p => (c :: p.1, p.2) := by
  conv_lhs => unfold parseString
  rcases h with rfl | rfl <;> simp [val_92]

/-- Decoding step at a short escape. -/
theorem parseString_short (fp : Nat) (e c : Byte) (X : Bytes)
    (h : (e = 98 ∧ c = 8) ∨ (e = 102 ∧ c = 12) ∨ (e = 110 ∧ c = 10) ∨ (e = 114 ∧ c = 13) ∨
      (e = 116 ∧ c = 9)) :
    parseString (fp + 1) (92 :: e :: X) = (parseString fp X).map fun p => (c :: p.1, p.2) := by
  conv_lhs => unfold parseString
  rcases h with ⟨rfl, rfl⟩ | ⟨rfl, rfl⟩ | ⟨rfl, rfl⟩ | ⟨rfl, rfl⟩ | ⟨rfl, rfl⟩ <;> simp [val_92]

/-- A hexadecimal digit is read back as its value. -/
theorem hexVal_hexDigit (n : Nat) (h : n < 16) : hexVal (hexDigit n) = some n := by
  interval_cases n <;> decide

/-- Decoding step at the escape of an ASCII character by its code. -/
theorem parseString_u00 (fp : Nat) (c : Byte) (X : Bytes) (h1 : c.val < 0x80) :
    parseString (fp + 1)
      (92 :: 117 :: 48 :: 48 :: hexDigit (c.val / 16) :: hexDigit (c.val % 16) :: X) =
      (parseString fp X).map fun p => (c :: p.1, p.2) := by
  conv_lhs => unfold parseString
  have h0 : hexVal 48 = some 0 := by decide
  have ha : hexVal (hexDigit (c.val / 16)) = some (c.val / 16) := hexVal_hexDigit _ (by omega)
  have hb : hexVal (hexDigit (c.val % 16)) = some (c.val % 16) := hexVal_hexDigit _ (by omega)
  have hv : c.val / 16 * 16 + c.val % 16 = c.val := by omega
  have he : encodeRune c.val = [c] := by
    unfold encodeRune
    rw [if_pos h1]
    exact congrArg (fun x => [x]) (Fin.ext (Nat.mod_eq_of_lt c.isLt))
  have hs : ¬ (55296 ≤ c.val ∧ c.val < 57344) := by omega
  simp [hex4, h0, ha, hb, hv, he, val_92, hs]

/-- Decoding step at a rune of several bytes. -/
theorem parseString_rune (fp : Nat) (c : Byte) (rest : Bytes) (n : Nat) (X : Bytes)
    (h1 : ¬ c.val < 0x80) (hw : utf8Width (c :: rest) = n + 1) :
    parseString (fp + 1) (c :: (rest.take n ++ X)) =
      (parseString fp X).map fun p => (c :: rest.take n ++ p.1, p.2) := by
  obtain ⟨hn, hloc⟩ := utf8Width_take c rest n hw
  conv_lhs => unfold parseString
  have h3 : c ≠ 34 := by intro h; rw [h] at h1; exact h1 (by decide)
  have h4 : c ≠ 92 := by intro h; rw [h] at h1; exact h1 (by decide)
  have h2 : ¬ c.val < 32 := by omega
  simp only [h3, h4, h2, if_false]
  rw [hloc X]
  dsimp only
  have hlen : (rest.take n).length = n := by simp [hn]
  have hd : List.drop n (rest.take n ++ X) = X := by
    rw [List.drop_append_of_le_length (by omega), List.drop_of_length_le (by omega),
      List.nil_append]
  have ht : List.take n (rest.take n ++ X) = rest.take n := by
    rw [List.take_append_of_le_length (by omega), List.take_of_length_le (by omega)]
  rw [hd, List.take_succ_cons, ht]

/-- Decoding step at the escaped line separator. -/
theorem parseString_u2028 (fp : Nat) (X : Bytes) :
    parseString (fp + 1) (str "\\u2028" ++ X) =
      (parseString fp X).map fun p => ([0xE2, 0x80, 0xA8] ++ p.1, p.2) := by
  have hs : str "\\u2028" = [92, 117, 50, 48, 50, 56] := by decide
  rw [hs]
  conv_lhs => unfold parseString
  have he : encodeRune 8232 = [0xE2, 0x80, 0xA8] := by decide
  have h2 : hexVal 50 = some 2 := by decide
  have h0 : hexVal 48 = some 0 := by decide
  have h8 : hexVal 56 = some 8 := by decide
  simp [hex4, val_92, h2, h0, h8, he]

/-- Decoding step at the escaped paragraph separator. -/
theorem parseString_u2029 (fp : Nat) (X : Bytes) :
    parseString (fp + 1) (str "\\u2029" ++ X) =
      (parseString fp X).map fun p => ([0xE2, 0x80, 0xA9] ++ p.1, p.2) := by
  have hs : str "\\u2029" = [92, 117, 50, 48, 50, 57] := by decide
  rw [hs]
  conv_lhs => unfold parseString
  have he : encodeRune 8233 = [0xE2, 0x80, 0xA9] := by decide
  have h2 : hexVal 50 = some 2 := by decide
  have h0 : hexVal 48 = some 0 := by decide
  have h9 : hexVal 57 = some 9 := by decide
  simp [hex4, val_92, h2, h0, h9, he]

/-- One decoding step followed by the decoding of the rest. -/
theorem parseString_step (out pre rest' E' tail : Bytes) (fp : Nat)
    (hstep : ∀ fp' X, parseString (fp' + 1) (out ++ X) =
      (parseString fp' X).map fun p => (pre ++ p.1, p.2))
    (hout : 0 < out.length)
    (hlen : (out ++ E').length < fp)
    (ih : ∀ fp', E'.length < fp' → parseString fp' (E' ++ 34 :: tail) = some (rest', tail)) :
    parseString fp ((out ++ E') ++ 34 :: tail) = some (pre ++ rest', tail) := by
  obtain ⟨fp', rfl⟩ : ∃ fp', fp = fp' + 1 := ⟨fp - 1, by omega⟩
  rw [List.append_assoc, hstep, ih fp' (by rw [List.length_append] at hlen; omega)]
  rfl

/-- Decoding inverts escaping on well-formed UTF-8. -/
theorem parseString_jsonEscape : ∀ (fe : Nat) (s tail : Bytes) (fp : Nat), s.length < fe →
    validUtf8 s = true → (jsonEscape fe s).length < fp →
    parseString fp (jsonEscape fe s ++ 34 :: tail) = some (s, tail) := by
  intro fe
  induction fe with
  | zero => intro s tail fp h; omega
  | succ fe ih =>
    intro s tail fp hs hv hfp
    cases s with
    | nil =>
      obtain ⟨fp', rfl⟩ : ∃ fp', fp = fp' + 1 := ⟨fp - 1, by omega⟩
      unfold jsonEscape
      exact parseString_quote fp' tail
    | cons c rest =>
      simp only [List.length_cons] at hs
      by_cases h1 : c.val < 0x80
      · have hw : utf8Width (c :: rest) = 0 + 1 := by simp [utf8Width, h1]
        rw [validUtf8_cons _ _ _ hw, List.drop_zero] at hv
        have ihr := fun fp' h => ih rest tail fp' (by omega) hv h
        unfold jsonEscape at hfp ⊢
        rw [if_pos h1] at hfp ⊢
        dsimp only at hfp ⊢
        split_ifs at hfp ⊢ with a1 a2 a3 a4 a5 a6 a7
        · exact parseString_step [92, c] [c] rest _ tail fp
            (fun fp' X => parseString_escaped fp' c X a1) (by simp) hfp ihr
        · subst a2
          exact parseString_step (str "\\b") [8] rest _ tail fp
            (fun fp' X => parseString_short fp' 98 8 X (Or.inl ⟨rfl, rfl⟩)) (by decide) hfp ihr
        · subst a3
          exact parseString_step (str "\\f") [12] rest _ tail fp
            (fun fp' X => parseString_short fp' 102 12 X (Or.inr (Or.inl ⟨rfl, rfl⟩)))
            (by decide) hfp ihr
        · subst a4
          exact parseString_step (str "\\n") [10] rest _ tail fp
            (fun fp' X => parseString_short fp' 110 10 X (Or.inr (Or.inr (Or.inl ⟨rfl, rfl⟩))))
            (by decide) hfp ihr
        · subst a5
          exact parseString_step (str "\\r") [13] rest _ tail fp
            (fun fp' X => parseString_short fp' 114 13 X
              (Or.inr (Or.inr (Or.inr (Or.inl ⟨rfl, rfl⟩)))))
            (by decide) hfp ihr
        · subst a6
          exact parseString_step (str "\\t") [9] rest _ tail fp
            (fun fp' X => parseString_short fp' 116 9 X
              (Or.inr (Or.inr (Or.inr (Or.inr ⟨rfl, rfl⟩)))))
            (by decide) hfp ihr
        · exact parseString_step
            (str "\\u00" ++ [hexDigit (c.val / 16), hexDigit (c.val % 16)]) [c] rest _ tail fp
            (fun fp' X => parseString_u00 fp' c X h1) (by simp) hfp ihr
        · have h2 : ¬ c.val < 32 := fun h => a7 (Or.inl h)
          exact parseString_step [c] [c] rest _ tail fp
            (fun fp' X => parseString_plain fp' c X h1 h2 (fun h => a1 (Or.inl h))
              (fun h => a1 (Or.inr h))) (by simp) hfp ihr
      · cases hw : utf8Width (c :: rest) with
        | zero => rw [validUtf8_cons_zero _ _ hw] at hv; cases hv
        | succ n =>
          rw [validUtf8_cons _ _ _ hw] at hv
          have hl : (rest.drop n).length ≤ rest.length := by simp
          have ihr := fun fp' h => ih (rest.drop n) tail fp' (by omega) hv h
          have hsplit : c :: rest = (c :: rest.take n) ++ rest.drop n := by
            rw [List.cons_append, List.take_append_drop]
          unfold jsonEscape at hfp ⊢
          rw [if_neg h1] at hfp ⊢
          rw [hw] at hfp ⊢
          dsimp only at hfp ⊢
          rw [List.take_succ_cons] at hfp ⊢
          split_ifs at hfp ⊢ with b1 b2
          · have := parseString_step (str "\\u2028") [0xE2, 0x80, 0xA8] (rest.drop n) _ tail fp
              (fun fp' X => parseString_u2028 fp' X) (by decide) hfp ihr
            rw [this, ← b1, ← hsplit]
          · have := parseString_step (str "\\u2029") [0xE2, 0x80, 0xA9] (rest.drop n) _ tail fp
              (fun fp' X => parseString_u2029 fp' X) (by decide) hfp ihr
            rw [this, ← b2, ← hsplit]
          · have := parseString_step (c :: rest.take n) (c :: rest.take n) (rest.drop n) _ tail
              fp (fun fp' X => parseString_rune fp' c rest n X h1 hw) (by simp) hfp ihr
            rw [this, ← hsplit]

/-- Nothing is skipped in front of a byte that is no white space. -/
theorem skipWs_cons (c : Byte) (r : Bytes) (h : isJsonSpace c = false) :
    skipWs (c :: r) = c :: r := by
  unfold skipWs
  rw [h]
  rfl

/-- A string literal the encoder wrote is read back as the string. -/
theorem parseString_jsonQuote (s tail : Bytes) (hv : validUtf8 s = true) (fp : Nat)
    (hfp : (jsonEscape (s.length + 1) s).length < fp) :
    parseString fp (jsonEscape (s.length + 1) s ++ 34 :: tail) = some (s, tail) :=
  parseString_jsonEscape _ s tail fp (by omega) hv hfp

/-- A string literal starts with a quote and ends at the next one. -/
theorem jsonQuote_append (s tail : Bytes) :
    jsonQuote s ++ tail = 34 :: (jsonEscape (s.length + 1) s ++ 34 :: tail) := by
  unfold jsonQuote
  simp

/-- A value that starts with a quote is a string. -/
theorem parseValue_string (fuel depth : Nat) (r : Bytes) :
    parseValue (fuel + 1) depth (34 :: r) =
      (parseString (r.length + 1) r).map fun p => (JVal.other (JKind.string p.1), p.2) := by
  rfl

/-- A string literal the encoder wrote is read back as a string value. -/
theorem parseValue_jsonQuote (s tail : Bytes) (hv : validUtf8 s = true) (fuel depth : Nat) :
    parseValue (fuel + 1) depth (jsonQuote s ++ tail) =
      some (JVal.other (JKind.string s), tail) := by
  rw [jsonQuote_append, parseValue_string,
    parseString_jsonQuote s tail hv _ (by simp only [List.length_append, List.length_cons]; omega)]
  rfl

/-- The members the encoder wrote are read back in order. -/
theorem parseMembers_jsonMembers : ∀ (l : List (Bytes × Bytes)) (kv : Bytes × Bytes)
    (fuel depth : Nat) (tail : Bytes),
    (∀ p ∈ kv :: l, validUtf8 p.1 = true ∧ validUtf8 p.2 = true) → l.length + 2 ≤ fuel →
    parseMembers fuel depth (jsonMembers (kv :: l) ++ 125 :: tail) =
      some ((kv :: l).map (fun p => (p.1, JKind.string p.2)), tail) := by
  intro l
  induction l with
  | nil =>
    intro kv fuel depth tail hv hf
    obtain ⟨k, v⟩ := kv
    obtain ⟨f, rfl⟩ : ∃ f, fuel = f + 1 + 1 := ⟨fuel - 2, by simp at hf; omega⟩
    have hk := (hv (k, v) (List.mem_cons_self _ _))
    have hj : jsonMembers [(k, v)] ++ 125 :: tail =
        34 :: (jsonEscape (k.length + 1) k ++ 34 :: (58 :: (jsonQuote v ++ 125 :: tail))) := by
      simp [jsonMembers, jsonQuote]
    rw [hj]
    conv_lhs => unfold parseMembers
    dsimp only
    rw [parseString_jsonQuote k _ hk.1 _
      (by simp only [List.length_append, List.length_cons]; omega)]
    dsimp only
    rw [skipWs_cons 58 _ (by decide)]
    dsimp only
    have hq : skipWs (jsonQuote v ++ 125 :: tail) = jsonQuote v ++ 125 :: tail := by
      rw [jsonQuote_append]; exact skipWs_cons 34 _ (by decide)
    rw [hq, parseValue_jsonQuote v _ hk.2]
    dsimp only
    rw [skipWs_cons 125 _ (by decide)]
    rfl
  | cons kv2 l ih =>
    intro kv fuel depth tail hv hf
    obtain ⟨k, v⟩ := kv
    obtain ⟨f, rfl⟩ : ∃ f, fuel = f + 1 + 1 := ⟨fuel - 2, by simp at hf; omega⟩
    have hk := (hv (k, v) (List.mem_cons_self _ _))
    have hj : jsonMembers ((k, v) :: kv2 :: l) ++ 125 :: tail =
        34 :: (jsonEscape (k.length + 1) k ++ 34 :: (58 :: (jsonQuote v ++
          44 :: (jsonMembers (kv2 :: l) ++ 125 :: tail)))) := by
      simp [jsonMembers, jsonQuote]
    rw [hj]
    conv_lhs => unfold parseMembers
    dsimp only
    rw [parseString_jsonQuote k _ hk.1 _
      (by simp only [List.length_append, List.length_cons]; omega)]
    dsimp only
    rw [skipWs_cons 58 _ (by decide)]
    dsimp only
    have hq : ∀ X, skipWs (jsonQuote v ++ X) = jsonQuote v ++ X := by
      intro X; rw [jsonQuote_append]; exact skipWs_cons 34 _ (by decide)
    rw [hq, parseValue_jsonQuote v _ hk.2]
    dsimp only
    rw [skipWs_cons 44 _ (by decide)]
    dsimp only
    have hq2 : ∀ k2 X, skipWs (jsonQuote k2 ++ X) = jsonQuote k2 ++ X := by
      intro k2 X; rw [jsonQuote_append]; exact skipWs_cons 34 _ (by decide)
    have hnext : skipWs (jsonMembers (kv2 :: l) ++ 125 :: tail) =
        jsonMembers (kv2 :: l) ++ 125 :: tail := by
      obtain ⟨k2, v2⟩ := kv2
      cases l with
      | nil => simp only [jsonMembers, List.append_assoc]; exact hq2 k2 _
      | cons _ _ => simp only [jsonMembers, List.append_assoc]; exact hq2 k2 _
    rw [hnext, ih kv2 (f + 1) depth tail
      (fun p hp => hv p (List.mem_cons_of_mem _ hp)) (by simp at hf ⊢; omega)]
    rfl

/-- Sorted insertion adds the binding. -/
theorem insertSorted_perm (kv : Bytes × Bytes) (l : List (Bytes × Bytes)) :
    (insertSorted kv l).Perm (kv :: l) := by
  induction l with
  | nil => exact List.Perm.refl _
  | cons x rest ih =>
    unfold insertSorted
    split_ifs
    · exact List.Perm.refl _
    · exact (List.Perm.cons x ih).trans (List.Perm.swap kv x rest)

/-- Sorting keeps the bindings. -/
theorem foldr_insertSorted_perm (m : List (Bytes × Bytes)) :
    (m.foldr insertSorted []).Perm m := by
  induction m with
  | nil => exact List.Perm.refl _
  | cons kv rest ih =>
    rw [List.foldr_cons]
    exact (insertSorted_perm kv _).trans (List.Perm.cons kv ih)

/-- Members with string values are stored one after the other, without error. -/
theorem storeMembers_strings (l : List (Bytes × Bytes)) :
    ∀ acc, storeMembers (l.map fun p => (p.1, JKind.string p.2)) acc =
      (l.foldl (fun a p => assocSet a p.1 p.2) acc, false) := by
  induction l with
  | nil => intro acc; rfl
  | cons p rest ih =>
    intro acc
    rw [List.map_cons, List.foldl_cons]
    conv_lhs => unfold storeMembers
    exact ih _

/-- Storing bindings leaves other keys as they were. -/
theorem assocGet_foldl_not_mem (l : List (Bytes × Bytes)) (k : Bytes) :
    ∀ acc, k ∉ l.map Prod.fst →
      assocGet (l.foldl (fun a p => assocSet a p.1 p.2) acc) k = assocGet acc k := by
  induction l with
  | nil => intro acc _; rfl
  | cons p rest ih =>
    intro acc hk
    rw [List.map_cons, List.mem_cons, not_or] at hk
    rw [List.foldl_cons, ih _ hk.2, assocGet_assocSet_ne _ _ _ _ (fun h => hk.1 h.symm)]

/-- Storing bindings with distinct keys binds each key to its value. -/
theorem assocGet_foldl_mem (l : List (Bytes × Bytes)) (k v : Bytes) :
    ∀ acc, (l.map Prod.fst).Nodup → (k, v) ∈ l →
      assocGet (l.foldl (fun a p => assocSet a p.1 p.2) acc) k = some v := by
  induction l with
  | nil => intro acc _ h; cases h
  | cons p rest ih =>
    intro acc hnd hm
    rw [List.map_cons, List.nodup_cons] at hnd
    rw [List.foldl_cons]
    rcases List.mem_cons.1 hm with h | h
    · subst h
      rw [assocGet_foldl_not_mem _ _ _ hnd.1, assocGet_assocSet_same]
    · exact ih _ hnd.2 h

/-- Every member takes at least one byte. -/
theorem jsonMembers_length (l : List (Bytes × Bytes)) : l.length ≤ (jsonMembers l).length := by
  induction l with
  | nil => simp
  | cons kv rest ih =>
    obtain ⟨k, v⟩ := kv
    cases rest with
    | nil =>
      simp only [jsonMembers, List.length_append, List.length_cons, List.length_nil]
      omega
    | cons kv2 rest2 =>
      simp only [jsonMembers, List.length_append, List.length_cons] at ih ⊢
      unfold jsonQuote
      simp only [List.length_append, List.length_cons, List.length_nil]
      omega

/-- An object whose first member starts is read member by member. -/
theorem parseValue_object (fuel : Nat) (rest : Bytes) :
    parseValue (fuel + 1) 0 (123 :: 34 :: rest) =
      (parseMembers fuel 1 (34 :: rest)).map fun p => (JVal.members p.1, p.2) := by
  rfl

/-- What `json.Unmarshal` reads from the output of `jsonMarshal` on a map with
well-formed keys and values: the same bindings. -/
theorem jsonUnmarshal_jsonMarshal (m : List (Bytes × Bytes)) (hnd : (m.map Prod.fst).Nodup)
    (hv : ∀ p ∈ m, validUtf8 p.1 = true ∧ validUtf8 p.2 = true) (k : Bytes) :
    assocGet (jsonUnmarshal (jsonMarshal m ++ str "\n") []).1 k = assocGet m k := by
  have hperm := foldr_insertSorted_perm m
  have hres : (jsonUnmarshal (jsonMarshal m ++ str "\n") []).1 =
      (m.foldr insertSorted []).foldl (fun a p => assocSet a p.1 p.2) [] := by
    unfold jsonMarshal
    cases hs : m.foldr insertSorted [] with
    | nil => rfl
    | cons kv l =>
      have hv' : ∀ p ∈ kv :: l, validUtf8 p.1 = true ∧ validUtf8 p.2 = true := by
        intro p hp
        rw [← hs] at hp
        exact hv p (hperm.mem_iff.1 hp)
      have hnl : str "\n" = [10] := by decide
      have hdata : [123] ++ jsonMembers (kv :: l) ++ [125] ++ str "\n" =
          123 :: (jsonMembers (kv :: l) ++ 125 :: [10]) := by
        rw [hnl]; simp
      have hhead : ∃ r, jsonMembers (kv :: l) ++ 125 :: [10] = 34 :: r := by
        obtain ⟨k1, v1⟩ := kv
        cases l with
        | nil => exact ⟨_, by simp only [jsonMembers, List.append_assoc]; exact jsonQuote_append _ _⟩
        | cons _ _ =>
          exact ⟨_, by simp only [jsonMembers, List.append_assoc]; exact jsonQuote_append _ _⟩
      obtain ⟨r, hr⟩ := hhead
      have hlen := jsonMembers_length (kv :: l)
      have hparse : jsonParse (123 :: (jsonMembers (kv :: l) ++ 125 :: [10])) =
          some (JVal.members ((kv :: l).map fun p => (p.1, JKind.string p.2))) := by
        unfold jsonParse
        rw [skipWs_cons 123 _ (by decide)]
        rw [hr, parseValue_object, ← hr, parseMembers_jsonMembers l kv _ 1 [10] hv'
          (by simp only [List.length_cons, List.length_append] at hlen ⊢; omega)]
        rfl
      rw [hdata]
      unfold jsonUnmarshal
      rw [hparse]
      dsimp only
      rw [storeMembers_strings]
  rw [hres]
  cases hg : assocGet m k with
  | none =>
    have hk : k ∉ (m.foldr insertSorted []).map Prod.fst := by
      intro hmem
      have := (hperm.map Prod.fst).mem_iff.1 hmem
      rw [← assocGet_isSome_iff, hg] at this
      cases this
    rw [assocGet_foldl_not_mem _ _ _ hk]
    rfl
  | some v =>
    exact assocGet_foldl_mem _ k v [] ((hperm.map Prod.fst).nodup_iff.2 hnd)
      (hperm.mem_iff.2 (assocGet_some_mem hg))

/-- A string of ASCII bytes is well-formed UTF-8. -/
theorem validUtf8_of_ascii (s : Bytes) (h : ∀ c ∈ s, c.val < 0x80) : validUtf8 s = true := by
  induction s with
  | nil => rfl
  | cons c rest ih =>
    have hw : utf8Width (c :: rest) = 0 + 1 := by
      simp [utf8Width, h c (List.mem_cons_self _ _)]
    rw [validUtf8_cons _ _ _ hw, List.drop_zero]
    exact ih (fun x hx => h x (List.mem_cons_of_mem _ hx))

/-- Hexadecimal digits are ASCII. -/
theorem hexDigit_ascii (n : Nat) (h : n < 16) : (hexDigit n).val < 0x80 := by
  interval_cases n <;> decide

/-- A hexadecimal encoding is ASCII. -/
theorem hexEncode_ascii (s : Bytes) : ∀ c ∈ hexEncode s, c.val < 0x80 := by
  induction s with
  | nil => intro c h; cases h
  | cons b rest ih =>
    intro c h
    unfold hexEncode at h
    rcases List.mem_cons.1 h with rfl | h
    · exact hexDigit_ascii _ (by omega)
    · rcases List.mem_cons.1 h with rfl | h
      · exact hexDigit_ascii _ (by omega)
      · exact ih c h

/-- A binding of a list with distinct keys is what the lookup returns. -/
theorem assocGet_of_mem {β : Type} (m : List (Bytes × β)) (k : Bytes) (v : β)
    (hnd : (m.map Prod.fst).Nodup) (h : (k, v) ∈ m) : assocGet m k = some v := by
  induction m with
  | nil => cases h
  | cons p rest ih =>
    obtain ⟨k', v'⟩ := p
    rw [List.map_cons, List.nodup_cons] at hnd
    unfold assocGet
    rcases List.mem_cons.1 h with h | h
    · cases h
      rw [if_pos rfl]
    · have hne : k' ≠ k := by
        intro he
        subst he
        exact hnd.1 (List.mem_map.2 ⟨(k', v), h, rfl⟩)
      rw [if_neg hne]
      exact ih hnd.2 h

/-- The mapping `push` computed has well-formed keys and values when the names of
the certificate artifact files are well-formed. -/
theorem HashInv_valid (E : Env) (C : Dir) (A : List Bytes) (st : PushState)
    (h : HashInv E C A st) (hA : ∀ f ∈ A, validUtf8 f = true) :
    ∀ p ∈ st.newHashes, validUtf8 p.1 = true ∧ validUtf8 p.2 = true := by
  intro p hp
  obtain ⟨k, v⟩ := p
  obtain ⟨f, hf, hk, hw⟩ := h.2.2 k v (assocGet_of_mem _ k v h.2.1 hp)
  constructor
  · show validUtf8 k = true
    rw [hk]
    exact validUtf8_append f.length f _ (Nat.le_refl _) (hA f hf) (by decide)
  · show validUtf8 v = true
    unfold wantHash at hw
    cases hr : ReadFile C f with
    | none => rw [hr] at hw; cases hw
    | some d =>
      rw [hr] at hw
      simp only [Option.map_some', Option.some.injEq] at hw
      rw [← hw]
      exact validUtf8_of_ascii _ (hexEncode_ascii _)

/-! ## Push then pull -/

/-- C1 (counterexample): the bucket is not empty before the push. A first host pushed
`a.com.crt` and `a.com.key` sealed under its own key. A second host with the same
files and no key pushes to that bucket: it creates a key of its own, finds the
digests of its files in the manifest, uploads nothing and succeeds. The store is
faithful and the sample sealing primitive opens what it sealed, yet a pull with
the key directory of the second host, into an empty certificate directory, stops
with a decryption error and writes no file. -/
theorem push_then_pull_foreign_object :
    (∀ t p k c, sampleEnv.encrypt t p k = some c → sampleEnv.decrypt c k = some p) ∧
    sampleSecondHost.remote.faithful ∧
    ReadFile sampleSecondHost.certDir (str "a.com.crt") = some (str "CERT") ∧
    (push sampleEnv id samplePushConfig sampleSecondHost).1 = none ∧
    (pull sampleEnv samplePullConfig
      (freshHost (push sampleEnv id samplePushConfig sampleSecondHost).2)).1 =
      some (Err.decrypt (str "certs/a.com.crt.enc")) ∧
    ReadFile (pull sampleEnv samplePullConfig
      (freshHost (push sampleEnv id samplePushConfig sampleSecondHost).2)).2.certDir
      (str "a.com.crt") = none :=
  ⟨sampleEnv_opens, by decide⟩

/-- C1 (amended): push then pull reproduces the certificate artifact files. On a
faithful store that holds no object before the push, with a sealing primitive
satisfying `open (seal p k) k = p`, after one successful push that leaves at most
`maxKeys` objects under the prefix (one listing page), a pull that uses the key
directory the push left, when that directory can be listed and its path holds no
glob metacharacter, into an empty certificate directory, ends with, for every
readable certificate artifact file of the pushing host, a local file of the same
name and byte-identical content. -/
theorem push_then_pull_reproduces (E : Env)
    (order : List (Bytes × List Bytes) → List (Bytes × List Bytes))
    (pushCfg : PushConfig) (pullCfg : PullConfig) (w w1 : World)
    (horder : ∀ l, (order l).Perm l)
    (hseal : ∀ t p k c, E.encrypt t p k = some c → E.decrypt c k = some p)
    (hfaith : w.remote.faithful) (hempty : w.remote.objects = [])
    (hnames : ∀ f ∈ artifactFiles w.certDir, (47 : Byte) ∉ f)
    (hpfx : pullCfg.s3Prefix = pushCfg.s3Prefix)
    (hpush : push E order pushCfg w = (none, w1))
    (hkeys : w1.keyDir.listErr = false) (hmeta : hasMeta pullCfg.keyDir = false)
    (hpage : (allKeys w1.remote
      (if pushCfg.s3Prefix ≠ [] then some (pushCfg.s3Prefix ++ str "/") else none)).length ≤
        maxKeys) :
    ∀ f ∈ artifactFiles w.certDir, ∀ data, ReadFile w.certDir f = some data →
      ReadFile (pull E pullCfg { w1 with certDir := emptyDir }).2.certDir f = some data := by
  intro f hfA data hdata
  obtain ⟨st, hsync, _, hkd, hrem⟩ := push_ok_world E order pushCfg w w1 hpush
  obtain ⟨hf1, hobj1⟩ := push_ok_remote E order pushCfg w w1 st hfaith hsync hrem
  have hsealinv := pushSync_SealInv E order pushCfg w horder hempty
  rw [hsync] at hsealinv
  dsimp only at hsealinv
  obtain ⟨_, hsl⟩ := hsealinv
  have hup := pushSync_Uploaded E order pushCfg w horder hempty st hsync
  -- the object of `f` is in the bucket the push left
  have hkf : (assocGet w1.remote.objects (BuildKey pushCfg.s3Prefix (f ++ str ".enc"))).isSome
      = true := by
    rw [hobj1 _ (objectKey_ne_manifestKey _ _)]
    exact hup f hfA data hdata
  -- every listed object is usable
  have husable : ∀ objKey ∈ listedKeys w1.remote
      (if pullCfg.s3Prefix ≠ [] then some (pullCfg.s3Prefix ++ str "/") else none),
      Usable E (ReadFile w.certDir) w1.keyDir w1.remote objKey := by
    intro objKey hmem c k2 hs hx hl
    have hsome := mem_listedKeys_objects _ _ _ hmem
    obtain ⟨ct, hct⟩ := Option.isSome_iff_exists.1 hsome
    by_cases hm : objKey = BuildKey pushCfg.s3Prefix (str ".hashes.json")
    · subst hm
      rw [Base_BuildKey _ _ (by decide) manifest_no_slash, manifest_not_enc] at hs
      cases hs
    · have hct' := hct
      rw [hobj1 _ hm] at hct'
      obtain ⟨f', d, k, t, hkey, hf'A, hrd, hlk, henc⟩ := hsl objKey ct hct'
      have hbase : Base objKey = f' ++ str ".enc" := by
        rw [hkey]
        exact Base_BuildKey _ _ (enc_append_ne_nil _) (not_slash_enc _ (hnames f' hf'A))
      rw [hbase, trimSuffix_append] at hx ⊢
      rw [hx, ← hkd] at hlk
      dsimp only at hlk
      rw [hl] at hlk
      cases hlk
      exact ⟨ct, d, hct, hseal _ _ _ _ henc, hrd⟩
  -- the receiving host has a key file, and the listing is not empty
  have hlist : listedKeys w1.remote
      (if pullCfg.s3Prefix ≠ [] then some (pullCfg.s3Prefix ++ str "/") else none) ≠ [] := by
    rw [hpfx]
    exact List.ne_nil_of_mem (mem_listedKeys_BuildKey _ _ _ hpage hkf)
  obtain ⟨ct, hct⟩ := Option.isSome_iff_exists.1 hkf
  have hct' := hct
  rw [hobj1 _ (objectKey_ne_manifestKey _ _)] at hct'
  obtain ⟨f', d, k, t, hkey, hf'A, hrd, hlk, henc⟩ := hsl _ ct hct'
  have hff : f = f' := List.append_cancel_right (BuildKey_injective _ _ _ hkey)
  subst hff
  rw [← hkd] at hlk
  obtain ⟨keyFiles, hglob, hkmem⟩ := LoadKey_ok_mem_glob E pullCfg.keyDir _ _ _ hmeta hkeys
    (fun hm => hnames f hfA (ExtractCertName_subset _ _ hm)) hlk
  -- run the loop of pull
  have hcert0 : CertInv (ReadFile w.certDir) emptyDir :=
    ⟨rfl, fun n => ⟨by simp [emptyDir, assocGet], by simp [emptyDir, assocGet]⟩,
      fun g dg h => by simp [ReadFile, emptyDir, assocGet] at h⟩
  obtain ⟨w3, hloop, _, _, _, _, hdone⟩ := pullObjects_usable E
    (LoadHashesFromS3 { w1 with certDir := emptyDir } pullCfg.s3Prefix).1.1
    (ReadFile w.certDir)
    (listedKeys w1.remote
      (if pullCfg.s3Prefix ≠ [] then some (pullCfg.s3Prefix ++ str "/") else none))
    { w1 with
      certDir := emptyDir
      log := w1.log ++ [Event.get (BuildKey pullCfg.s3Prefix (str ".hashes.json"))] ++
        [Event.list] }
    hf1 hcert0 husable
  have hpull := pull_eq E pullCfg { w1 with certDir := emptyDir } w3 keyFiles hf1 hglob
    (List.ne_nil_of_mem hkmem) hlist rfl hloop
  rw [hpull, (runReload_frame E pullCfg.reloadCmd w3).2.1]
  have hbase : Base (BuildKey pushCfg.s3Prefix (f ++ str ".enc")) = f ++ str ".enc" :=
    Base_BuildKey _ _ (enc_append_ne_nil _) (not_slash_enc _ (hnames f hfA))
  have hmemf : BuildKey pushCfg.s3Prefix (f ++ str ".enc") ∈ listedKeys w1.remote
      (if pullCfg.s3Prefix ≠ [] then some (pullCfg.s3Prefix ++ str "/") else none) := by
    rw [hpfx]; exact mem_listedKeys_BuildKey _ _ _ hpage hkf
  have hart : (ExtractCertName f).2 = true := by
    unfold artifactFiles at hfA
    simp only [List.mem_map, List.mem_filter, Bool.and_eq_true] at hfA
    obtain ⟨e, ⟨_, _, he⟩, rfl⟩ := hfA
    exact he
  have hres := hdone _ hmemf (ExtractCertName f).1 k
    (by rw [hbase]; exact hasSuffix_append _ _)
    (by rw [hbase, trimSuffix_append]; exact Prod.ext rfl hart)
    hlk
  rw [hbase, trimSuffix_append] at hres
  obtain ⟨d', ho, hr⟩ := hres
  rw [hdata] at ho
  cases ho
  exact hr

/-- Witness for C1 (amended): `a.com.crt` pushed from a fresh host to an empty bucket
under the prefix `certs`, then pulled into an empty certificate directory. -/
theorem push_then_pull_reproduces_witness :
    ReadFile (pull sampleEnv samplePullConfig { samplePushed with certDir := emptyDir }).2.certDir
      (str "a.com.crt") = some (str "CERT") := by
  have hpush : push sampleEnv id samplePushConfig (sampleWorld sampleCerts [] []) =
      (none, samplePushed) := by decide
  exact push_then_pull_reproduces sampleEnv id samplePushConfig samplePullConfig
    (sampleWorld sampleCerts [] []) samplePushed (fun l => List.Perm.refl l) sampleEnv_opens
    (by decide) rfl (by decide) rfl hpush (by decide) (by decide) (by decide)
    (str "a.com.crt") (by decide) (str "CERT") (by decide)

/-! ## The published manifest -/

/-- C10: whenever `push` publishes a manifest (a put under the manifest key is among
the events of the run) and every certificate artifact file is readable, the
published body is the marshalled mapping `newHashes` followed by a newline, and
that mapping has no duplicate key, maps `f ++ ".enc"` to the lowercase hexadecimal
SHA-256 of the content of `f` for every artifact file `f` of the certificate
directory, and has no other key; in particular no entry of the fetched manifest
for a file that is no longer present. -/
theorem push_manifest_content (E : Env)
    (order : List (Bytes × List Bytes) → List (Bytes × List Bytes))
    (cfg : PushConfig) (w : World) (body : Bytes) (ok : Bool)
    (horder : ∀ l, (order l).Perm l)
    (hread : ∀ f ∈ artifactFiles w.certDir, ReadFile w.certDir f ≠ none)
    (hpub : Event.put (BuildKey cfg.s3Prefix (str ".hashes.json")) body ok ∈
      runEvents w (push E order cfg w).2) :
    body = E.marshal (pushSync E order cfg w).2.newHashes ++ str "\n" ∧
    ((pushSync E order cfg w).2.newHashes.map Prod.fst).Nodup ∧
    (∀ f ∈ artifactFiles w.certDir, ∃ d, ReadFile w.certDir f = some d ∧
      assocGet (pushSync E order cfg w).2.newHashes (f ++ str ".enc") =
        some (hexEncode (E.sha256 d))) ∧
    (∀ k ∈ (pushSync E order cfg w).2.newHashes.map Prod.fst,
      ∃ f ∈ artifactFiles w.certDir, k = f ++ str ".enc") := by
  obtain ⟨hnone, _, hbody⟩ := push_manifest_put E order cfg w body ok hpub
  obtain ⟨_, hnd, hval⟩ := pushSync_HashInv E order cfg w horder
  have hsync : pushSync E order cfg w = (none, (pushSync E order cfg w).2) := by
    rw [← hnone]
  have hcov := pushSync_Covered E order cfg w horder _ hsync
  refine ⟨hbody, hnd, ?_, ?_⟩
  · intro f hf
    obtain ⟨d, hd⟩ := Option.ne_none_iff_exists'.1 (hread f hf)
    exact ⟨d, hd, hcov f hf d hd⟩
  · intro k hk
    rw [← assocGet_isSome_iff] at hk
    obtain ⟨v, hv⟩ := Option.isSome_iff_exists.1 hk
    obtain ⟨f, hf, hkf, _⟩ := hval k v hv
    exact ⟨f, hf, hkf⟩

/-- Witness for C10: `a.com.crt` and `a.com.key` pushed to an empty bucket. -/
theorem push_manifest_content_witness :
    ((pushSync sampleEnv id samplePushConfig
      (sampleWorld [(str "a.com.crt", Node.file (str "CERT")),
        (str "a.com.key", Node.file (str "KEY"))] [] [])).2.newHashes.map Prod.fst).Nodup :=
  (push_manifest_content sampleEnv id samplePushConfig
    (sampleWorld [(str "a.com.crt", Node.file (str "CERT")),
      (str "a.com.key", Node.file (str "KEY"))] [] [])
    (str "\x7b\"a.com.crt.enc\":\"042e\",\"a.com.key.enc\":\"03e9\"\x7d\n") true
    (fun l => List.Perm.refl l) (by decide) (by decide)).2.1

/-! ## Push idempotence -/

/-- C2 (counterexample): the one certificate file has a name that is not valid
UTF-8. The first push on a faithful store succeeds and publishes its manifest, in
which `json.Marshal` has replaced the ill-formed byte of the name; nothing
changes, and the second push does not find the digest under the name of the
file, so it puts the encrypted object and the manifest again. -/
theorem push_twice_uploads_ill_formed_name :
    sampleIllFormedHost.remote.faithful ∧
    (push sampleEnv id samplePushConfig sampleIllFormedHost).1 = none ∧
    (runEvents sampleIllFormedHost
      (push sampleEnv id samplePushConfig sampleIllFormedHost).2).any
      (isPutOf (str "certs/.hashes.json")) = true ∧
    (push sampleEnv id samplePushConfig
      (push sampleEnv id samplePushConfig sampleIllFormedHost).2).1 = none ∧
    (runEvents (push sampleEnv id samplePushConfig sampleIllFormedHost).2
      (push sampleEnv id samplePushConfig
        (push sampleEnv id samplePushConfig sampleIllFormedHost).2).2).any
      (isObjectUpload (str "certs/.hashes.json")) = true ∧
    (runEvents (push sampleEnv id samplePushConfig sampleIllFormedHost).2
      (push sampleEnv id samplePushConfig
        (push sampleEnv id samplePushConfig sampleIllFormedHost).2).2).any
      (isPutOf (str "certs/.hashes.json")) = true := by
  decide

/-- Push idempotence when the published manifest decodes to the mapping it encodes. -/
theorem push_twice_of_roundtrip (E : Env)
    (order1 order2 : List (Bytes × List Bytes) → List (Bytes × List Bytes))
    (cfg : PushConfig) (w w1 : World)
    (horder1 : ∀ l, (order1 l).Perm l) (horder2 : ∀ l, (order2 l).Perm l)
    (hfaith : w.remote.faithful)
    (hjson : (pushSync E order1 cfg w).2.uploaded = true → ∀ k,
      assocGet (jsonUnmarshal (E.marshal (pushSync E order1 cfg w).2.newHashes ++ str "\n") []).1 k
        = assocGet (pushSync E order1 cfg w).2.newHashes k)
    (hpush : push E order1 cfg w = (none, w1)) :
    (push E order2 cfg w1).2.remote = w1.remote ∧
    (∀ e ∈ runEvents w1 (push E order2 cfg w1).2, isPut e = false) ∧
    GetObject (push E order2 cfg w1).2.remote (BuildKey cfg.s3Prefix (str ".hashes.json")) =
      GetObject w1.remote (BuildKey cfg.s3Prefix (str ".hashes.json")) := by
  obtain ⟨st, hsync, hcert, _, hrem⟩ := push_ok_world E order1 cfg w w1 hpush
  have hfr := pushSync_frame E order1 cfg w
  rw [hsync] at hfr hjson
  dsimp only at hfr hjson
  have hstf := hfr.2 hfaith
  have hcov : ∀ f ∈ artifactFiles w1.certDir, ∀ d, ReadFile w1.certDir f = some d →
      assocGet (pushExisting cfg w1) (f ++ str ".enc") = some (hexEncode (E.sha256 d)) := by
    rw [hcert]
    intro f hf d hd
    by_cases hu : st.uploaded = true
    · rw [if_pos hu] at hrem
      obtain ⟨hpf, hpo⟩ := PutObject_faithful st.w (BuildKey cfg.s3Prefix (str ".hashes.json"))
        (E.marshal st.newHashes ++ str "\n") hstf
      have hex : pushExisting cfg w1 =
          (jsonUnmarshal (E.marshal st.newHashes ++ str "\n") []).1 := by
        unfold pushExisting
        apply LoadHashesFromS3_of_object
        · show (runLegoCommands w1 cfg.legoCommands).remote.faithful
          show w1.remote.faithful
          rw [hrem]; exact hpf
        · show assocGet w1.remote.objects _ = _
          rw [hrem, hpo, assocGet_assocSet_same]
      rw [hex, hjson hu]
      exact pushSync_Covered E order1 cfg w horder1 st hsync f hf d hd
    · have hu' : st.uploaded = false := by simpa using hu
      rw [hu'] at hrem
      simp only [Bool.false_eq_true, if_false] at hrem
      obtain ⟨hr0, hm⟩ := pushSync_not_uploaded E order1 cfg w horder1 st hsync hu'
      have hex : pushExisting cfg w1 = pushExisting cfg w := by
        unfold pushExisting
        apply LoadHashesFromS3_remote
        show w1.remote = w.remote
        rw [hrem, hr0]
      rw [hex]
      exact hm f hf d hd
  obtain ⟨h1, h2⟩ := push_in_sync E order2 cfg w1 horder2 hcov
  exact ⟨h1, h2, by rw [h1]⟩


/-- C2 (amended): push idempotence. After a successful first push on a faithful
store, a second push on the world the first one left (in whatever order it visits
the certificates) puts nothing, neither an encrypted object nor the manifest, and
leaves the bucket, the manifest included, as it was, provided the names of the
certificate artifact files are well-formed UTF-8 and the encoder is Go's
`json.Marshal`, or, for any encoder, provided the manifest the first push
published decodes to the mapping it encodes. -/
theorem push_idempotent (E : Env)
    (order1 order2 : List (Bytes × List Bytes) → List (Bytes × List Bytes))
    (cfg : PushConfig) (w w1 : World)
    (horder1 : ∀ l, (order1 l).Perm l) (horder2 : ∀ l, (order2 l).Perm l)
    (hfaith : w.remote.faithful)
    (hnames : ((∀ m, E.marshal m = jsonMarshal m) ∧
        ∀ f ∈ artifactFiles w.certDir, validUtf8 f = true) ∨
      ((pushSync E order1 cfg w).2.uploaded = true → ∀ k,
        assocGet (jsonUnmarshal (E.marshal (pushSync E order1 cfg w).2.newHashes ++ str "\n")
          []).1 k = assocGet (pushSync E order1 cfg w).2.newHashes k))
    (hpush : push E order1 cfg w = (none, w1)) :
    (push E order2 cfg w1).2.remote = w1.remote ∧
    (∀ e ∈ runEvents w1 (push E order2 cfg w1).2, isPut e = false) ∧
    GetObject (push E order2 cfg w1).2.remote (BuildKey cfg.s3Prefix (str ".hashes.json")) =
      GetObject w1.remote (BuildKey cfg.s3Prefix (str ".hashes.json")) := by
  refine push_twice_of_roundtrip E order1 order2 cfg w w1 horder1 horder2 hfaith ?_ hpush
  rcases hnames with ⟨hm, hutf8⟩ | hjson
  · intro _ k
    have hinv := pushSync_HashInv E order1 cfg w horder1
    rw [hm]
    exact jsonUnmarshal_jsonMarshal _ hinv.2.1
      (HashInv_valid E _ _ _ hinv hutf8) k
  · exact hjson

/-- Witness for C2 (amended): `a.com.crt` and `a.com.key` pushed twice to an initially
empty bucket, with `jsonMarshal` as the encoder. -/
theorem push_idempotent_witness :
    (push sampleEnv id samplePushConfig samplePushed).2.remote = samplePushed.remote := by
  have hpush : push sampleEnv id samplePushConfig (sampleWorld sampleCerts [] []) =
      (none, samplePushed) := by decide
  exact (push_idempotent sampleEnv id id samplePushConfig (sampleWorld sampleCerts [] [])
    samplePushed (fun l => List.Perm.refl l) (fun l => List.Perm.refl l) (by decide)
    (Or.inl ⟨fun _ => rfl, by decide⟩) hpush).1

/-! ## More on the key store -/

theorem b64Encode_length (k : Bytes) : (b64Encode k).length = 4 * ((k.length + 2) / 3) := by
  induction k using b64Encode.induct with
  | case1 => rfl
  | case2 a => simp [b64Encode]
  | case3 a b => simp [b64Encode]
  | case4 a b c rest ih =>
    simp only [b64Encode, List.length_cons, ih]
    omega

theorem getLast?_plain (s : Bytes) (hs : ∀ c ∈ s, plainByte c) : s.getLast? ≠ some 10 := by
  intro h
  have hm : (10 : Byte) ∈ s := List.mem_of_getLast?_eq_some h
  have := hs 10 hm
  revert this
  decide

theorem SaveKey_written {keyDir keyDir' : Dir} {certName k : Bytes}
    (h : SaveKey keyDir certName k = Except.ok keyDir') :
    ReadFile keyDir' (certName ++ str ".key") = some (b64Encode k ++ str "\n") := by
  unfold SaveKey at h
  split at h
  · cases h
  · dsimp only at h
    split at h
    · cases h
    · rename_i d hw
      cases h
      exact ReadFile_WriteFile_same hw


/-- Outcomes of the outer loop of `push`: a property `P` kept while the loop goes
on, and what holds of the state when the loop stops, with or without error. -/
theorem pushCerts_outcome (E : Env) (pfx : Bytes) (ex : List (Bytes × Bytes))
    (P : PushState → Prop) (Q : Option Err → PushState → Prop)
    (hdone : ∀ st, P st → Q none st)
    (hK1 : ∀ st c e w1, P st → GetOrCreateKey E st.w c = (Except.error e, w1) →
      Q (some (Err.getEncryptionKey e)) { st with w := w1 })
    (hK2 : ∀ st c k w1, P st → GetOrCreateKey E st.w c = (Except.ok k, w1) →
      P { st with w := w1 })
    (hF1 : ∀ st key f st', P st → pushFile E pfx ex key st f = (none, st') → P st')
    (hF2 : ∀ st key f e st', P st → pushFile E pfx ex key st f = (some e, st') →
      Q (some e) st') :
    ∀ groups st, P st →
      Q (pushCerts E pfx ex groups st).1 (pushCerts E pfx ex groups st).2 := by
  have hfiles : ∀ key files st, P st →
      (∃ st', pushFiles E pfx ex key files st = (none, st') ∧ P st') ∨
      (∃ e st', pushFiles E pfx ex key files st = (some e, st') ∧ Q (some e) st') := by
    intro key files
    induction files with
    | nil => intro st hP; exact Or.inl ⟨st, rfl, hP⟩
    | cons f rest ih =>
      intro st hP
      unfold pushFiles
      cases hr : pushFile E pfx ex key st f with
      | mk r st1 =>
        cases r with
        | some e => exact Or.inr ⟨e, st1, rfl, hF2 st key f e st1 hP hr⟩
        | none => exact ih st1 (hF1 st key f st1 hP hr)
  intro groups
  induction groups with
  | nil => intro st hP; exact hdone st hP
  | cons g rest ih =>
    obtain ⟨c, files⟩ := g
    intro st hP
    unfold pushCerts
    cases hg : GetOrCreateKey E st.w c with
    | mk r w1 =>
      cases r with
      | error e => exact hK1 st c e w1 hP hg
      | ok key =>
        dsimp only
        rcases hfiles key files { st with w := w1 } (hK2 st c key w1 hP hg) with
          ⟨st', h1, h2⟩ | ⟨e, st', h1, h2⟩
        · rw [h1]
          exact ih st' h2
        · rw [h1]
          exact h2

/-- The loop body of `push`, as to its result, the log and `uploaded`: nothing is
logged and `uploaded` is kept, or the put of the object failed, is logged and is
the error returned, or the put succeeded, is logged and `uploaded` is set. -/
theorem pushFile_put (E : Env) (pfx : Bytes) (ex : List (Bytes × Bytes)) (key : Bytes)
    (st : PushState) (f : Bytes) :
    ((pushFile E pfx ex key st f).2.w.log = st.w.log ∧
      (pushFile E pfx ex key st f).2.uploaded = st.uploaded) ∨
    (∃ ct, (pushFile E pfx ex key st f).2.w.log =
        st.w.log ++ [Event.put (BuildKey pfx (f ++ str ".enc")) ct false] ∧
      (pushFile E pfx ex key st f).2.uploaded = st.uploaded ∧
      (pushFile E pfx ex key st f).1 = some (Err.upload (BuildKey pfx (f ++ str ".enc")))) ∨
    (∃ ct, (pushFile E pfx ex key st f).2.w.log =
        st.w.log ++ [Event.put (BuildKey pfx (f ++ str ".enc")) ct true] ∧
      (pushFile E pfx ex key st f).2.uploaded = true ∧
      (pushFile E pfx ex key st f).1 = none) := by
  cases h : ReadFile st.w.certDir f with
  | none => rw [pushFile_unreadable E pfx ex key st f h]; exact Or.inl ⟨rfl, rfl⟩
  | some d =>
    rcases pushFile_readable E pfx ex key st f d h with
      ⟨_, e⟩ | ⟨_, _, e⟩ | ⟨_, ct, _, _, e⟩ | ⟨_, ct, _, _, e⟩ <;> rw [e]
    · exact Or.inl ⟨rfl, rfl⟩
    · exact Or.inl ⟨rfl, rfl⟩
    · exact Or.inr (Or.inl ⟨ct, rfl, rfl, rfl⟩)
    · exact Or.inr (Or.inr ⟨ct, rfl, rfl, rfl⟩)

theorem isObjectUpload_object (pfx f ct : Bytes) :
    isObjectUpload (BuildKey pfx (str ".hashes.json"))
      (Event.put (BuildKey pfx (f ++ str ".enc")) ct true) = true := by
  simp [isObjectUpload, objectKey_ne_manifestKey]

theorem isPutOf_object (pfx f ct : Bytes) (ok : Bool) :
    isPutOf (BuildKey pfx (str ".hashes.json"))
      (Event.put (BuildKey pfx (f ++ str ".enc")) ct ok) = false := by
  simp [isPutOf, objectKey_ne_manifestKey]

theorem UploadInv_append {mk : Bytes} {base : List Event} {st st' : PushState}
    (h : UploadInv mk base st) (evs : List Event) (hlog : st'.w.log = st.w.log ++ evs)
    (hq : ∀ e ∈ evs, isPutOf mk e = false)
    (hup : st'.uploaded = true ↔ (st.uploaded = true ∨ ∃ e ∈ evs, isObjectUpload mk e = true)) :
    UploadInv mk base st' := by
  obtain ⟨evs0, h0, hq0, hu0⟩ := h
  refine ⟨evs0 ++ evs, by rw [hlog, h0, List.append_assoc], ?_, ?_⟩
  · intro e he
    rcases List.mem_append.1 he with he | he
    · exact hq0 e he
    · exact hq e he
  · rw [hup, hu0]
    constructor
    · rintro (⟨e, he, h1⟩ | ⟨e, he, h1⟩)
      · exact ⟨e, List.mem_append_left _ he, h1⟩
      · exact ⟨e, List.mem_append_right _ he, h1⟩
    · rintro ⟨e, he, h1⟩
      rcases List.mem_append.1 he with he | he
      · exact Or.inl ⟨e, he, h1⟩
      · exact Or.inr ⟨e, he, h1⟩

/-- Up to the end of its loop, `push` has `uploaded` set exactly when it has
uploaded an encrypted object, and has put nothing under the manifest key. -/
theorem pushSync_UploadInv (E : Env)
    (order : List (Bytes × List Bytes) → List (Bytes × List Bytes))
    (cfg : PushConfig) (w : World) :
    UploadInv (BuildKey cfg.s3Prefix (str ".hashes.json")) w.log
      (pushSync E order cfg w).2 := by
  apply pushSync_inv
  · refine ⟨cfg.legoCommands.map Event.run, rfl, by simp [isPutOf], ?_⟩
    simp [isObjectUpload]
  · refine ⟨_, pushStart_log cfg w, ?_, ?_⟩
    · intro e he
      simp only [List.mem_append, List.mem_map, List.mem_singleton] at he
      rcases he with ⟨c, _, rfl⟩ | rfl <;> rfl
    · rw [(pushStart_frame cfg w).2.2.2.2]
      constructor
      · intro h; cases h
      · rintro ⟨e, he, h1⟩
        simp only [List.mem_append, List.mem_map, List.mem_singleton] at he
        rcases he with ⟨c, _, rfl⟩ | rfl <;> cases h1
  · intro st c files _ h
    rcases GetOrCreateKey_log E st.w c with e | ⟨n, d, e⟩
    · exact UploadInv_append h [] (by simp [e]) (by simp) (by simp)
    · exact UploadInv_append h [Event.keyWrite n d] e (by simp [isPutOf])
        (by simp [isObjectUpload])
  · intro st c files key f _ _ _ h
    rcases pushFile_put E cfg.s3Prefix (pushExisting cfg w) key st f with
      ⟨h1, h2⟩ | ⟨ct, h1, h2, _⟩ | ⟨ct, h1, h2, _⟩
    · exact UploadInv_append h [] (by simp [h1]) (by simp) (by simp [h2])
    · exact UploadInv_append h _ h1 (by simp [isPutOf_object]) (by simp [h2, isObjectUpload])
    · exact UploadInv_append h _ h1 (by simp [isPutOf_object])
        (by simp [h2, isObjectUpload_object])

/-- After its loop, `push` puts the manifest exactly when the loop ended without
error with `uploaded` set; apart from that put it only runs the reload command. -/
theorem push_events_exact (E : Env)
    (order : List (Bytes × List Bytes) → List (Bytes × List Bytes))
    (cfg : PushConfig) (w : World) (evs : List Event)
    (hlog : (pushSync E order cfg w).2.w.log = w.log ++ evs) :
    ∃ tail, runEvents w (push E order cfg w).2 = evs ++ tail ∧
      (((pushSync E order cfg w).1 = none ∧ (pushSync E order cfg w).2.uploaded = true ∧
          ∃ ok rest, tail = Event.put (BuildKey cfg.s3Prefix (str ".hashes.json"))
            (E.marshal (pushSync E order cfg w).2.newHashes ++ str "\n") ok :: rest ∧
            (rest = [] ∨ rest = [Event.run cfg.reloadCmd])) ∨
        (¬ ((pushSync E order cfg w).1 = none ∧ (pushSync E order cfg w).2.uploaded = true) ∧
          (tail = [] ∨ tail = [Event.run cfg.reloadCmd]))) := by
  unfold push
  cases hs : pushSync E order cfg w with
  | mk r st =>
    rw [hs] at hlog
    dsimp only at hlog ⊢
    cases r with
    | some e =>
      exact ⟨[], by rw [runEvents_append w st.w evs hlog]; simp,
        Or.inr ⟨fun h => (by cases h.1), Or.inl rfl⟩⟩
    | none =>
      dsimp only
      by_cases hu : st.uploaded = true
      · rw [if_pos hu]
        have hp := PutObject_log st.w (BuildKey cfg.s3Prefix (str ".hashes.json"))
          (E.marshal st.newHashes ++ str "\n")
        rcases runReload_log E cfg.reloadCmd (PutObject st.w
          (BuildKey cfg.s3Prefix (str ".hashes.json"))
          (E.marshal st.newHashes ++ str "\n")).2 with hr | hr
        · refine ⟨[Event.put (BuildKey cfg.s3Prefix (str ".hashes.json"))
              (E.marshal st.newHashes ++ str "\n")
              (decide (BuildKey cfg.s3Prefix (str ".hashes.json") ∉ st.w.remote.putErr))],
            runEvents_append w _ _ ?_, Or.inl ⟨rfl, hu, _, [], rfl, Or.inl rfl⟩⟩
          rw [hr, hp, hlog, List.append_assoc]
        · refine ⟨[Event.put (BuildKey cfg.s3Prefix (str ".hashes.json"))
              (E.marshal st.newHashes ++ str "\n")
              (decide (BuildKey cfg.s3Prefix (str ".hashes.json") ∉ st.w.remote.putErr)),
              Event.run cfg.reloadCmd],
            runEvents_append w _ _ ?_,
            Or.inl ⟨rfl, hu, _, [Event.run cfg.reloadCmd], rfl, Or.inr rfl⟩⟩
          rw [hr, hp, hlog]
          simp
      · rw [if_neg hu]
        rcases runReload_log E cfg.reloadCmd st.w with hr | hr
        · exact ⟨[], by rw [runEvents_append w _ evs (by rw [hr, hlog])]; simp,
            Or.inr ⟨fun h => hu h.2, Or.inl rfl⟩⟩
        · exact ⟨[Event.run cfg.reloadCmd],
            runEvents_append w _ _ (by rw [hr, hlog, List.append_assoc]),
            Or.inr ⟨fun h => hu h.2, Or.inr rfl⟩⟩


theorem runReload_result (E : Env) (cmd : Bytes) (w : World) :
    (runReload E cmd w).1 =
      if cmd ≠ [] ∧ E.run cmd = false then some Err.runReloadCommand else none := by
  unfold runReload
  by_cases hc : cmd = []
  · simp [hc]
  · cases hr : E.run cmd <;> simp [hc, hr]

/-- When `push` leaves its loop, a failed put among the events of the loop is the
upload error the loop returned. -/
theorem pushSync_FailedPutRel (E : Env)
    (order : List (Bytes × List Bytes) → List (Bytes × List Bytes))
    (cfg : PushConfig) (w : World) :
    FailedPutRel w.log (pushSync E order cfg w).1 (pushSync E order cfg w).2 := by
  have hstart : Extends isFailedPut w.log (pushStart cfg w) := by
    refine ⟨_, pushStart_log cfg w, ?_⟩
    intro e he
    simp only [List.mem_append, List.mem_map, List.mem_singleton] at he
    rcases he with ⟨c, _, rfl⟩ | rfl <;> rfl
  have hvac : ∀ (r : Option Err) (st : PushState), Extends isFailedPut w.log st →
      FailedPutRel w.log r st := by
    rintro r st ⟨evs, hl, hq⟩
    refine ⟨evs, hl, fun key ct h => ?_⟩
    have := hq _ h
    simp [isFailedPut] at this
  rw [pushSync_eq]
  split
  · exact hvac _ _ ⟨cfg.legoCommands.map Event.run, rfl, by simp [isFailedPut]⟩
  · split
    · exact hvac _ _ hstart
    · apply pushCerts_outcome E cfg.s3Prefix (pushExisting cfg w)
        (fun st => Extends isFailedPut w.log st) (fun r st => FailedPutRel w.log r st)
      · intro st h
        exact hvac _ _ h
      · intro st c e w1 h hg
        apply hvac
        have := Extends_key E isFailedPut w.log st c (fun _ _ => rfl) h
        rw [hg] at this
        exact this
      · intro st c k w1 h hg
        have := Extends_key E isFailedPut w.log st c (fun _ _ => rfl) h
        rw [hg] at this
        exact this
      · intro st key f st' h hf
        rcases pushFile_put E cfg.s3Prefix (pushExisting cfg w) key st f with
          ⟨h1, _⟩ | ⟨ct, _, _, h3⟩ | ⟨ct, h1, _, _⟩
        · rw [hf] at h1
          exact Extends_append h [] (by simpa using h1) (by simp)
        · rw [hf] at h3; cases h3
        · rw [hf] at h1
          exact Extends_append h _ h1 (by simp [isFailedPut])
      · intro st key f e st' h hf
        rcases pushFile_put E cfg.s3Prefix (pushExisting cfg w) key st f with
          ⟨h1, _⟩ | ⟨ct, h1, _, h3⟩ | ⟨ct, _, _, h3⟩
        · rw [hf] at h1
          exact hvac _ _ (Extends_append h [] (by simpa using h1) (by simp))
        · rw [hf] at h1 h3
          dsimp only at h1 h3
          obtain ⟨evs, hl, hq⟩ := h
          refine ⟨evs ++ [Event.put (BuildKey cfg.s3Prefix (f ++ str ".enc")) ct false],
            by rw [h1, hl, List.append_assoc], ?_⟩
          intro key' ct' hmem
          rcases List.mem_append.1 hmem with hmem | hmem
          · have := hq _ hmem
            simp [isFailedPut] at this
          · simp only [List.mem_singleton, Event.put.injEq] at hmem
            rw [h3, hmem.1]
        · rw [hf] at h3; cases h3
      · exact hstart


theorem WriteFile_entries {d d' : Dir} {name data : Bytes}
    (h : WriteFile d name data = some d') :
    d'.entries = assocSet d.entries name (Node.file data) := by
  unfold WriteFile at h
  split at h
  · cases h
  · split at h
    · cases h
    · cases h
    · cases h; rfl

/-- The loop body of `pull` either leaves the world as it is and returns no error,
or it concerns an object whose name resolves to a certificate whose key loads: it
then downloads the object and either fails or writes the file named by the
object. -/
theorem pullObject_cases (E : Env) (s3Hashes : List (Bytes × Bytes)) (w : World)
    (objKey : Bytes) :
    pullObject E s3Hashes w objKey = (none, w) ∨
    ∃ c key, hasSuffix (Base objKey) (str ".enc") = true ∧
      ExtractCertName (trimSuffix (Base objKey) (str ".enc")) = (c, true) ∧
      LoadKey w.keyDir c = Except.ok key ∧
      ((∃ e, pullObject E s3Hashes w objKey =
          (some e, { w with log := w.log ++ [Event.get objKey] })) ∨
        ∃ d C', WriteFile w.certDir (trimSuffix (Base objKey) (str ".enc")) d = some C' ∧
          pullObject E s3Hashes w objKey =
            (none, { w with
              certDir := C'
              log := w.log ++ [Event.get objKey] ++
                [Event.certWrite (trimSuffix (Base objKey) (str ".enc")) d] })) := by
  unfold pullObject
  dsimp only
  by_cases hs : hasSuffix (Base objKey) (str ".enc") = true
  · rw [hs]
    simp only [Bool.not_true, Bool.false_eq_true, if_false]
    cases hx : ExtractCertName (trimSuffix (Base objKey) (str ".enc")) with
    | mk c ok =>
      cases ok with
      | false => exact Or.inl rfl
      | true =>
        dsimp only
        cases hl : LoadKey w.keyDir c with
        | error e => exact Or.inl rfl
        | ok key =>
          dsimp only
          split
          · exact Or.inl rfl
          · right
            refine ⟨c, key, trivial, rfl, hl, ?_⟩
            cases hg : GetObject w.remote objKey with
            | none => exact Or.inl ⟨_, rfl⟩
            | some body =>
              dsimp only
              cases hr : ReadAll w.remote objKey body with
              | none => exact Or.inl ⟨_, rfl⟩
              | some encryptedData =>
                dsimp only
                cases hd : DecryptData E encryptedData key with
                | none => exact Or.inl ⟨_, rfl⟩
                | some decrypted =>
                  dsimp only
                  cases hw : WriteFile w.certDir (trimSuffix (Base objKey) (str ".enc"))
                      decrypted with
                  | none => exact Or.inl ⟨_, rfl⟩
                  | some C' => exact Or.inr ⟨decrypted, C', hw, rfl⟩
  · have hs' : hasSuffix (Base objKey) (str ".enc") = false := by simpa using hs
    rw [hs']
    exact Or.inl rfl

/-- Invariants of the loop of `pull`. -/
theorem pullObjects_inv (E : Env) (s3Hashes : List (Bytes × Bytes)) (P : World → Prop)
    (h : ∀ w objKey, P w → P (pullObject E s3Hashes w objKey).2) :
    ∀ contents w, P w → P (pullObjects E s3Hashes contents w).2 := by
  intro contents
  induction contents with
  | nil => intro w hP; exact hP
  | cons objKey rest ih =>
    intro w hP
    have h1 := h w objKey hP
    unfold pullObjects
    cases hr : pullObject E s3Hashes w objKey with
    | mk r w1 =>
      rw [hr] at h1
      cases r with
      | some e => exact h1
      | none => exact ih w1 h1

/-- Invariants of `pull`: a property of the world kept by logging the manifest
fetch, the listing and the reload command, and by the loop body. -/
theorem pull_inv (E : Env) (cfg : PullConfig) (w : World) (P : World → Prop) (h0 : P w)
    (hlog : ∀ w' e, P w' →
      (e = Event.get (BuildKey cfg.s3Prefix (str ".hashes.json")) ∨ e = Event.list ∨
        e = Event.run cfg.reloadCmd) → P { w' with log := w'.log ++ [e] })
    (hobj : ∀ s3Hashes w' objKey, P w' → P (pullObject E s3Hashes w' objKey).2) :
    P (pull E cfg w).2 := by
  have hreload : ∀ w', P w' → P (runReload E cfg.reloadCmd w').2 := by
    intro w' hP
    unfold runReload
    split
    · dsimp only
      split <;> exact hlog w' _ hP (Or.inr (Or.inr rfl))
    · exact hP
  unfold pull
  split
  · exact h0
  · have hw := LoadHashesFromS3_world w cfg.s3Prefix
    have he := LoadHashesFromS3_err w cfg.s3Prefix
    cases hlh : LoadHashesFromS3 w cfg.s3Prefix with
    | mk p w1 =>
      obtain ⟨s3Hashes, err⟩ := p
      rw [hlh] at hw he
      dsimp only at hw he
      subst he
      have hP1 : P w1 := by rw [hw]; exact hlog w _ h0 (Or.inl rfl)
      dsimp only
      cases hg : globKeyFiles E cfg.keyDir w1.keyDir with
      | none => exact hP1
      | some keyFiles =>
        dsimp only
        split
        · exact hP1
        · have hP2 := hlog w1 Event.list hP1 (Or.inr (Or.inl rfl))
          cases hlo : ListObjectsV2 w1.remote
              (if cfg.s3Prefix ≠ [] then some (cfg.s3Prefix ++ str "/") else none) with
          | none => exact hP2
          | some contents =>
            dsimp only
            split
            · exact hP2
            · split
              · exact hP2
              · have hP3 := pullObjects_inv E s3Hashes P (hobj s3Hashes) contents _ hP2
                split
                · rename_i e w3 heq
                  rw [heq] at hP3
                  exact hP3
                · rename_i w3 heq
                  rw [heq] at hP3
                  exact hreload w3 hP3

theorem Base_manifestKey (pfx : Bytes) :
    Base (BuildKey pfx (str ".hashes.json")) = str ".hashes.json" :=
  Base_BuildKey pfx _ (by decide) manifest_no_slash

theorem LogExtends_append {q : Event → Bool} {base : List Event} {w w' : World}
    (h : LogExtends q base w) (evs : List Event) (hlog : w'.log = w.log ++ evs)
    (hq : ∀ e ∈ evs, q e = false) : LogExtends q base w' := by
  obtain ⟨evs0, h0, hq0⟩ := h
  refine ⟨evs0 ++ evs, by rw [hlog, h0, List.append_assoc], ?_⟩
  intro e he
  rcases List.mem_append.1 he with he | he
  · exact hq0 e he
  · exact hq e he

theorem LogExtends_runEvents {q : Event → Bool} {w w' : World} (h : LogExtends q w.log w') :
    ∀ e ∈ runEvents w w', q e = false := by
  obtain ⟨evs, hl, hq⟩ := h
  rw [runEvents_append w w' evs hl]
  exact hq

/-- The loop body of `pull` on an object whose name resolves to a certificate
without loadable key: no error, and the world is left as it is. -/
theorem pullObject_no_key (E : Env) (s3Hashes : List (Bytes × Bytes)) (w : World)
    (objKey c : Bytes) (hno : ∀ k, LoadKey w.keyDir c ≠ Except.ok k)
    (hx : ExtractCertName (trimSuffix (Base objKey) (str ".enc")) = (c, true)) :
    pullObject E s3Hashes w objKey = (none, w) := by
  rcases pullObject_cases E s3Hashes w objKey with h | ⟨c', key, _, hx', hl, _⟩
  · exact h
  · rw [hx] at hx'
    cases hx'
    exact absurd hl (hno key)


/-! ## Names written by pull -/

/-- A base name that ends in `.enc` holds no path separator. -/
theorem Base_no_slash (p : Bytes) (h : hasSuffix (Base p) (str ".enc") = true) :
    (47 : Byte) ∉ Base p := by
  have hdot : hasSuffix (str ".") (str ".enc") = false := by decide
  have hsl : hasSuffix (str "/") (str ".enc") = false := by decide
  unfold Base at h ⊢
  by_cases hp : p = []
  · rw [if_pos hp, hdot] at h; cases h
  · rw [if_neg hp] at h ⊢
    dsimp only at h ⊢
    by_cases hl : (List.takeWhile (fun c => !c == 47)
        (List.dropWhile (fun c => c == 47) (List.reverse p))).reverse = []
    · rw [if_pos hl, hsl] at h; cases h
    · rw [if_neg hl]
      intro hm
      have hm' := List.mem_reverse.1 hm
      have := List.mem_takeWhile_imp hm'
      simp at this

/-- A name that resolves to an identity ends in `.crt` or `.key`. -/
theorem ExtractCertName_true_suffix (f c : Bytes) (h : ExtractCertName f = (c, true)) :
    str ".crt" <:+ f ∨ str ".key" <:+ f := by
  unfold ExtractCertName at h
  split at h
  · rename_i h1
    simp only [Bool.and_eq_true] at h1
    exact Or.inl ((hasSuffix_iff _ _).1 h1.1)
  · split at h
    · rename_i h2
      exact Or.inr ((hasSuffix_iff _ _).1 h2)
    · cases h

/-- The name `pull` derives from an object key that resolves is safe, whatever
the key. -/
theorem safeName_of_resolves (objKey c : Bytes)
    (hs : hasSuffix (Base objKey) (str ".enc") = true)
    (hx : ExtractCertName (trimSuffix (Base objKey) (str ".enc")) = (c, true)) :
    safeName (trimSuffix (Base objKey) (str ".enc")) := by
  have hsuf := ExtractCertName_true_suffix _ _ hx
  have hlen : 4 ≤ (trimSuffix (Base objKey) (str ".enc")).length := by
    rcases hsuf with h | h
    · have := h.length_le
      have h4 : (str ".crt").length = 4 := by decide
      omega
    · have := h.length_le
      have h4 : (str ".key").length = 4 := by decide
      omega
  refine ⟨fun hm => Base_no_slash objKey hs (trimSuffix_subset _ _ _ hm), ?_, ?_, hsuf⟩
  · intro he
    rw [he] at hlen
    revert hlen
    decide
  · intro he
    rw [he] at hlen
    revert hlen
    decide

/-! ## The key file -/

/-- C13: `LoadKey` succeeds with key `k` exactly when the file `<identity>.key` can be
read and its content, with surrounding white space removed, is accepted by the
standard base64 decoder and decodes to `k` of exactly 32 bytes. It fails with a
read error when the file is absent, with a decoding error when the text is not
base64, and with a size error when the decoded payload has another length; every
key it returns has 32 bytes. -/
theorem LoadKey_succeeds_iff (keyDir : Dir) (certName : Bytes) :
    (∀ k, LoadKey keyDir certName = Except.ok k ↔
      ∃ data, ReadFile keyDir (certName ++ str ".key") = some data ∧
        b64Decode (trimSpace data) = some k ∧ k.length = 32) ∧
    (assocGet keyDir.entries (certName ++ str ".key") = none →
      LoadKey keyDir certName = Except.error Err.readKeyFile) ∧
    (∀ data, ReadFile keyDir (certName ++ str ".key") = some data →
      b64Decode (trimSpace data) = none →
      LoadKey keyDir certName = Except.error Err.decodeKey) ∧
    (∀ data decoded, ReadFile keyDir (certName ++ str ".key") = some data →
      b64Decode (trimSpace data) = some decoded → decoded.length ≠ 32 →
      LoadKey keyDir certName = Except.error (Err.invalidKeySize decoded.length)) ∧
    (∀ k, LoadKey keyDir certName = Except.ok k → k.length = 32) := by
  refine ⟨?_, ?_, ?_, ?_, fun k h => LoadKey_length h⟩
  · intro k
    constructor
    · intro h
      have hlen := LoadKey_length h
      unfold LoadKey at h
      cases hr : ReadFile keyDir (certName ++ str ".key") with
      | none => rw [hr] at h; cases h
      | some data =>
        rw [hr] at h
        dsimp only at h
        cases hd : b64Decode (trimSpace data) with
        | none => rw [hd] at h; cases h
        | some decoded =>
          rw [hd] at h
          dsimp only at h
          split at h
          · cases h
          · cases h
            exact ⟨data, rfl, hd, hlen⟩
    · rintro ⟨data, hr, hd, hlen⟩
      unfold LoadKey
      rw [hr]
      dsimp only
      rw [hd]
      simp [hlen]
  · intro h
    unfold LoadKey ReadFile
    rw [h]
  · intro data hr hd
    unfold LoadKey
    rw [hr]
    dsimp only
    rw [hd]
  · intro data decoded hr hd hlen
    unfold LoadKey
    rw [hr]
    dsimp only
    rw [hd]
    simp [hlen]

/-- Witness for C13: a key file holding `AAAA`, which decodes to three bytes. -/
theorem LoadKey_succeeds_iff_witness :
    LoadKey { emptyDir with entries := [(str "a.com.key", Node.file (str "AAAA\n"))] }
      (str "a.com") = Except.error (Err.invalidKeySize 3) :=
  (LoadKey_succeeds_iff { emptyDir with entries := [(str "a.com.key", Node.file (str "AAAA\n"))] }
    (str "a.com")).2.2.2.1 (str "AAAA\n") [0, 0, 0] (by decide) (by decide) (by decide)

/-- C14: for a 32-byte key `k`, the content `SaveKey` writes to `<identity>.key` is the
standard base64 encoding of `k` followed by one newline: the encoding has 44
characters, its last character is not a newline, and it decodes to exactly `k`. -/
theorem SaveKey_content (keyDir keyDir' : Dir) (certName k : Bytes) (hk : k.length = 32)
    (hsave : SaveKey keyDir certName k = Except.ok keyDir') :
    ReadFile keyDir' (certName ++ str ".key") = some (b64Encode k ++ [(10 : Byte)]) ∧
    (b64Encode k).length = 44 ∧
    (b64Encode k).getLast? ≠ some 10 ∧ (b64Encode k).getLast? ≠ none ∧
    b64Decode (b64Encode k) = some k ∧
    b64Decode (trimSpace (b64Encode k ++ [(10 : Byte)])) = some k := by
  have hnl : str "\n" = [(10 : Byte)] := by decide
  have hlen : (b64Encode k).length = 44 := by rw [b64Encode_length, hk]
  refine ⟨by rw [← hnl]; exact SaveKey_written hsave, hlen,
    getLast?_plain _ (b64Encode_plain k), ?_, b64Decode_encode k, ?_⟩
  · intro h
    rw [List.getLast?_eq_none_iff] at h
    rw [h] at hlen
    cases hlen
  · rw [← hnl, trimSpace_plain_newline _ (b64Encode_plain k), b64Decode_encode]

/-- Witness for C14: the key of 32 bytes `7` saved into an empty key directory. -/
theorem SaveKey_content_witness :
    ReadFile { emptyDir with entries :=
        [(str "test-cert.key", Node.file (b64Encode (List.replicate 32 7) ++ str "\n"))] }
      (str "test-cert" ++ str ".key") = some (b64Encode (List.replicate 32 7) ++ [(10 : Byte)]) :=
  (SaveKey_content emptyDir _ (str "test-cert") (List.replicate 32 7) (by decide)
    (by decide)).1

/-! ## When push puts the manifest -/

/-- C11 (counterexample): `a.com.crt` and `b.com.crt` are pushed to a bucket whose put
of `certs/b.com.crt.enc` fails. The run uploads `certs/a.com.crt.enc`, then stops
with the upload error, and puts no manifest. -/
theorem push_upload_without_manifest :
    (runEvents (sampleFaultyWorld sampleTwoCerts [str "certs/b.com.crt.enc"])
      (push sampleEnv id samplePushConfig
        (sampleFaultyWorld sampleTwoCerts [str "certs/b.com.crt.enc"])).2).any
      (isObjectUpload (str "certs/.hashes.json")) = true ∧
    (runEvents (sampleFaultyWorld sampleTwoCerts [str "certs/b.com.crt.enc"])
      (push sampleEnv id samplePushConfig
        (sampleFaultyWorld sampleTwoCerts [str "certs/b.com.crt.enc"])).2).any
      (isPutOf (str "certs/.hashes.json")) = false ∧
    (push sampleEnv id samplePushConfig
      (sampleFaultyWorld sampleTwoCerts [str "certs/b.com.crt.enc"])).1 =
      some (Err.upload (str "certs/b.com.crt.enc")) := by
  decide

/-- C11 (amended): in every `push` run a put under the manifest key happens only if
an encrypted object was uploaded in that run; in every run whose loop over the
certificates ends without error it happens if and only if an encrypted object was
uploaded in that run; when the certificate directory holds no certificate
artifact, the run performs no put at all; and a run whose loop an error stops
returns that error and puts no manifest, whatever it uploaded before. -/
theorem push_manifest_iff_uploaded (E : Env)
    (order : List (Bytes × List Bytes) → List (Bytes × List Bytes))
    (cfg : PushConfig) (w : World) (horder : ∀ l, (order l).Perm l) :
    ((∃ e ∈ runEvents w (push E order cfg w).2,
        isPutOf (BuildKey cfg.s3Prefix (str ".hashes.json")) e = true) →
      ∃ e ∈ runEvents w (push E order cfg w).2,
        isObjectUpload (BuildKey cfg.s3Prefix (str ".hashes.json")) e = true) ∧
    ((pushSync E order cfg w).1 = none →
      ((∃ e ∈ runEvents w (push E order cfg w).2,
          isPutOf (BuildKey cfg.s3Prefix (str ".hashes.json")) e = true) ↔
        ∃ e ∈ runEvents w (push E order cfg w).2,
          isObjectUpload (BuildKey cfg.s3Prefix (str ".hashes.json")) e = true)) ∧
    (artifactFiles w.certDir = [] →
      ∀ e ∈ runEvents w (push E order cfg w).2, isPut e = false) ∧
    (∀ err, (pushSync E order cfg w).1 = some err →
      (push E order cfg w).1 = some err ∧
      ∀ e ∈ runEvents w (push E order cfg w).2,
        isPutOf (BuildKey cfg.s3Prefix (str ".hashes.json")) e = false) := by
  obtain ⟨evs, hlog, hq, hup⟩ := pushSync_UploadInv E order cfg w
  obtain ⟨tail, hev, htail⟩ := push_events_exact E order cfg w evs hlog
  have htailup : ∀ e ∈ tail,
      isObjectUpload (BuildKey cfg.s3Prefix (str ".hashes.json")) e = false := by
    intro e he
    rcases htail with ⟨_, _, ok, rest, rfl, hrest⟩ | ⟨_, hrest⟩
    · rcases List.mem_cons.1 he with rfl | he
      · simp [isObjectUpload]
      · rcases hrest with rfl | rfl
        · cases he
        · simp only [List.mem_singleton] at he; subst he; rfl
    · rcases hrest with rfl | rfl
      · cases he
      · simp only [List.mem_singleton] at he; subst he; rfl
  have hfwd : (∃ e ∈ runEvents w (push E order cfg w).2,
        isPutOf (BuildKey cfg.s3Prefix (str ".hashes.json")) e = true) →
      ∃ e ∈ runEvents w (push E order cfg w).2,
        isObjectUpload (BuildKey cfg.s3Prefix (str ".hashes.json")) e = true := by
    rintro ⟨e, he, hp⟩
    rw [hev] at he ⊢
    rcases List.mem_append.1 he with he | he
    · rw [hq e he] at hp; cases hp
    · rcases htail with ⟨_, hu, _⟩ | ⟨_, hrest⟩
      · obtain ⟨e', he', hu'⟩ := hup.1 hu
        exact ⟨e', List.mem_append_left _ he', hu'⟩
      · rcases hrest with rfl | rfl
        · cases he
        · simp only [List.mem_singleton] at he; subst he; cases hp
  refine ⟨hfwd, fun hnone => ⟨hfwd, ?_⟩, ?_, ?_⟩
  · rintro ⟨e, he, hu⟩
    rw [hev] at he ⊢
    rcases List.mem_append.1 he with he | he
    · have huploaded := hup.2 ⟨e, he, hu⟩
      rcases htail with ⟨_, _, ok, rest, rfl, _⟩ | ⟨hn, _⟩
      · exact ⟨_, List.mem_append_right _ (List.mem_cons_self _ _), by simp [isPutOf]⟩
      · exact absurd ⟨hnone, huploaded⟩ hn
    · rw [htailup e he] at hu; cases hu
  · intro hnone
    exact (push_in_sync E order cfg w horder (by
      intro f hf; rw [hnone] at hf; cases hf)).2
  · intro err herr
    refine ⟨?_, ?_⟩
    · unfold push
      cases hs : pushSync E order cfg w with
      | mk r st =>
        rw [hs] at herr
        dsimp only at herr
        subst herr
        rfl
    · intro e he
      rw [hev] at he
      rcases List.mem_append.1 he with he | he
      · exact hq e he
      · rcases htail with ⟨hn, _⟩ | ⟨_, hrest⟩
        · rw [herr] at hn; cases hn
        · rcases hrest with rfl | rfl
          · cases he
          · simp only [List.mem_singleton] at he; subst he; rfl

/-- Witness for C11 (amended): with `a.com.crt` and `b.com.crt` to push and the put of
`certs/b.com.crt.enc` failing, the loop stops with the upload error after it
uploaded `certs/a.com.crt.enc`, and the run puts no manifest; with `a.com.crt` and
`a.com.key` pushed without fault, the run uploads and puts the manifest. -/
theorem push_manifest_iff_uploaded_witness :
    (pushSync sampleEnv id samplePushConfig
      (sampleFaultyWorld sampleTwoCerts [str "certs/b.com.crt.enc"])).1 =
      some (Err.upload (str "certs/b.com.crt.enc")) ∧
    (runEvents (sampleFaultyWorld sampleTwoCerts [str "certs/b.com.crt.enc"])
      (push sampleEnv id samplePushConfig
        (sampleFaultyWorld sampleTwoCerts [str "certs/b.com.crt.enc"])).2).any
      (isPutOf (BuildKey samplePushConfig.s3Prefix (str ".hashes.json"))) = false ∧
    (runEvents (sampleWorld sampleCerts [] [])
      (push sampleEnv id samplePushConfig (sampleWorld sampleCerts [] [])).2).any
      (isPutOf (BuildKey samplePushConfig.s3Prefix (str ".hashes.json"))) = true :=
  ⟨by decide,
    List.any_eq_false.2 (fun e he => by
      rw [((push_manifest_iff_uploaded sampleEnv id samplePushConfig
        (sampleFaultyWorld sampleTwoCerts [str "certs/b.com.crt.enc"])
        (fun l => List.Perm.refl l)).2.2.2 (Err.upload (str "certs/b.com.crt.enc"))
        (by decide)).2 e he]
      simp),
    List.any_eq_true.2 (((push_manifest_iff_uploaded sampleEnv id samplePushConfig
      (sampleWorld sampleCerts [] []) (fun l => List.Perm.refl l)).2.1 (by decide)).2
      (by decide))⟩

/-! ## Upload failures -/

/-- C15 (counterexample): `a.com.crt` is pushed to a bucket whose put of the manifest
fails. The put of `certs/.hashes.json` is attempted and fails, and `push` returns
no error. -/
theorem push_manifest_failure_tolerated :
    (runEvents (sampleFaultyWorld sampleCerts [str "certs/.hashes.json"])
      (push sampleEnv id samplePushConfig
        (sampleFaultyWorld sampleCerts [str "certs/.hashes.json"])).2).any
      (fun e => isFailedPut e && isPutOf (str "certs/.hashes.json") e) = true ∧
    (push sampleEnv id samplePushConfig
      (sampleFaultyWorld sampleCerts [str "certs/.hashes.json"])).1 = none := by
  decide

/-- C15 (amended): a failed upload of an encrypted object is fatal for the `push` run:
whenever the put of an object other than the manifest fails, `push` returns the
upload error for that object. A failed put of the manifest is only logged: the
run goes on to the reload command and returns an error only if that command
fails. -/
theorem push_upload_failure_fatal (E : Env)
    (order : List (Bytes × List Bytes) → List (Bytes × List Bytes))
    (cfg : PushConfig) (w : World) :
    (∀ key ct, key ≠ BuildKey cfg.s3Prefix (str ".hashes.json") →
      Event.put key ct false ∈ runEvents w (push E order cfg w).2 →
      (push E order cfg w).1 = some (Err.upload key)) ∧
    (∀ body, Event.put (BuildKey cfg.s3Prefix (str ".hashes.json")) body false ∈
        runEvents w (push E order cfg w).2 →
      (push E order cfg w).1 =
        if cfg.reloadCmd ≠ [] ∧ E.run cfg.reloadCmd = false then some Err.runReloadCommand
        else none) := by
  constructor
  · intro key ct hk hmem
    obtain ⟨evs, hlog, hrel⟩ := pushSync_FailedPutRel E order cfg w
    obtain ⟨tail, hev, htail⟩ := push_events E order cfg w evs hlog
    rw [hev] at hmem
    have hin : Event.put key ct false ∈ evs := by
      rcases List.mem_append.1 hmem with h | h
      · exact h
      · exfalso
        rcases htail with rfl | rfl | ⟨_, _, ok, rest, rfl, hrest⟩
        · cases h
        · simp at h
        · rcases List.mem_cons.1 h with h | h
          · simp only [Event.put.injEq] at h
            exact hk h.1
          · rcases hrest with rfl | rfl
            · cases h
            · simp at h
    have hr := hrel key ct hin
    unfold push
    cases hs : pushSync E order cfg w with
    | mk r st =>
      rw [hs] at hr
      dsimp only at hr
      subst hr
      rfl
  · intro body hmem
    obtain ⟨hnone, _, _⟩ := push_manifest_put E order cfg w body false hmem
    unfold push
    cases hs : pushSync E order cfg w with
    | mk r st =>
      rw [hs] at hnone
      dsimp only at hnone
      subst hnone
      dsimp only
      exact runReload_result E cfg.reloadCmd _

/-- Witness for C15 (amended): the put of `certs/b.com.crt.enc` fails and `push` returns
the upload error for it. -/
theorem push_upload_failure_fatal_witness :
    (push sampleEnv id samplePushConfig
      (sampleFaultyWorld sampleTwoCerts [str "certs/b.com.crt.enc"])).1 =
      some (Err.upload (str "certs/b.com.crt.enc")) :=
  (push_upload_failure_fatal sampleEnv id samplePushConfig
    (sampleFaultyWorld sampleTwoCerts [str "certs/b.com.crt.enc"])).1
    (str "certs/b.com.crt.enc")
    (3 :: List.replicate 32 3 ++ str "CERT2")
    (by decide) (by decide)

/-! ## Objects without a key -/

/-- C12: when no key loads for certificate `c`, the loop body of `pull` on an object
whose name, with `.enc` stripped, resolves to `c` returns no error and leaves the
world as it is, in every state of the run; and among the events of the whole run
there is neither a download of such an object nor a write of a file that resolves
to `c`, and the certificate directory is unchanged at every such file name. -/
theorem pull_skips_missing_key (E : Env) (cfg : PullConfig) (w : World) (c : Bytes)
    (hno : ∀ k, LoadKey w.keyDir c ≠ Except.ok k) :
    (∀ s3Hashes w' objKey, w'.keyDir = w.keyDir →
      ExtractCertName (trimSuffix (Base objKey) (str ".enc")) = (c, true) →
      pullObject E s3Hashes w' objKey = (none, w')) ∧
    (∀ e ∈ runEvents w (pull E cfg w).2, concerns c e = false) ∧
    (∀ f, ExtractCertName f = (c, true) →
      assocGet (pull E cfg w).2.certDir.entries f = assocGet w.certDir.entries f) := by
  refine ⟨fun s3Hashes w' objKey hk hx =>
    pullObject_no_key E s3Hashes w' objKey c (by rw [hk]; exact hno) hx, ?_⟩
  have hinv := pull_inv E cfg w
    (fun w' => w'.keyDir = w.keyDir ∧ LogExtends (concerns c) w.log w' ∧
      ∀ f, ExtractCertName f = (c, true) →
        assocGet w'.certDir.entries f = assocGet w.certDir.entries f)
    ⟨rfl, ⟨[], by simp, by simp⟩, fun _ _ => rfl⟩
    (fun w' e hP he => by
      refine ⟨hP.1, LogExtends_append hP.2.1 [e] rfl ?_, hP.2.2⟩
      intro e' he'
      simp only [List.mem_singleton] at he'
      subst he'
      rcases he with rfl | rfl | rfl
      · simp [concerns, Base_manifestKey, manifest_not_enc]
      · rfl
      · rfl)
    (fun s3Hashes w' objKey hP => by
      rcases pullObject_cases E s3Hashes w' objKey with h | ⟨c', key, _, hx, hl, h⟩
      · rw [h]; exact hP
      · have hcc : c' ≠ c := by
          rintro rfl
          rw [hP.1] at hl
          exact hno key hl
        have hne : ∀ x, ExtractCertName (trimSuffix (Base objKey) (str ".enc")) ≠ (c, x) := by
          intro x hx2
          rw [hx] at hx2
          exact hcc (Prod.mk.inj hx2).1
        rcases h with ⟨e, h⟩ | ⟨d, C', hw, h⟩
        · rw [h]
          refine ⟨hP.1, LogExtends_append hP.2.1 [Event.get objKey] rfl ?_, hP.2.2⟩
          intro e' he'
          simp only [List.mem_singleton] at he'
          subst he'
          simp [concerns, hne]
        · rw [h]
          refine ⟨hP.1, LogExtends_append hP.2.1
            [Event.get objKey, Event.certWrite (trimSuffix (Base objKey) (str ".enc")) d]
            (by simp) ?_, ?_⟩
          · intro e' he'
            simp only [List.mem_cons, List.mem_singleton, List.not_mem_nil, or_false] at he'
            rcases he' with rfl | rfl <;> simp [concerns, hne]
          · intro f hf
            have hfn : trimSuffix (Base objKey) (str ".enc") ≠ f := by
              rintro rfl
              exact hne true hf
            show assocGet C'.entries f = _
            rw [WriteFile_entries hw, assocGet_assocSet_ne _ _ _ _ hfn]
            exact hP.2.2 f hf)
  exact ⟨LogExtends_runEvents hinv.2.1, hinv.2.2⟩

/-- Witness for C12: the bucket holds the certificates of `a.com` and `b.com`, the
key directory of the pulling host only the key of `a.com`; the certificate
directory stays without `b.com.crt`. -/
theorem pull_skips_missing_key_witness :
    assocGet (pull sampleEnv samplePullConfig samplePartialHost).2.certDir.entries
      (str "b.com.crt") = assocGet samplePartialHost.certDir.entries (str "b.com.crt") :=
  (pull_skips_missing_key sampleEnv samplePullConfig samplePartialHost (str "b.com")
    (fun k h => by
      have hl : LoadKey samplePartialHost.keyDir (str "b.com") =
          Except.error Err.readKeyFile := by decide
      rw [hl] at h
      cases h)).2.2 (str "b.com.crt") (by decide)

/-! ## Written paths -/

/-- C16: `pull` writes only direct children of the certificate directory. For every
object key, whatever string it is, the loop body of `pull` changes the certificate
directory at most at the name it derives from the key, and that name holds no
path separator, is neither `.` nor `..`, and ends in `.crt` or `.key`; hence every
file write among the events of a `pull` run, and every name at which the run
changes the certificate directory, is such a name. -/
theorem pull_writes_direct_children (E : Env) (cfg : PullConfig) (w : World) :
    (∀ s3Hashes w' objKey n,
      assocGet (pullObject E s3Hashes w' objKey).2.certDir.entries n ≠
        assocGet w'.certDir.entries n →
      n = trimSuffix (Base objKey) (str ".enc") ∧ safeName n) ∧
    (∀ name d, Event.certWrite name d ∈ runEvents w (pull E cfg w).2 → safeName name) ∧
    (∀ n, assocGet (pull E cfg w).2.certDir.entries n ≠ assocGet w.certDir.entries n →
      safeName n) := by
  have hbody : ∀ s3Hashes w' objKey n,
      assocGet (pullObject E s3Hashes w' objKey).2.certDir.entries n ≠
        assocGet w'.certDir.entries n →
      n = trimSuffix (Base objKey) (str ".enc") ∧ safeName n := by
    intro s3Hashes w' objKey n hne
    rcases pullObject_cases E s3Hashes w' objKey with h | ⟨c, key, hs, hx, _, h⟩
    · rw [h] at hne; exact absurd rfl hne
    · rcases h with ⟨e, h⟩ | ⟨d, C', hw, h⟩
      · rw [h] at hne; exact absurd rfl hne
      · rw [h] at hne
        have hn : trimSuffix (Base objKey) (str ".enc") = n := by
          by_contra hnn
          apply hne
          show assocGet C'.entries n = _
          rw [WriteFile_entries hw, assocGet_assocSet_ne _ _ _ _ hnn]
        subst hn
        exact ⟨rfl, safeName_of_resolves objKey c hs hx⟩
  have hinv := pull_inv E cfg w
    (fun w' => LogExtends unsafeWrite w.log w' ∧
      ∀ n, assocGet w'.certDir.entries n ≠ assocGet w.certDir.entries n → safeName n)
    ⟨⟨[], by simp, by simp⟩, fun n h => absurd rfl h⟩
    (fun w' e hP he => by
      refine ⟨LogExtends_append hP.1 [e] rfl ?_, hP.2⟩
      intro e' he'
      simp only [List.mem_singleton] at he'
      subst he'
      rcases he with rfl | rfl | rfl <;> rfl)
    (fun s3Hashes w' objKey hP => by
      refine ⟨?_, ?_⟩
      · rcases pullObject_cases E s3Hashes w' objKey with h | ⟨c, key, hs, hx, _, h⟩
        · rw [h]; exact hP.1
        · rcases h with ⟨e, h⟩ | ⟨d, C', hw, h⟩
          · rw [h]
            exact LogExtends_append hP.1 [Event.get objKey] rfl (by simp [unsafeWrite])
          · rw [h]
            refine LogExtends_append hP.1
              [Event.get objKey, Event.certWrite (trimSuffix (Base objKey) (str ".enc")) d]
              (by simp) ?_
            intro e' he'
            simp only [List.mem_cons, List.mem_singleton, List.not_mem_nil, or_false] at he'
            rcases he' with rfl | rfl
            · rfl
            · simp [unsafeWrite, safeName_of_resolves objKey c hs hx]
      · intro n hne
        by_cases hsame : assocGet (pullObject E s3Hashes w' objKey).2.certDir.entries n =
            assocGet w'.certDir.entries n
        · exact hP.2 n (by rw [← hsame]; exact hne)
        · exact (hbody s3Hashes w' objKey n hsame).2)
  refine ⟨hbody, ?_, hinv.2⟩
  intro name d hmem
  have := LogExtends_runEvents hinv.1 _ hmem
  simpa [unsafeWrite] using this

/-- Witness for C16: an object whose key climbs out of the prefix is written under
its last path element. -/
theorem pull_writes_direct_children_witness :
    str "x.crt" = trimSuffix (Base (str "certs/../../etc/x.crt.enc")) (str ".enc") ∧
    safeName (str "x.crt") :=
  (pull_writes_direct_children sampleEnv samplePullConfig sampleClimbingHost).1 []
    sampleClimbingHost (str "certs/../../etc/x.crt.enc") (str "x.crt") (by decide)
